import Mathlib

/-! Persistence pool of qbs (`src/lib/corelib/tools/persistence.h`) and the
start of a target (`src/lib/corelib/api/runenvironment.cpp`).

A shallow embedding of `qbs::Internal::PersistentPool`: the identity tracker
(`storeSharedObject`, `idLoad`, `idLoadS`), the variadic `store` and `load`,
the helpers of the integral types, of `long`, of pointers, strings and
containers, over a byte-level model of the `QDataStream` the pool writes to
and reads from; and of `findExecutable` and `RunEnvironment::runTarget`.
-/

namespace qbs
namespace Internal

/-! ## The byte stream

`m_stream` is a `QDataStream` of Qt.  Integers are written and read in a fixed
width, most significant byte first.  A read that finds too few bytes does not
fail: it takes what is left, sets the status of the stream to `ReadPastEnd`
and gives the value `0`; later reads go on in the same way.  Nothing in
`persistence.h` looks at the status or throws. -/

/-- Status of a `QDataStream`; only the two values the pool can reach. -/
inductive Status where
  | Ok
  | ReadPastEnd
  deriving DecidableEq, Repr

/-- The `n` bytes of `v mod 256^n`, most significant byte first
(`QDataStream` defaults to big-endian). -/
def encodeBE : Nat → Nat → List Nat
  | 0, _ => []
  | n + 1, v => (v / 256 ^ n % 256) :: encodeBE n v

/-- Big-endian value of a byte sequence. -/
def decodeBE (bs : List Nat) : Nat :=
  bs.foldl (fun acc b => acc * 256 + b) 0

/-- Two's-complement reading of an `n`-byte unsigned value. -/
def toSigned (n : Nat) (u : Nat) : Int :=
  if 2 * u < 256 ^ n then (u : Int) else (u : Int) - (256 ^ n : Nat)

/-- Bytes of a signed value in `n`-byte two's complement. -/
def encodeInt (n : Nat) (v : Int) : List Nat :=
  encodeBE n (v % ((256 ^ n : Nat) : Int)).toNat

/-- A runtime address of an object (write side) or of a loaded instance
(read side): the index of the object in the heap. -/
abbrev Addr := Nat

/-- A `QString`, as its sequence of UTF-16 code units. -/
abbrev QString := List Nat

/-- The data members of `PersistentPool`.  `m_stream` is the content of the
device behind the `QDataStream`: in a write session the bytes written so far,
in a read session the bytes not yet consumed; `m_status` is the stream's
status, which the pool never inspects.  A null entry of `m_loadedRaw` or
`m_loaded` is `none`.  `m_storageIndices` is the `QHash` from addresses to
ids, kept as an association list with unique keys.  An id
(`PersistentObjectId`, an `int`) is an integer. -/
structure PersistentPool where
  m_stream : List Nat
  m_status : Status
  m_loadedRaw : List (Option Addr)
  m_loaded : List (Option Addr)
  m_storageIndices : List (Addr × Int)
  m_lastStoredObjectId : Int
  m_stringStorage : List QString
  m_inverseStringStorage : List (QString × Int)
  m_lastStoredStringId : Int
  deriving DecidableEq, Repr

/-- Writing a fixed-width integer: `m_stream << value`, `n` bytes. -/
def writeInt (n : Nat) (v : Int) (pool : PersistentPool) : PersistentPool :=
  { pool with m_stream := pool.m_stream ++ encodeInt n v }

/-- Reading `n` raw bytes as an unsigned number: when fewer than `n` bytes are
left the device is drained, the status becomes `ReadPastEnd` (unless an error
was already recorded) and the value read is `0`. -/
def readUInt (n : Nat) (pool : PersistentPool) : Nat × PersistentPool :=
  if n ≤ pool.m_stream.length then
    (decodeBE (pool.m_stream.take n), { pool with m_stream := pool.m_stream.drop n })
  else
    (0, { pool with m_stream := [], m_status := Status.ReadPastEnd })

/-- Reading a signed fixed-width integer: `m_stream >> value`. -/
def readInt (n : Nat) (pool : PersistentPool) : Int × PersistentPool :=
  ((toSigned n (readUInt n pool).1), (readUInt n pool).2)

/-! ## `QHash` / `QMap` as association lists -/

/-- The call `QHash::value(key, defaultValue)`. -/
def QHash.value {κ ν : Type} [DecidableEq κ] (h : List (κ × ν)) (key : κ) (dflt : ν) : ν :=
  match h.lookup key with
  | some v => v
  | none => dflt

/-- The call `QHash::insert(key, value)` (also `QMap::insert`): replaces the
value of a key that is present, adds the pair otherwise. -/
def QHash.insert {κ ν : Type} [DecidableEq κ] (h : List (κ × ν)) (key : κ) (v : ν) :
    List (κ × ν) :=
  if key ∈ h.map Prod.fst then h.map (fun e => if e.1 = key then (key, v) else e)
  else h ++ [(key, v)]

/-- The call `std::unordered_map::insert(pair)`: a key that is present keeps
its value. -/
def UnorderedMap.insert {κ ν : Type} [DecidableEq κ] (h : List (κ × ν)) (e : κ × ν) :
    List (κ × ν) :=
  if e.1 ∈ h.map Prod.fst then h else h ++ [e]

/-- The call `std::vector::resize(n)` on a table of pointers: new slots are
null. -/
def resize (tbl : List (Option Addr)) (n : Nat) : List (Option Addr) :=
  tbl.take n ++ List.replicate (n - tbl.length) none

/-! ## Payload classes

The pool is generic over the classes it persists; a class reaches the pool
through the generic `Helper`, which calls the object's own `store` and `load`
member functions.  Those classes (the build graph and project model) are in
other files of the repository; the spec treats them as "arbitrary
serializable payloads".  Here a class is a list of members, each a 32-bit
integer or a handle (shared, unique or raw pointer) to an object of a
statically known class, and its `store`/`load` pass the members to
`pool.store(...)` / `pool.load(...)` in declaration order. -/

/-- The three pointer types the pool has a `Helper` for. -/
inductive HandleKind where
  | shared
  | unique
  | raw
  deriving DecidableEq, Repr

/-- Class names. -/
abbrev Cls := Nat

/-- Static type of a member. -/
inductive FieldTy where
  | int
  | handle (k : HandleKind) (c : Cls)
  deriving DecidableEq, Repr

/-- Value of a member; a null handle is `none`. -/
inductive Field where
  | int (v : Int)
  | handle (k : HandleKind) (p : Option Addr)
  deriving DecidableEq, Repr

/-- An object: its class and the values of its members. -/
structure Obj where
  cls : Cls
  fields : List Field
  deriving DecidableEq, Repr

/-- The objects of the process, by address. -/
abbrev Heap := List Obj

/-- The members each class declares. -/
abbrev Schema := Cls → List FieldTy

/-- Modelled from the spec: the default constructor of a payload class, which
is in another file; a member of a default-constructed object is zero or
null. -/
def FieldTy.default : FieldTy → Field
  | .int => .int 0
  | .handle k _ => .handle k none

/-- Modelled from the spec: `new T` and `T::create()` for a payload class
`T`, which is in another file; decoding "allocates a fresh instance", a
default-constructed object of the class. -/
def Obj.create (S : Schema) (T : Cls) : Obj :=
  { cls := T, fields := (S T).map FieldTy.default }

/-! ## Write side -/

/-- The integral `Helper`, `store`: `pool->m_stream << value` for a type of
`n` bytes. -/
def HelperIntegral.store (n : Nat) (value : Int) (pool : PersistentPool) : PersistentPool :=
  writeInt n value pool

/-- Modelled from the spec: the `store` member function of a payload class,
which is in another file, as the pool's generic `Helper` expects it
(`object.store(*pool)`): it stores the members with `pool.store(member)`.
This is the store of one member.  Integers go through the integral helper,
every handle through `storeSharedObject` on the pointer it holds
(`Helper<std::shared_ptr<T>>` and `Helper<std::unique_ptr<T>>` call
`pool->store(value.get())`, `Helper<T *>` calls `storeSharedObject`). -/
def storeField (sso : PersistentPool → Option Addr → Option PersistentPool)
    (pool : PersistentPool) : Field → Option PersistentPool
  | .int v => some (HelperIntegral.store 4 v pool)
  | .handle _ p => sso pool p

/-- `PersistentPool::storeSharedObject(const T *object)`.  The first argument
bounds the nesting depth of the recursion into object bodies; the heap is the
memory the pointers point into (a pointer outside it is dangling and the call
has no result).  The counter `m_lastStoredObjectId` is an `int` in the source
and an integer without bound here: the two agree as long as the counter stays
within `int`, and the statements about it are made under that bound. -/
def storeSharedObject : Nat → Heap → PersistentPool → Option Addr → Option PersistentPool
  | 0, _, _, _ => none
  | _ + 1, _, pool, none => some (writeInt 4 (-1) pool)
  | fuel + 1, heap, pool, some addr =>
    let id := QHash.value pool.m_storageIndices addr (-1)
    if id < 0 then
      let id := pool.m_lastStoredObjectId
      let pool := { pool with m_lastStoredObjectId := pool.m_lastStoredObjectId + 1 }
      let pool := { pool with m_storageIndices := QHash.insert pool.m_storageIndices addr id }
      let pool := writeInt 4 id pool
      match heap[addr]? with
      | none => none
      | some object => object.fields.foldlM (storeField (storeSharedObject fuel heap)) pool
    else
      some (writeInt 4 id pool)

/-! ## Read side -/

/-- What a load works on: the pool and the memory instances are allocated in. -/
structure ReadSide where
  pool : PersistentPool
  heap : Heap
  deriving DecidableEq, Repr

/-- The integral `Helper`, `load`: `pool->m_stream >> value` for a signed type
of `n` bytes. -/
def HelperIntegral.load (n : Nat) (r : ReadSide) : Int × ReadSide :=
  ((readInt n r.pool).1, { r with pool := (readInt n r.pool).2 })

/-- Modelled from the spec: the `load` member function of a payload class,
which is in another file, as the pool's generic `Helper` expects it
(`object.load(*pool)`): it loads the members with `pool.load(member)`.  This
is the load of one member; a shared pointer is decoded by `idLoadS`, a unique
or raw pointer by `idLoad`. -/
def loadField (ldRaw ldShared : Cls → ReadSide → Option (Option Addr × ReadSide))
    (r : ReadSide) : FieldTy → Option (Field × ReadSide)
  | .int => some (.int (HelperIntegral.load 4 r).1, (HelperIntegral.load 4 r).2)
  | .handle .shared c =>
    match ldShared c r with
    | some (p, r1) => some (.handle .shared p, r1)
    | none => none
  | .handle k c =>
    match ldRaw c r with
    | some (p, r1) => some (.handle k p, r1)
    | none => none

/-- Modelled from the spec: the `load` member function of a payload class,
loading the members in declaration order. -/
def loadFields (ld : ReadSide → FieldTy → Option (Field × ReadSide)) :
    List FieldTy → ReadSide → Option (List Field × ReadSide)
  | [], r => some ([], r)
  | ty :: tys, r =>
    match ld r ty with
    | none => none
    | some (f, r1) =>
      match loadFields ld tys r1 with
      | none => none
      | some (fs, r2) => some (f :: fs, r2)

/-- The call `load(*t)` on the instance at address `t` of class `T`, which
the generic `Helper` passes on to the object's `load`: the members are read in
order and become the body of the instance.  No other code looks at the
members of an instance while it is being loaded, so assigning them together
at the end is not observable. -/
def loadObject (ld : ReadSide → FieldTy → Option (Field × ReadSide)) (S : Schema) (T : Cls)
    (t : Addr) (r : ReadSide) : Option ReadSide :=
  match loadFields ld (S T) r with
  | none => none
  | some (fs, r1) => some { r1 with heap := r1.heap.set t { cls := T, fields := fs } }

mutual
/-- `PersistentPool::idLoad<T>()`.  The expression `id + 1` is `int` arithmetic
in the source and is computed without bound here: the two agree for an id
below `INT_MAX`. -/
def idLoad : Nat → Schema → Cls → ReadSide → Option (Option Addr × ReadSide)
  | 0, _, _, _ => none
  | fuel + 1, S, T, r =>
    let id := (readInt 4 r.pool).1
    let pool := (readInt 4 r.pool).2
    if id < 0 then some (none, { r with pool := pool })
    else if id < (pool.m_loadedRaw.length : Int) then
      some (pool.m_loadedRaw.getD id.toNat none, { r with pool := pool })
    else
      let pool := { pool with m_loadedRaw := resize pool.m_loadedRaw (id.toNat + 1) }
      let t := r.heap.length
      let heap := r.heap ++ [Obj.create S T]
      let pool := { pool with m_loadedRaw := pool.m_loadedRaw.set id.toNat (some t) }
      match loadObject (loadField (idLoad fuel S) (idLoadS fuel S)) S T t
          { pool := pool, heap := heap } with
      | none => none
      | some r1 => some (some t, r1)
/-- `PersistentPool::idLoadS<T>()`; `id + 1` as in `idLoad`. -/
def idLoadS : Nat → Schema → Cls → ReadSide → Option (Option Addr × ReadSide)
  | 0, _, _, _ => none
  | fuel + 1, S, T, r =>
    let id := (readInt 4 r.pool).1
    let pool := (readInt 4 r.pool).2
    if id < 0 then some (none, { r with pool := pool })
    else if id < (pool.m_loaded.length : Int) then
      some (pool.m_loaded.getD id.toNat none, { r with pool := pool })
    else
      let pool := { pool with m_loaded := resize pool.m_loaded (id.toNat + 1) }
      let t := r.heap.length
      let heap := r.heap ++ [Obj.create S T]
      let pool := { pool with m_loaded := pool.m_loaded.set id.toNat (some t) }
      match loadObject (loadField (idLoad fuel S) (idLoadS fuel S)) S T t
          { pool := pool, heap := heap } with
      | none => none
      | some r1 => some (some t, r1)
end

/-- The three pointer helpers, `load`: a shared pointer takes the result of
`idLoadS`, a unique pointer is reset to and a raw pointer assigned the result
of `idLoad`. -/
def HelperPointer.load (fuel : Nat) (S : Schema) : HandleKind → Cls → ReadSide →
    Option (Option Addr × ReadSide)
  | .shared, T, r => idLoadS fuel S T r
  | .unique, T, r => idLoad fuel S T r
  | .raw, T, r => idLoad fuel S T r

/-- The three pointer helpers, `store`: each passes the held pointer to
`storeSharedObject`. -/
def HelperPointer.store (fuel : Nat) (heap : Heap) : HandleKind → Option Addr →
    PersistentPool → Option PersistentPool
  | .shared, value, pool => storeSharedObject fuel heap pool value
  | .unique, value, pool => storeSharedObject fuel heap pool value
  | .raw, value, pool => storeSharedObject fuel heap pool value

/-- Modelled from the spec: `PersistentPool::clear`, whose body is in
`persistence.cpp`; it "resets all identity/string state", the tables and the
two counters, and leaves the stream alone. -/
def PersistentPool.clear (pool : PersistentPool) : PersistentPool :=
  { pool with
    m_loadedRaw := [], m_loaded := [], m_storageIndices := [], m_lastStoredObjectId := 0,
    m_stringStorage := [], m_inverseStringStorage := [], m_lastStoredStringId := 0 }

/-! ## Containers

A container helper is generic in the element type; the element's own helper
is passed as `storeElem` (the call `pool->store(element)`) and `loadElem` (the
call `pool->load<T>()`).  A sequence is the list of its elements, a mapping the
list of its entries in iteration order. -/

/-- The call `container.clear()`. -/
def Container.clear {α : Type} (_container : List α) : List α := []

/-- Runs `pool->load<T>()` `n` times, appending each result with `push_back`. -/
def pushBackLoop {α : Type} (loadElem : ReadSide → Option (α × ReadSide)) :
    Nat → List α → ReadSide → Option (List α × ReadSide)
  | 0, container, r => some (container, r)
  | n + 1, container, r =>
    match loadElem r with
    | none => none
    | some (x, r1) => pushBackLoop loadElem n (container ++ [x]) r1

/-- `Helper<T, IsSimpleContainer>::store`. -/
def HelperSimpleContainer.store {α : Type} (storeElem : α → PersistentPool → Option PersistentPool)
    (container : List α) (pool : PersistentPool) : Option PersistentPool :=
  container.foldlM (fun pool x => storeElem x pool)
    (HelperIntegral.store 4 (container.length : Int) pool)

/-- `Helper<T, IsSimpleContainer>::load`; the loop `for (int i = count; --i >= 0;)`
runs `count` times for a positive `count` and not at all otherwise. -/
def HelperSimpleContainer.load {α : Type} (loadElem : ReadSide → Option (α × ReadSide))
    (container : List α) (r : ReadSide) : Option (List α × ReadSide) :=
  let count := (HelperIntegral.load 4 r).1
  let r := (HelperIntegral.load 4 r).2
  let container := Container.clear container
  pushBackLoop loadElem count.toNat container r

/-- Runs `n` times: load a key, load a value, `container.insert(key, value)`. -/
def insertLoop {κ ν : Type} [DecidableEq κ] (loadKey : ReadSide → Option (κ × ReadSide))
    (loadValue : ReadSide → Option (ν × ReadSide)) :
    Nat → List (κ × ν) → ReadSide → Option (List (κ × ν) × ReadSide)
  | 0, container, r => some (container, r)
  | n + 1, container, r =>
    match loadKey r with
    | none => none
    | some (key, r1) =>
      match loadValue r1 with
      | none => none
      | some (value, r2) => insertLoop loadKey loadValue n (QHash.insert container key value) r2

/-- `Helper<T, IsKeyValueContainer>::store` (`QMap`, `QHash`). -/
def HelperKeyValueContainer.store {κ ν : Type}
    (storeKey : κ → PersistentPool → Option PersistentPool)
    (storeValue : ν → PersistentPool → Option PersistentPool)
    (container : List (κ × ν)) (pool : PersistentPool) : Option PersistentPool :=
  container.foldlM (fun pool e => (storeKey e.1 pool).bind (storeValue e.2))
    (HelperIntegral.store 4 (container.length : Int) pool)

/-- `Helper<T, IsKeyValueContainer>::load` (`QMap`, `QHash`). -/
def HelperKeyValueContainer.load {κ ν : Type} [DecidableEq κ]
    (loadKey : ReadSide → Option (κ × ReadSide)) (loadValue : ReadSide → Option (ν × ReadSide))
    (container : List (κ × ν)) (r : ReadSide) : Option (List (κ × ν) × ReadSide) :=
  let container := Container.clear container
  let count := (HelperIntegral.load 4 r).1
  let r := (HelperIntegral.load 4 r).2
  insertLoop loadKey loadValue count.toNat container r

/-- `Helper<std::pair<T, U>>::store`. -/
def HelperPair.store {α β : Type} (storeFirst : α → PersistentPool → Option PersistentPool)
    (storeSecond : β → PersistentPool → Option PersistentPool)
    (pair : α × β) (pool : PersistentPool) : Option PersistentPool :=
  (storeFirst pair.1 pool).bind (storeSecond pair.2)

/-- `Helper<std::pair<T, U>>::load`, on the members of the destination; the
member helpers get the member as their destination. -/
def HelperPair.load {α β : Type} (loadFirst : α → ReadSide → Option (α × ReadSide))
    (loadSecond : β → ReadSide → Option (β × ReadSide))
    (pair : α × β) (r : ReadSide) : Option ((α × β) × ReadSide) :=
  match loadFirst pair.1 r with
  | none => none
  | some (a, r1) =>
    match loadSecond pair.2 r1 with
    | none => none
    | some (b, r2) => some ((a, b), r2)

/-- Runs `n` times: `map.insert(pool->load<std::pair<K, V>>())`. -/
def insertPairLoop {κ ν : Type} [DecidableEq κ] (loadPair : ReadSide → Option ((κ × ν) × ReadSide)) :
    Nat → List (κ × ν) → ReadSide → Option (List (κ × ν) × ReadSide)
  | 0, map, r => some (map, r)
  | n + 1, map, r =>
    match loadPair r with
    | none => none
    | some (e, r1) => insertPairLoop loadPair n (UnorderedMap.insert map e) r1

/-- `Helper<std::unordered_map<K, V, H>>::store`; the size is written as a
`quint32`. -/
def HelperUnorderedMap.store {κ ν : Type}
    (storePair : κ × ν → PersistentPool → Option PersistentPool)
    (map : List (κ × ν)) (pool : PersistentPool) : Option PersistentPool :=
  map.foldlM (fun pool e => storePair e pool) (HelperIntegral.store 4 (map.length : Int) pool)

/-- `Helper<std::unordered_map<K, V, H>>::load`; the count is read as a
`quint32`. -/
def HelperUnorderedMap.load {κ ν : Type} [DecidableEq κ]
    (loadPair : ReadSide → Option ((κ × ν) × ReadSide))
    (map : List (κ × ν)) (r : ReadSide) : Option (List (κ × ν) × ReadSide) :=
  let map := Container.clear map
  let count := (readUInt 4 r.pool).1
  let r := { r with pool := (readUInt 4 r.pool).2 }
  insertPairLoop loadPair count map r

/-- A `QProcessEnvironment`: its variables, name and value. -/
abbrev QProcessEnvironment := List (QString × QString)

/-- `Helper<QProcessEnvironment>::store`; `storeString` is `Helper<QString>::store`,
whose body (`storeString`) is in `persistence.cpp`. -/
def HelperQProcessEnvironment.store (storeString : QString → PersistentPool → Option PersistentPool)
    (env : QProcessEnvironment) (pool : PersistentPool) : Option PersistentPool :=
  let keys := env.map Prod.fst
  keys.foldlM (fun pool key => (storeString key pool).bind (storeString (QHash.value env key [])))
    (HelperIntegral.store 4 (keys.length : Int) pool)

/-- `Helper<QProcessEnvironment>::load`; `loadString` is `pool->load<QString>()`,
whose body (`idLoadString`) is in `persistence.cpp`. -/
def HelperQProcessEnvironment.load (loadString : ReadSide → Option (QString × ReadSide))
    (env : QProcessEnvironment) (r : ReadSide) : Option (QProcessEnvironment × ReadSide) :=
  let count := (HelperIntegral.load 4 r).1
  let r := (HelperIntegral.load 4 r).2
  insertLoop loadString loadString count.toNat env r

/-- The integral helper as an element helper, `store` (32-bit `int`). -/
def storeInt32 (value : Int) (pool : PersistentPool) : Option PersistentPool :=
  some (HelperIntegral.store 4 value pool)

/-- The integral helper as an element helper, `pool->load<int>()`. -/
def loadInt32 (r : ReadSide) : Option (Int × ReadSide) :=
  some (HelperIntegral.load 4 r)

/-! ## Predicates used in the statements -/

/-- The signed values an `n`-byte integer can hold. -/
def InRange (n : Nat) (v : Int) : Prop :=
  -((256 ^ n : Nat) : Int) ≤ 2 * v ∧ 2 * v < ((256 ^ n : Nat) : Int)

instance (n : Nat) (v : Int) : Decidable (InRange n v) := by
  unfold InRange
  infer_instance

/-- The addresses recorded in the identity map, in the order they were
recorded. -/
def PersistentPool.storedAddrs (pool : PersistentPool) : List Addr :=
  pool.m_storageIndices.map Prod.fst

/-- The identity-record invariant: the counter is not negative, no address is
recorded twice, and the ids recorded are `0, 1, ..., counter - 1` in the order
the addresses were recorded. -/
structure IdentityInv (pool : PersistentPool) : Prop where
  nonneg : 0 ≤ pool.m_lastStoredObjectId
  nodup : pool.storedAddrs.Nodup
  ids : pool.m_storageIndices.map Prod.snd =
    (List.range pool.m_lastStoredObjectId.toNat).map Int.ofNat

/-- One store call of a write session: a handle of any kind (which reaches
`storeSharedObject`, with whatever objects are in memory at that time), an
integer, or a value of another type, whose helper leaves the identity map and
its counter alone. -/
inductive WriteStep : PersistentPool → PersistentPool → Prop where
  | handle (fuel : Nat) (heap : Heap) (pool : PersistentPool) (p : Option Addr)
      (pool1 : PersistentPool) :
      storeSharedObject fuel heap pool p = some pool1 → WriteStep pool pool1
  | integral (n : Nat) (value : Int) (pool : PersistentPool) :
      WriteStep pool (HelperIntegral.store n value pool)
  | other (pool pool1 : PersistentPool) :
      pool1.m_storageIndices = pool.m_storageIndices →
      pool1.m_lastStoredObjectId = pool.m_lastStoredObjectId → WriteStep pool pool1

/-- The states of a write session: those reached from a cleared pool by store
calls. -/
inductive WriteSession : PersistentPool → Prop where
  | start (pool : PersistentPool) : WriteSession pool.clear
  | step (pool pool1 : PersistentPool) :
      WriteSession pool → WriteStep pool pool1 → WriteSession pool1

/-- What a store call may change between two states of a write session: the
stream and the identity map grow at the end, the counter does not decrease,
the read-side members stay. -/
structure Ext (w w1 : PersistentPool) : Prop where
  stream : w.m_stream <+: w1.m_stream
  idx : w.m_storageIndices <+: w1.m_storageIndices
  next : w.m_lastStoredObjectId ≤ w1.m_lastStoredObjectId
  status : w1.m_status = w.m_status
  loaded : w1.m_loaded = w.m_loaded
  loadedRaw : w1.m_loadedRaw = w.m_loadedRaw

/-- Every address recorded between `w` and `w1` is an object of the heap all
of whose handles point at addresses recorded in `w1`. -/
def Closed (heap : Heap) (w w1 : PersistentPool) : Prop :=
  ∀ a ∈ w1.storedAddrs, a ∉ w.storedAddrs →
    ∃ o, heap[a]? = some o ∧ ∀ k b, Field.handle k (some b) ∈ o.fields → b ∈ w1.storedAddrs

/-- What a call of `storeSharedObject` from `w` to `w1` on `p` guarantees. -/
def StoreSpec (heap : Heap) (w : PersistentPool) (p : Option Addr) (w1 : PersistentPool) : Prop :=
  IdentityInv w →
    Ext w w1 ∧ IdentityInv w1 ∧ Closed heap w w1 ∧ ∀ a, p = some a → a ∈ w1.storedAddrs

/-- The state of `storeSharedObject` after it has recorded a new address and
written its id, before the body is stored. -/
def registered (w : PersistentPool) (addr : Addr) : PersistentPool :=
  writeInt 4 w.m_lastStoredObjectId
    { w with
      m_lastStoredObjectId := w.m_lastStoredObjectId + 1
      m_storageIndices := QHash.insert w.m_storageIndices addr w.m_lastStoredObjectId }

/-- What a load may change between two states of a read session: the two
tables and the memory grow at the end, the stream loses bytes at the front,
the write-side members stay. -/
structure LoadExt (r r1 : ReadSide) : Prop where
  raw : r.pool.m_loadedRaw <+: r1.pool.m_loadedRaw
  shared : r.pool.m_loaded <+: r1.pool.m_loaded
  heap : r.heap <+: r1.heap
  stream : r1.pool.m_stream <:+ r.pool.m_stream
  idx : r1.pool.m_storageIndices = r.pool.m_storageIndices
  next : r1.pool.m_lastStoredObjectId = r.pool.m_lastStoredObjectId

/-- One load call of a read session: a pointer decoded by `idLoad` or by
`idLoadS`, or an integer. -/
inductive ReadStep : ReadSide → ReadSide → Prop where
  | idLoad (fuel : Nat) (S : Schema) (T : Cls) (r : ReadSide) (p : Option Addr) (r1 : ReadSide) :
      idLoad fuel S T r = some (p, r1) → ReadStep r r1
  | idLoadS (fuel : Nat) (S : Schema) (T : Cls) (r : ReadSide) (p : Option Addr) (r1 : ReadSide) :
      idLoadS fuel S T r = some (p, r1) → ReadStep r r1
  | integral (n : Nat) (r : ReadSide) : ReadStep r (HelperIntegral.load n r).2

/-- The state of `idLoad` after it has read a never-seen `id`, resized the
table, allocated the instance and recorded it, before the body is loaded. -/
def allocatedRaw (S : Schema) (T : Cls) (r : ReadSide) (id : Int) : ReadSide :=
  { pool :=
      { (readInt 4 r.pool).2 with
        m_loadedRaw :=
          (resize (readInt 4 r.pool).2.m_loadedRaw (id.toNat + 1)).set id.toNat
            (some r.heap.length) }
    heap := r.heap ++ [Obj.create S T] }

/-- The state of `idLoadS` after it has read a never-seen `id`, resized the
table, created the instance and recorded it, before the body is loaded. -/
def allocatedShared (S : Schema) (T : Cls) (r : ReadSide) (id : Int) : ReadSide :=
  { pool :=
      { (readInt 4 r.pool).2 with
        m_loaded :=
          (resize (readInt 4 r.pool).2.m_loaded (id.toNat + 1)).set id.toNat
            (some r.heap.length) }
    heap := r.heap ++ [Obj.create S T] }

/-- A decoder (`idLoad<T>` or `idLoadS<T>` at some depth) only extends the
state. -/
def LoaderExt (ld : Cls → ReadSide → Option (Option Addr × ReadSide)) : Prop :=
  ∀ T r p r1, ld T r = some (p, r1) → LoadExt r r1

/-- Whether a pointer type is `std::shared_ptr` (decoded by `idLoadS`) rather
than a unique or raw pointer (decoded by `idLoad`). -/
def HandleKind.isShared : HandleKind → Bool
  | .shared => true
  | .unique => false
  | .raw => false

/-- A member value fits its static type: an integer is a 32-bit `int`, a
handle has the declared pointer type and points at nothing or at an object of
the declared class. -/
def Field.hasType (heap : Heap) : Field → FieldTy → Bool
  | .int v, .int => decide (InRange 4 v)
  | .handle k none, .handle k1 _ => decide (k = k1)
  | .handle k (some a), .handle k1 c =>
    decide (k = k1) &&
      (match heap[a]? with
       | some o => decide (o.cls = c)
       | none => false)
  | _, _ => false

/-- The members of an object fit the members its class declares. -/
def fieldsHaveTypes (heap : Heap) : List Field → List FieldTy → Bool
  | [], [] => true
  | f :: fs, ty :: tys => f.hasType heap ty && fieldsHaveTypes heap fs tys
  | _, _ => false

/-- Every object of the heap fits its class. -/
def Heap.wellTyped (S : Schema) (heap : Heap) : Bool :=
  heap.all fun o => fieldsHaveTypes heap o.fields (S o.cls)

/-- Every handle to an object is of the kind `sharedObj` gives for the
object: an instance is held either through shared pointers only or through
unique and raw pointers only. -/
def Heap.kindsAgree (sharedObj : Addr → Bool) (heap : Heap) : Bool :=
  heap.all fun o => o.fields.all fun f =>
    match f with
    | .handle k (some a) => k.isShared == sharedObj a
    | _ => true

/-- Where the instance for the object at `a` is found after a load into a
memory that held `base` objects: instances are allocated in id order. -/
def loadedAddr (base : Nat) (idx : List (Addr × Int)) (a : Addr) : Addr :=
  base + (QHash.value idx a (-1)).toNat

/-- A member value with its handle redirected to the loaded instance. -/
def Field.reloc (base : Nat) (idx : List (Addr × Int)) : Field → Field
  | .int v => .int v
  | .handle k p => .handle k (p.map (loadedAddr base idx))

/-- An object with every handle redirected to the loaded instance. -/
def Obj.reloc (base : Nat) (idx : List (Addr × Int)) (o : Obj) : Obj :=
  { cls := o.cls, fields := o.fields.map (Field.reloc base idx) }

/-- The write state `w` and the read state `r` at the same point of the
stream: every recorded id has its instance in the table of its kind, at the
address `base + id`, and both tables end at or before the next id. -/
structure Corr (sharedObj : Addr → Bool) (base : Nat) (w : PersistentPool) (r : ReadSide) :
    Prop where
  heap_len : (r.heap.length : Int) = base + w.m_lastStoredObjectId
  len_raw : (r.pool.m_loadedRaw.length : Int) ≤ w.m_lastStoredObjectId
  len_shared : (r.pool.m_loaded.length : Int) ≤ w.m_lastStoredObjectId
  entry : ∀ a i, (a, i) ∈ w.m_storageIndices →
    (if sharedObj a then r.pool.m_loaded else r.pool.m_loadedRaw)[i.toNat]? =
      some (some (base + i.toNat))

/-- Every object recorded between `w` and `w1` has its loaded copy in the
memory of `r1`. -/
def Loaded (heap : Heap) (base : Nat) (w w1 : PersistentPool) (r1 : ReadSide) : Prop :=
  ∀ a i, (a, i) ∈ w1.m_storageIndices → a ∉ w.storedAddrs →
    ∃ o, heap[a]? = some o ∧ r1.heap[base + i.toNat]? = some (o.reloc base w1.m_storageIndices)

/-- A handle of kind `k` and class `c` holding `p` is well-formed. -/
def HandleOK (heap : Heap) (sharedObj : Addr → Bool) (k : HandleKind) (c : Cls)
    (p : Option Addr) : Prop :=
  ∀ a, p = some a → (∃ o, heap[a]? = some o ∧ o.cls = c) ∧ k.isShared = sharedObj a

/-- The decoder the helper of a pointer of kind `k` calls. -/
def decoderOf (ldRaw ldShared : Cls → ReadSide → Option (Option Addr × ReadSide))
    (k : HandleKind) : Cls → ReadSide → Option (Option Addr × ReadSide) :=
  if k.isShared then ldShared else ldRaw

/-- Loading replays storing: whenever `sso` stores `p` from `w`, the decoder
of the handle's kind, run from a corresponding read state on the bytes
written, returns the loaded instance of `p` and ends in a corresponding
state. -/
def Sim (heap : Heap) (sharedObj : Addr → Bool) (base : Nat)
    (sso : PersistentPool → Option Addr → Option PersistentPool)
    (ldRaw ldShared : Cls → ReadSide → Option (Option Addr × ReadSide)) : Prop :=
  ∀ w p w1, sso w p = some w1 → IdentityInv w → w1.m_lastStoredObjectId ≤ 2 ^ 31 →
    ∀ k c, HandleOK heap sharedObj k c p →
    ∀ r out rest, Corr sharedObj base w r → w1.m_stream = w.m_stream ++ out →
      r.pool.m_stream = out ++ rest →
      ∃ r1, decoderOf ldRaw ldShared k c r =
          some (p.map (loadedAddr base w1.m_storageIndices), r1) ∧
        r1.pool.m_stream = rest ∧ r1.pool.m_status = r.pool.m_status ∧
        Corr sharedObj base w1 r1 ∧ Loaded heap base w w1 r1

/-- The object at `a` holds a handle to the object at `b`. -/
def Edge (heap : Heap) (a b : Addr) : Prop :=
  ∃ o k, heap[a]? = some o ∧ Field.handle k (some b) ∈ o.fields

/-- The object at `a` belongs to the graph of `root`: it is reached from the
object `root` points at by following handles. -/
def Reach (heap : Heap) (root : Option Addr) (a : Addr) : Prop :=
  ∃ r, root = some r ∧ Relation.ReflTransGen (Edge heap) r a

/-! ## Concrete pools and graphs -/

/-- A pool as constructed: empty stream and tables, counters at zero. -/
def emptyPool : PersistentPool :=
  { m_stream := [], m_status := Status.Ok, m_loadedRaw := [], m_loaded := [],
    m_storageIndices := [], m_lastStoredObjectId := 0, m_stringStorage := [],
    m_inverseStringStorage := [], m_lastStoredStringId := 0 }

/-- Class 0 of the cycle example: an integer and a shared pointer to class 0. -/
def cycleSchema : Schema := fun _ => [.int, .handle .shared 0]

/-- Two objects `A` (address 0) and `B` (address 1) that reference each other. -/
def cycleHeap : Heap :=
  [{ cls := 0, fields := [.int 7, .handle .shared (some 1)] },
   { cls := 0, fields := [.int (-3), .handle .shared (some 0)] }]

/-- Classes of the sharing example: 0 is the root with two children, 1 a child
with a number and a leaf, 2 the leaf. -/
def diamondSchema : Schema := fun c =>
  match c with
  | 0 => [.handle .shared 1, .handle .shared 1]
  | 1 => [.int, .handle .shared 2]
  | _ => [.int]

/-- The graph `root -> {childA, childB}`, both children holding the same
`leaf`: root at 0, `childA` at 1, `childB` at 2, `leaf` at 3. -/
def diamondHeap : Heap :=
  [{ cls := 0, fields := [.handle .shared (some 1), .handle .shared (some 2)] },
   { cls := 1, fields := [.int 10, .handle .shared (some 3)] },
   { cls := 1, fields := [.int 20, .handle .shared (some 3)] },
   { cls := 2, fields := [.int 99] }]

/-- Classes of the mixed-kind sharing example: 0 is the root, holding one raw
and two shared pointers to class 1; class 1 has a number. -/
def mixedSchema : Schema := fun c =>
  match c with
  | 0 => [.handle .raw 1, .handle .shared 1, .handle .shared 1]
  | _ => [.int]

/-- A root at address 0 that holds the object `x` at address 1 through a raw
pointer and through two shared pointers. -/
def mixedHeap : Heap :=
  [{ cls := 0,
     fields := [.handle .raw (some 1), .handle .shared (some 1), .handle .shared (some 1)] },
   { cls := 1, fields := [.int 7] }]

/-- A read state in the middle of a load session: one instance of class 0 of
`cycleSchema` is recorded in `m_loadedRaw` at id 0, and the stream holds the
id `1`, the number `7` and a null pointer. -/
def decodingState : ReadSide :=
  ⟨{ emptyPool with
      m_stream := [0, 0, 0, 1, 0, 0, 0, 7, 255, 255, 255, 255], m_loadedRaw := [some 0] },
    [{ cls := 0, fields := [.int 3, .handle .shared none] }]⟩

/-- An element helper pair round-trips the values satisfying `Valid`: what
`storeElem` appends to the stream, `loadElem` reads back as the same value,
consuming exactly those bytes.  `Rel` relates the write state and the read
state at the same point of the stream (the identity and string tables, for
helpers that use them); it does not depend on the streams' contents. -/
structure RoundTrips {α : Type} (storeElem : α → PersistentPool → Option PersistentPool)
    (loadElem : ReadSide → Option (α × ReadSide)) (Valid : α → Prop)
    (Rel : PersistentPool → ReadSide → Prop) : Prop where
  rel_stream : ∀ w r s t, Rel w r →
    Rel { w with m_stream := s } { r with pool := { r.pool with m_stream := t } }
  roundtrip : ∀ x w w1, Valid x → storeElem x w = some w1 →
    ∃ out, w1.m_stream = w.m_stream ++ out ∧
      ∀ r rest, Rel w r → r.pool.m_stream = out ++ rest →
        ∃ r1, loadElem r = some (x, r1) ∧ r1.pool.m_stream = rest ∧ Rel w1 r1

/-- The bytes of a run of 32-bit integers, one after the other. -/
def encodeInts : List Int → List Nat
  | [] => []
  | x :: xs => encodeInt 4 x ++ encodeInts xs

/-- The write state after the root of the two-object cycle has been stored
from a cleared pool. -/
def cycleStored : PersistentPool :=
  (storeSharedObject 3 cycleHeap emptyPool.clear (some 0)).getD emptyPool

/-- A schema whose classes declare no members. -/
def emptySchema : Schema := fun _ => []

/-! ## The bodies a store writes

`storeSharedObjectLog` is `storeSharedObject` with a second component that
lists, in order, the addresses of the objects whose body is stored: the
address is added where `storeSharedObject` calls `store(*object)`.  Dropping
the list gives `storeSharedObject` back. -/

/-- The function `storeField`, carrying the list of bodies written. -/
def storeFieldLog
    (ssoLog : PersistentPool × List Addr → Option Addr → Option (PersistentPool × List Addr))
    (s : PersistentPool × List Addr) : Field → Option (PersistentPool × List Addr)
  | .int v => some (HelperIntegral.store 4 v s.1, s.2)
  | .handle _ p => ssoLog s p

/-- The function `storeSharedObject`, carrying the list of bodies written. -/
def storeSharedObjectLog :
    Nat → Heap → PersistentPool × List Addr → Option Addr → Option (PersistentPool × List Addr)
  | 0, _, _, _ => none
  | _ + 1, _, s, none => some (writeInt 4 (-1) s.1, s.2)
  | fuel + 1, heap, s, some addr =>
    let id := QHash.value s.1.m_storageIndices addr (-1)
    if id < 0 then
      let id := s.1.m_lastStoredObjectId
      let pool := { s.1 with m_lastStoredObjectId := s.1.m_lastStoredObjectId + 1 }
      let pool := { pool with m_storageIndices := QHash.insert pool.m_storageIndices addr id }
      let pool := writeInt 4 id pool
      match heap[addr]? with
      | none => none
      | some object =>
        object.fields.foldlM (storeFieldLog (storeSharedObjectLog fuel heap))
          (pool, s.2 ++ [addr])
    else
      some (writeInt 4 id s.1, s.2)

/-- The states of a write session together with the bodies written so far. -/
inductive WriteSessionLog : PersistentPool → List Addr → Prop where
  | start (pool : PersistentPool) : WriteSessionLog pool.clear []
  | handle (fuel : Nat) (heap : Heap) (pool : PersistentPool) (log : List Addr)
      (p : Option Addr) (pool1 : PersistentPool) (log1 : List Addr) :
      WriteSessionLog pool log →
      storeSharedObjectLog fuel heap (pool, log) p = some (pool1, log1) →
      WriteSessionLog pool1 log1
  | integral (n : Nat) (value : Int) (pool : PersistentPool) (log : List Addr) :
      WriteSessionLog pool log → WriteSessionLog (HelperIntegral.store n value pool) log
  | other (pool pool1 : PersistentPool) (log : List Addr) :
      WriteSessionLog pool log →
      pool1.m_storageIndices = pool.m_storageIndices →
      pool1.m_lastStoredObjectId = pool.m_lastStoredObjectId → WriteSessionLog pool1 log

/-- A bound on how deeply a load from the state `r` can nest: each nested body
either follows an id that took four bytes off the stream, or is the first
instance entered into an empty table. -/
def loadDepth (r : ReadSide) : Nat :=
  r.pool.m_stream.length / 4 + (if r.pool.m_loadedRaw = [] then 1 else 0) +
    (if r.pool.m_loaded = [] then 1 else 0)

/-- The bytes of a run of pairs of 32-bit integers: key, value, key, value,
and so on. -/
def encodePairs : List (Int × Int) → List Nat
  | [] => []
  | e :: es => encodeInt 4 e.1 ++ (encodeInt 4 e.2 ++ encodePairs es)

/-! ## The variadic `store` and `load`

An argument list is heterogeneous: each argument comes with the `Helper<T>` of
its own type.  `StoreArg` is a value to store, `LoadArg` a destination to
fill. -/

/-- An argument of `PersistentPool::store(value, args...)`: the value and
`Helper<T>::store` for its type `T`. -/
structure StoreArg where
  T : Type
  helper : T → PersistentPool → Option PersistentPool
  value : T

/-- An argument of `PersistentPool::load(value, args...)`: the destination and
`Helper<T>::load` for its type `T`. -/
structure LoadArg where
  T : Type
  helper : T → ReadSide → Option (T × ReadSide)
  value : T

/-- `PersistentPool::store(const T &value, const Types &...args)`, with the
overload `store()` that ends the recursion. -/
def PersistentPool.store : List StoreArg → PersistentPool → Option PersistentPool
  | [], pool => some pool
  | value :: args, pool =>
    match value.helper value.value pool with
    | none => none
    | some pool1 => PersistentPool.store args pool1

/-- `PersistentPool::load(T &value, Types &...args)`, with the overload
`load()` that ends the recursion; the result lists the arguments as filled. -/
def PersistentPool.load : List LoadArg → ReadSide → Option (List LoadArg × ReadSide)
  | [], r => some ([], r)
  | value :: args, r =>
    match value.helper value.value r with
    | none => none
    | some (v, r1) =>
      match PersistentPool.load args r1 with
      | none => none
      | some (args1, r2) => some ({ value with value := v } :: args1, r2)

/-- One call `pool.load(a)` after the calls that filled `acc.1`. -/
def loadNext (acc : List LoadArg × ReadSide) (a : LoadArg) : Option (List LoadArg × ReadSide) :=
  (PersistentPool.load [a] acc.2).map (fun x => (acc.1 ++ x.1, x.2))

/-! ## The native `long`

`long` has `w` bytes on the platform, 4 or 8.  A value of the type is an
integer in the range of `w` bytes. -/

/-- The conversion `long(v)` of a `qint64` to a `long` of `w` bytes: the low
`w` bytes of `v`, read in two's complement. -/
def longCast (w : Nat) (v : Int) : Int :=
  toSigned w (v % ((256 ^ w : Nat) : Int)).toNat

/-- `Helper<long>::store`: `pool->m_stream << qint64(value)`; the conversion to
`qint64` keeps the value. -/
def HelperLong.store (value : Int) (pool : PersistentPool) : PersistentPool :=
  writeInt 8 value pool

/-- `Helper<long>::load` for a `long` of `w` bytes: `qint64 v; pool->m_stream >> v;
value = long(v)`. -/
def HelperLong.load (w : Nat) (r : ReadSide) : Int × ReadSide :=
  let v := (readInt 8 r.pool).1
  (longCast w v, { r with pool := (readInt 8 r.pool).2 })

/-! ## The three pointer helpers, as written

A `std::shared_ptr<T>`, a `std::unique_ptr<T>` and a `T *` are each the
address they hold, `none` for null; `value.get()` is that address. -/

/-- `Helper<T *>::store`: `pool->storeSharedObject(value)`. -/
def HelperRawPtr.store (fuel : Nat) (heap : Heap) (value : Option Addr) (pool : PersistentPool) :
    Option PersistentPool :=
  storeSharedObject fuel heap pool value

/-- `Helper<std::shared_ptr<T>>::store`: `pool->store(value.get())`, the
variadic `store` on one argument of type `T *`. -/
def HelperSharedPtr.store (fuel : Nat) (heap : Heap) (value : Option Addr)
    (pool : PersistentPool) : Option PersistentPool :=
  PersistentPool.store [⟨Option Addr, HelperRawPtr.store fuel heap, value⟩] pool

/-- `Helper<std::unique_ptr<T>>::store`: `pool->store(value.get())`, the
variadic `store` on one argument of type `T *`. -/
def HelperUniquePtr.store (fuel : Nat) (heap : Heap) (value : Option Addr)
    (pool : PersistentPool) : Option PersistentPool :=
  PersistentPool.store [⟨Option Addr, HelperRawPtr.store fuel heap, value⟩] pool

/-! ## Strings

`Helper<QString>` calls `storeString` and `idLoadString`, which are declared
in `persistence.h` and defined in `persistence.cpp`. -/

/-- Modelled from the spec: the raw characters of a string as bytes, two per
UTF-16 code unit, high byte first. -/
def encodeChars : QString → List Nat
  | [] => []
  | c :: cs => (c / 256 % 256) :: (c % 256) :: encodeChars cs

/-- Modelled from the spec: the code units of a run of bytes, two bytes
each. -/
def decodeChars : List Nat → QString
  | hi :: lo :: bs => (hi * 256 + lo) :: decodeChars bs
  | _ => []

/-- Modelled from the spec: `m_stream << s`, "the raw characters
length-prefixed": the count of bytes as an unsigned 32-bit number, then the
characters. -/
def writeString (s : QString) (pool : PersistentPool) : PersistentPool :=
  { pool with m_stream := pool.m_stream ++ (encodeBE 4 (2 * s.length) ++ encodeChars s) }

/-- Modelled from the spec: `m_stream >> s`, reading the count of bytes and
then that many bytes; when fewer are left the device is drained, the status
becomes `ReadPastEnd` and the string read is empty. -/
def readString (pool : PersistentPool) : QString × PersistentPool :=
  let len := (readUInt 4 pool).1
  let pool := (readUInt 4 pool).2
  if len ≤ pool.m_stream.length then
    (decodeChars (pool.m_stream.take len), { pool with m_stream := pool.m_stream.drop len })
  else
    ([], { pool with m_stream := [], m_status := Status.ReadPastEnd })

/-- The call `std::vector<QString>::resize(n)`: new slots are empty strings. -/
def resizeStrings (tbl : List QString) (n : Nat) : List QString :=
  tbl.take n ++ List.replicate (n - tbl.length) []

/-- Modelled from the spec: `PersistentPool::storeString`, "if `s` was already
stored in this session, write only its previously assigned id; otherwise
assign the next id, write (id, then the raw characters length-prefixed), and
record the mapping"; the scheme is that of `storeSharedObject`, on the string
members of the pool. -/
def storeString (t : QString) (pool : PersistentPool) : PersistentPool :=
  let id := QHash.value pool.m_inverseStringStorage t (-1)
  if id < 0 then
    let id := pool.m_lastStoredStringId
    let pool := { pool with m_lastStoredStringId := pool.m_lastStoredStringId + 1 }
    let pool :=
      { pool with m_inverseStringStorage := QHash.insert pool.m_inverseStringStorage t id }
    writeString t (writeInt 4 id pool)
  else
    writeInt 4 id pool

/-- Modelled from the spec: `PersistentPool::loadString(int id)`, "if it is
within the already-materialized range, return the cached value; otherwise
this is the first sighting, read the raw characters and cache them at that
id"; an id below zero stands for no string, as `-1` does for objects. -/
def loadString (id : Int) (pool : PersistentPool) : QString × PersistentPool :=
  if id < 0 then ([], pool)
  else if id < (pool.m_stringStorage.length : Int) then
    (pool.m_stringStorage.getD id.toNat [], pool)
  else
    let s := (readString pool).1
    let pool := (readString pool).2
    let pool := { pool with m_stringStorage := resizeStrings pool.m_stringStorage (id.toNat + 1) }
    let pool := { pool with m_stringStorage := pool.m_stringStorage.set id.toNat s }
    (s, pool)

/-- Modelled from the spec: `PersistentPool::idLoadString`, "read an id" and
load the string by that id. -/
def idLoadString (pool : PersistentPool) : QString × PersistentPool :=
  let id := (readInt 4 pool).1
  let pool := (readInt 4 pool).2
  loadString id pool

/-- `Helper<QString>::store`: `pool->storeString(s)`. -/
def HelperQString.store (s : QString) (pool : PersistentPool) : Option PersistentPool :=
  some (storeString s pool)

/-- `Helper<QString>::load`, as `pool->load<QString>()`: `s = pool->idLoadString()`. -/
def HelperQString.load (r : ReadSide) : Option (QString × ReadSide) :=
  some ((idLoadString r.pool).1, { r with pool := (idLoadString r.pool).2 })

/-- A string the stream format can hold: code units of 16 bits, and a byte
count below `2^32`. -/
def ValidString (s : QString) : Prop :=
  (∀ c ∈ s, c < 65536) ∧ 2 * s.length < 4294967295

instance (s : QString) : Decidable (ValidString s) := by
  unfold ValidString
  exact inferInstance

/-- The identity table of a write session in which the keys `keys` got their
ids in this order: the first has the id `base`, the next `base + 1`, and so
on. -/
def indexed {κ : Type} (base : Int) : List κ → List (κ × Int)
  | [] => []
  | k :: ks => (k, base) :: indexed (base + 1) ks

/-- The bytes `bs`, `n` times over. -/
def repeatBytes : Nat → List Nat → List Nat
  | 0, _ => []
  | n + 1, bs => bs ++ repeatBytes n bs

/-! ## Running a target (`runenvironment.cpp`)

`runTarget` picks the program to start for a target binary and starts it.
What it asks of Qt and of the host is collected in `Host`; the outcome is
either the early `return EXIT_FAILURE` or the process that is started. -/

/-- `QLatin1String(str)`: the string as code units. -/
def QLatin1String (str : String) : QString :=
  str.toList.map Char.toNat

/-- `QLatin1Char(c)`: the character as a code unit. -/
def QLatin1Char (c : Char) : Nat :=
  c.toNat

/-- What `runTarget` and `findExecutable` ask of Qt and of the host system. -/
structure Host where
  /-- `HostOsInfo::isWindowsHost()`. -/
  isWindowsHost : Bool
  /-- `HostOsInfo::pathListSeparator()`. -/
  pathListSeparator : Nat
  /-- `QString::fromLocal8Bit(qgetenv("PATH"))`. -/
  PATH : QString
  /-- `QFileInfo(path).exists()`. -/
  fileExists : QString → Bool
  /-- `QFileInfo(path).isExecutable()`. -/
  isExecutable : QString → Bool
  /-- `QFileInfo(path).completeSuffix()`. -/
  completeSuffix : QString → QString
  /-- `QDir::cleanPath(path)`. -/
  cleanPath : QString → QString
  /-- `QDir::toNativeSeparators(path)`. -/
  toNativeSeparators : QString → QString

/-- `QString::split(sep, QString::SkipEmptyParts)`, with the part read so far
in `cur`. -/
def splitSkipEmptyParts (sep : Nat) : QString → QString → List QString
  | [], cur => if cur = [] then [] else [cur]
  | c :: cs, cur =>
    if c = sep then
      if cur = [] then splitSkipEmptyParts sep cs []
      else cur :: splitSkipEmptyParts sep cs []
    else splitSkipEmptyParts sep cs (cur ++ [c])

/-- The local `path` of `findExecutable`: the directories of `PATH`. -/
def Host.path (host : Host) : List QString :=
  splitSkipEmptyParts host.pathListSeparator host.PATH []

/-- The local `fullPath` of `findExecutable`: `ppath + QLatin1Char('/') + fileName`. -/
def fullPath (ppath fileName : QString) : QString :=
  ppath ++ [QLatin1Char '/'] ++ fileName

/-- The inner loop of `findExecutable`: the directories of `path` in order,
for one file name; `none` when the loop ends without a `return`. -/
def findInPath (host : Host) (fileName : QString) : List QString → Option QString
  | [] => none
  | ppath :: path =>
    if host.fileExists (fullPath ppath fileName) then
      some (host.cleanPath (fullPath ppath fileName))
    else findInPath host fileName path

/-- The outer loop of `findExecutable`: the file names in order; the empty
string `QString()` when no `return` was reached. -/
def findInNames (host : Host) (path : List QString) : List QString → QString
  | [] => []
  | fileName :: fileNames =>
    match findInPath host fileName path with
    | some found => found
    | none => findInNames host path fileNames

/-- `findExecutable(const QStringList &fileNames)`. -/
def findExecutable (host : Host) (fileNames : List QString) : QString :=
  let path := host.path
  findInNames host path fileNames

/-- How a call of `runTarget` ends: with `return EXIT_FAILURE` before any
process exists, or with `process.start(targetExecutable, targetArguments)`,
after which the exit code of that process is returned. -/
inductive RunResult where
  | exitFailure
  | started (targetExecutable : QString) (targetArguments : List QString)
  deriving DecidableEq, Repr

/-- The first part of `RunEnvironment::runTarget`, up to the check of the
executable: the values of `targetExecutable` and `targetArguments` there.
`targetOS` is the value of the property `qbs.targetOS` of the product. -/
def targetCommand (host : Host) (targetOS : List QString) (targetBin : QString)
    (arguments : List QString) : QString × List QString :=
  let targetExecutable := targetBin
  let targetArguments := arguments
  let completeSuffix := host.completeSuffix targetBin
  let (targetExecutable, targetArguments) :=
    if targetOS.contains (QLatin1String "windows") then
      let (targetExecutable, targetArguments) :=
        if completeSuffix = QLatin1String "msi" then
          (QLatin1String "msiexec",
            QLatin1String "/package" :: host.toNativeSeparators targetBin :: targetArguments)
        else (targetExecutable, targetArguments)
      if !host.isWindowsHost then (QLatin1String "wine", targetExecutable :: targetArguments)
      else (targetExecutable, targetArguments)
    else (targetExecutable, targetArguments)
  if completeSuffix = QLatin1String "js" then
    (findExecutable host [QLatin1String "nodejs", QLatin1String "node"],
      targetBin :: targetArguments)
  else (targetExecutable, targetArguments)

/-- `RunEnvironment::runTarget(const QString &targetBin, const QStringList &arguments)`:
the check of the executable and the start of the process.  The environment of
the process is set up by `setupRunEnvironment`, in another file, and has no
part in the choice made here. -/
def runTarget (host : Host) (targetOS : List QString) (targetBin : QString)
    (arguments : List QString) : RunResult :=
  let targetExecutable := (targetCommand host targetOS targetBin arguments).1
  let targetArguments := (targetCommand host targetOS targetBin arguments).2
  if targetBin = targetExecutable ∧ !host.isExecutable targetExecutable then
    RunResult.exitFailure
  else
    RunResult.started targetExecutable targetArguments

/-- A list of parts written as one string, with the separator between
consecutive parts (`QStringList::join`): how a `PATH` is put together. -/
def joinWith (sep : Nat) : List QString → QString
  | [] => []
  | [p] => p
  | p :: q :: ps => p ++ sep :: joinWith sep (q :: ps)

/-- A host for the examples: host system other than Windows, `PATH` is
`/a:/b`, the files `/a/node` and `/b/nodejs` exist and are executable, the
complete suffix is what follows the first dot, paths are clean and native as
they are. -/
def exampleHost : Host :=
  { isWindowsHost := false
    pathListSeparator := QLatin1Char ':'
    PATH := QLatin1String "/a:/b"
    fileExists := fun p => p = QLatin1String "/a/node" ∨ p = QLatin1String "/b/nodejs"
    isExecutable := fun p => p = QLatin1String "/a/node" ∨ p = QLatin1String "/b/nodejs"
    completeSuffix := fun p => (p.dropWhile (fun c => c ≠ QLatin1Char '.')).drop 1
    cleanPath := fun p => p
    toNativeSeparators := fun p => p }

/-! # Properties -/

theorem encodeBE_length (n v : Nat) : (encodeBE n v).length = n := by
  induction n with
  | zero => rfl
  | succ n ih => simp [encodeBE, ih]

theorem foldl_encodeBE (n v acc : Nat) :
    (encodeBE n v).foldl (fun acc b => acc * 256 + b) acc = acc * 256 ^ n + v % 256 ^ n := by
  induction n generalizing acc with
  | zero => simp [encodeBE, Nat.mod_one]
  | succ n ih =>
    simp only [encodeBE, List.foldl_cons, ih]
    rw [Nat.mod_pow_succ]
    ring

theorem decodeBE_encodeBE (n v : Nat) : decodeBE (encodeBE n v) = v % 256 ^ n := by
  simp [decodeBE, foldl_encodeBE]

theorem toSigned_emod (n : Nat) (v : Int) (h : InRange n v) :
    toSigned n ((v % ((256 ^ n : Nat) : Int)).toNat % 256 ^ n) = v := by
  obtain ⟨h1, h2⟩ := h
  have hpos : 0 < 256 ^ n := by positivity
  unfold toSigned
  generalize 256 ^ n = M at *
  rcases lt_or_le v 0 with hv | hv
  · have e : v % (M : Int) = v + M := by
      rw [← Int.add_emod_self]
      exact Int.emod_eq_of_lt (by omega) (by omega)
    rw [e]
    have e2 : (v + (M : Int)).toNat % M = (v + (M : Int)).toNat := Nat.mod_eq_of_lt (by omega)
    rw [e2]
    split <;> omega
  · have e : v % (M : Int) = v := Int.emod_eq_of_lt hv (by omega)
    rw [e]
    have e2 : v.toNat % M = v.toNat := Nat.mod_eq_of_lt (by omega)
    rw [e2]
    split <;> omega

theorem encodeInt_length (n : Nat) (v : Int) : (encodeInt n v).length = n := by
  simp [encodeInt, encodeBE_length]

theorem readInt_encodeInt (n : Nat) (v : Int) (h : InRange n v) (pool : PersistentPool)
    (rest : List Nat) (hs : pool.m_stream = encodeInt n v ++ rest) :
    readInt n pool = (v, { pool with m_stream := rest }) := by
  have hl := encodeInt_length n v
  simp only [readInt, readUInt, hs, List.length_append, hl, Nat.le_add_right, if_true,
    List.take_left' hl, List.drop_left' hl]
  simp only [encodeInt, decodeBE_encodeBE]
  rw [toSigned_emod n v h]

theorem readInt_short (n : Nat) (pool : PersistentPool) (h : pool.m_stream.length < n) :
    readInt n pool = (0, { pool with m_stream := [], m_status := Status.ReadPastEnd }) := by
  have : ¬ n ≤ pool.m_stream.length := by omega
  simp [readInt, readUInt, this, toSigned]

theorem QHash.value_of_not_mem {κ ν : Type} [DecidableEq κ] (h : List (κ × ν)) (key : κ) (d : ν)
    (hk : key ∉ h.map Prod.fst) : QHash.value h key d = d := by
  have : h.lookup key = none := by
    induction h with
    | nil => rfl
    | cons e t ih =>
      simp only [List.map_cons, List.mem_cons, not_or] at hk
      obtain ⟨k, v⟩ := e
      have hne : (key == k) = false := by simpa using hk.1
      simp [List.lookup, hne, ih hk.2]
  simp [QHash.value, this]

theorem QHash.value_of_mem {κ ν : Type} [DecidableEq κ] (h : List (κ × ν)) (key : κ) (v d : ν)
    (nd : (h.map Prod.fst).Nodup) (hm : (key, v) ∈ h) : QHash.value h key d = v := by
  have : h.lookup key = some v := by
    induction h with
    | nil => simp at hm
    | cons e t ih =>
      obtain ⟨k, x⟩ := e
      simp only [List.map_cons, List.nodup_cons] at nd
      rcases List.mem_cons.1 hm with heq | hin
      · cases heq
        simp [List.lookup]
      · have hne : (key == k) = false := by
          have : key ≠ k := by
            rintro rfl
            exact nd.1 (List.mem_map.2 ⟨(key, v), hin, rfl⟩)
          simpa using this
        simp [List.lookup, hne, ih nd.2 hin]
  simp [QHash.value, this]

theorem QHash.insert_of_not_mem {κ ν : Type} [DecidableEq κ] (h : List (κ × ν)) (key : κ) (v : ν)
    (hk : key ∉ h.map Prod.fst) : QHash.insert h key v = h ++ [(key, v)] := by
  simp only [QHash.insert, if_neg hk]

theorem IdentityInv.id_bounds {w : PersistentPool} (inv : IdentityInv w) {a : Addr} {i : Int}
    (h : (a, i) ∈ w.m_storageIndices) : 0 ≤ i ∧ i < w.m_lastStoredObjectId := by
  have h1 : i ∈ w.m_storageIndices.map Prod.snd := List.mem_map.2 ⟨(a, i), h, rfl⟩
  rw [inv.ids] at h1
  obtain ⟨n, hn, rfl⟩ := List.mem_map.1 h1
  have := List.mem_range.1 hn
  have := inv.nonneg
  constructor
  · exact Int.ofNat_nonneg n
  · show (n : Int) < _
    omega

theorem IdentityInv.value_neg_iff {w : PersistentPool} (inv : IdentityInv w) (a : Addr) :
    QHash.value w.m_storageIndices a (-1) < 0 ↔ a ∉ w.storedAddrs := by
  constructor
  · intro h hm
    obtain ⟨⟨a', i⟩, hin, rfl⟩ := List.mem_map.1 hm
    rw [QHash.value_of_mem _ _ i _ inv.nodup hin] at h
    have := (inv.id_bounds hin).1
    omega
  · intro h
    rw [QHash.value_of_not_mem _ _ _ h]
    decide

theorem IdentityInv.length_eq {w : PersistentPool} (inv : IdentityInv w) :
    (w.m_storageIndices.length : Int) = w.m_lastStoredObjectId := by
  have := congrArg List.length inv.ids
  simp at this
  have := inv.nonneg
  omega

theorem Ext.refl_ext (w : PersistentPool) : Ext w w :=
  ⟨List.prefix_refl _, List.prefix_refl _, le_refl _, rfl, rfl, rfl⟩

theorem Ext.trans_ext {w w1 w2 : PersistentPool} (h1 : Ext w w1) (h2 : Ext w1 w2) : Ext w w2 :=
  ⟨h1.stream.trans h2.stream, h1.idx.trans h2.idx, le_trans h1.next h2.next,
    h2.status.trans h1.status, h2.loaded.trans h1.loaded, h2.loadedRaw.trans h1.loadedRaw⟩

theorem Ext.addrs {w w1 : PersistentPool} (h : Ext w w1) : w.storedAddrs <+: w1.storedAddrs := by
  obtain ⟨t, ht⟩ := h.idx
  exact ⟨t.map Prod.fst, by simp [PersistentPool.storedAddrs, ← ht]⟩

theorem Ext.mem {w w1 : PersistentPool} (h : Ext w w1) {a : Addr} (ha : a ∈ w.storedAddrs) :
    a ∈ w1.storedAddrs := h.addrs.subset ha

theorem Closed.refl_closed (heap : Heap) (w : PersistentPool) : Closed heap w w :=
  fun _ h1 h2 => absurd h1 h2

theorem Closed.trans_closed {heap : Heap} {w w1 w2 : PersistentPool} (h1 : Closed heap w w1)
    (h2 : Closed heap w1 w2) (e2 : Ext w1 w2) : Closed heap w w2 := by
  intro a ha hna
  by_cases hm : a ∈ w1.storedAddrs
  · obtain ⟨o, ho, ht⟩ := h1 a hm hna
    exact ⟨o, ho, fun k b hb => e2.mem (ht k b hb)⟩
  · exact h2 a ha hm

theorem writeInt_ext (n : Nat) (v : Int) (w : PersistentPool) : Ext w (writeInt n v w) :=
  ⟨⟨_, rfl⟩, List.prefix_refl _, le_refl _, rfl, rfl, rfl⟩

theorem storeFields_spec (heap : Heap) (sso : PersistentPool → Option Addr → Option PersistentPool)
    (IH : ∀ w p w1, sso w p = some w1 → StoreSpec heap w p w1) :
    ∀ (fs : List Field) (w w1 : PersistentPool), fs.foldlM (storeField sso) w = some w1 →
      IdentityInv w → Ext w w1 ∧ IdentityInv w1 ∧ Closed heap w w1 ∧
        ∀ k b, Field.handle k (some b) ∈ fs → b ∈ w1.storedAddrs := by
  intro fs
  induction fs with
  | nil =>
    intro w w1 h inv
    simp only [List.foldlM_nil, Option.pure_def, Option.some.injEq] at h
    subst h
    exact ⟨Ext.refl_ext _, inv, Closed.refl_closed _ _, by simp⟩
  | cons f fs ih =>
    intro w w1 h inv
    simp only [List.foldlM_cons, Option.bind_eq_bind, Option.bind_eq_some] at h
    obtain ⟨wm, hf, hrest⟩ := h
    cases f with
    | int v =>
      simp only [storeField, HelperIntegral.store, Option.some.injEq] at hf
      subst hf
      have invm : IdentityInv (writeInt 4 v w) := ⟨inv.nonneg, inv.nodup, inv.ids⟩
      obtain ⟨e2, inv1, c1, t1⟩ := ih _ w1 hrest invm
      refine ⟨(writeInt_ext 4 v w).trans_ext e2, inv1, c1, ?_⟩
      intro k b hb
      rcases List.mem_cons.1 hb with hb | hb
      · cases hb
      · exact t1 k b hb
    | handle k0 p =>
      simp only [storeField] at hf
      obtain ⟨e1, invm, cm, tm⟩ := IH w p wm hf inv
      obtain ⟨e2, inv1, c1, t1⟩ := ih wm w1 hrest invm
      refine ⟨e1.trans_ext e2, inv1, cm.trans_closed c1 e2, ?_⟩
      intro k b hb
      rcases List.mem_cons.1 hb with hb | hb
      · cases hb
        exact e2.mem (tm b rfl)
      · exact t1 k b hb

theorem storeSharedObject_new (fuel : Nat) (heap : Heap) (w : PersistentPool) (a : Addr)
    (h : QHash.value w.m_storageIndices a (-1) < 0) :
    storeSharedObject (fuel + 1) heap w (some a) =
      match heap[a]? with
      | none => none
      | some object =>
        object.fields.foldlM (storeField (storeSharedObject fuel heap)) (registered w a) := by
  simp only [storeSharedObject, if_pos h, registered]

theorem storeSharedObject_old (fuel : Nat) (heap : Heap) (w : PersistentPool) (a : Addr)
    (h : ¬ QHash.value w.m_storageIndices a (-1) < 0) :
    storeSharedObject (fuel + 1) heap w (some a) =
      some (writeInt 4 (QHash.value w.m_storageIndices a (-1)) w) := by
  simp only [storeSharedObject, if_neg h]

theorem registered_idx {w : PersistentPool} {a : Addr} (ha : a ∉ w.storedAddrs) :
    (registered w a).m_storageIndices = w.m_storageIndices ++ [(a, w.m_lastStoredObjectId)] := by
  simp only [registered, writeInt]
  exact QHash.insert_of_not_mem _ _ _ ha

theorem registered_ext {w : PersistentPool} {a : Addr}
    (ha : a ∉ w.storedAddrs) : Ext w (registered w a) := by
  refine ⟨⟨_, rfl⟩, ?_, ?_, rfl, rfl, rfl⟩
  · rw [registered_idx ha]
    exact ⟨_, rfl⟩
  · simp [registered, writeInt]

theorem registered_inv {w : PersistentPool} (inv : IdentityInv w) {a : Addr}
    (ha : a ∉ w.storedAddrs) : IdentityInv (registered w a) := by
  have hidx := registered_idx ha
  have hn : (registered w a).m_lastStoredObjectId = w.m_lastStoredObjectId + 1 := rfl
  have h0 := inv.nonneg
  refine ⟨by rw [hn]; omega, ?_, ?_⟩
  · simp only [PersistentPool.storedAddrs, hidx, List.map_append, List.map_cons, List.map_nil]
    refine List.Nodup.append inv.nodup (List.nodup_singleton _) ?_
    intro x hx hx1
    rw [List.mem_singleton] at hx1
    subst hx1
    exact ha hx
  · rw [hidx, hn]
    have e : (w.m_lastStoredObjectId + 1).toNat = w.m_lastStoredObjectId.toNat + 1 := by omega
    rw [e, List.range_succ, List.map_append, List.map_append, inv.ids]
    simp only [List.map_cons, List.map_nil, Int.ofNat_eq_coe]
    congr 2
    omega

theorem storeSharedObject_spec : ∀ (fuel : Nat) (heap : Heap) (w : PersistentPool)
    (p : Option Addr) (w1 : PersistentPool),
    storeSharedObject fuel heap w p = some w1 → StoreSpec heap w p w1 := by
  intro fuel
  induction fuel with
  | zero => intro heap w p w1 h; simp [storeSharedObject] at h
  | succ fuel ih =>
    intro heap w p w1 h inv
    cases p with
    | none =>
      simp only [storeSharedObject, Option.some.injEq] at h
      subst h
      exact ⟨writeInt_ext _ _ _, ⟨inv.nonneg, inv.nodup, inv.ids⟩,
        fun _ h1 h2 => absurd h1 h2, by simp⟩
    | some a =>
      by_cases hid : QHash.value w.m_storageIndices a (-1) < 0
      · rw [storeSharedObject_new _ _ _ _ hid] at h
        have ha : a ∉ w.storedAddrs := (inv.value_neg_iff a).1 hid
        cases ho : heap[a]? with
        | none => simp [ho] at h
        | some o =>
          simp only [ho] at h
          obtain ⟨e2, inv1, c1, t1⟩ :=
            storeFields_spec heap _ (ih heap) o.fields _ w1 h (registered_inv inv ha)
          have e1 := registered_ext ha
          have hmem : a ∈ (registered w a).storedAddrs := by
            simp [PersistentPool.storedAddrs, registered_idx ha]
          refine ⟨e1.trans_ext e2, inv1, ?_, ?_⟩
          · intro b hb hnb
            by_cases hm : b ∈ (registered w a).storedAddrs
            · have : b = a := by
                simp only [PersistentPool.storedAddrs, registered_idx ha, List.map_append,
                  List.map_cons, List.map_nil, List.mem_append, List.mem_singleton] at hm
                rcases hm with hm | hm
                · exact absurd hm hnb
                · exact hm
              subst this
              exact ⟨o, ho, t1⟩
            · exact c1 b hb hm
          · intro b hb
            obtain rfl : a = b := Option.some.inj hb
            exact e2.mem hmem
      · rw [storeSharedObject_old _ _ _ _ hid] at h
        simp only [Option.some.injEq] at h
        subst h
        refine ⟨writeInt_ext _ _ _, ⟨inv.nonneg, inv.nodup, inv.ids⟩,
          fun _ h1 h2 => absurd h1 h2, ?_⟩
        intro b hb
        obtain rfl : a = b := Option.some.inj hb
        by_contra hc
        exact hid ((inv.value_neg_iff a).2 hc)

theorem LoadExt.refl_load (r : ReadSide) : LoadExt r r :=
  ⟨List.prefix_refl _, List.prefix_refl _, List.prefix_refl _, List.suffix_refl _, rfl, rfl⟩

theorem LoadExt.trans_load {r r1 r2 : ReadSide} (h1 : LoadExt r r1) (h2 : LoadExt r1 r2) :
    LoadExt r r2 :=
  ⟨h1.raw.trans h2.raw, h1.shared.trans h2.shared, h1.heap.trans h2.heap,
    h2.stream.trans h1.stream, h2.idx.trans h1.idx, h2.next.trans h1.next⟩

theorem readUInt_suffix (n : Nat) (pool : PersistentPool) :
    (readUInt n pool).2.m_stream <:+ pool.m_stream := by
  unfold readUInt
  split
  · exact List.drop_suffix _ _
  · exact List.nil_suffix

theorem readInt_loadExt (n : Nat) (r : ReadSide) :
    LoadExt r { r with pool := (readInt n r.pool).2 } := by
  refine ⟨?_, ?_, List.prefix_refl _, readUInt_suffix n r.pool, ?_, ?_⟩ <;>
    (simp only [readInt, readUInt]; split <;> rfl)

theorem HelperIntegral.load_loadExt (n : Nat) (r : ReadSide) :
    LoadExt r (HelperIntegral.load n r).2 := readInt_loadExt n r

theorem resize_set_extends (tbl : List (Option Addr)) (i : Nat) (x : Option Addr)
    (h : tbl.length ≤ i) : tbl <+: (resize tbl (i + 1)).set i x := by
  have e : tbl.take (i + 1) = tbl := List.take_of_length_le (by omega)
  unfold resize
  rw [e, List.set_append]
  have : ¬ i < tbl.length := by omega
  rw [if_neg this]
  exact ⟨_, rfl⟩

theorem resize_set_get (tbl : List (Option Addr)) (i : Nat) (x : Option Addr)
    (h : tbl.length ≤ i) : ((resize tbl (i + 1)).set i x)[i]? = some x := by
  have e : tbl.take (i + 1) = tbl := List.take_of_length_le (by omega)
  have hl : i < (resize tbl (i + 1)).length := by
    simp [resize, e]
    omega
  simp [List.getElem?_set, hl]

theorem resize_set_length (tbl : List (Option Addr)) (i : Nat) (x : Option Addr)
    (h : tbl.length ≤ i) : ((resize tbl (i + 1)).set i x).length = i + 1 := by
  have e : tbl.take (i + 1) = tbl := List.take_of_length_le (by omega)
  simp [resize, e]
  omega

theorem idLoad_unfold (fuel : Nat) (S : Schema) (T : Cls) (r : ReadSide) :
    idLoad (fuel + 1) S T r =
      if (readInt 4 r.pool).1 < 0 then some (none, { r with pool := (readInt 4 r.pool).2 })
      else if (readInt 4 r.pool).1 < ((readInt 4 r.pool).2.m_loadedRaw.length : Int) then
        some ((readInt 4 r.pool).2.m_loadedRaw.getD (readInt 4 r.pool).1.toNat none,
          { r with pool := (readInt 4 r.pool).2 })
      else
        match loadObject (loadField (idLoad fuel S) (idLoadS fuel S)) S T r.heap.length
            (allocatedRaw S T r (readInt 4 r.pool).1) with
        | none => none
        | some r1 => some (some r.heap.length, r1) := by
  rw [idLoad]
  rfl

theorem idLoadS_unfold (fuel : Nat) (S : Schema) (T : Cls) (r : ReadSide) :
    idLoadS (fuel + 1) S T r =
      if (readInt 4 r.pool).1 < 0 then some (none, { r with pool := (readInt 4 r.pool).2 })
      else if (readInt 4 r.pool).1 < ((readInt 4 r.pool).2.m_loaded.length : Int) then
        some ((readInt 4 r.pool).2.m_loaded.getD (readInt 4 r.pool).1.toNat none,
          { r with pool := (readInt 4 r.pool).2 })
      else
        match loadObject (loadField (idLoad fuel S) (idLoadS fuel S)) S T r.heap.length
            (allocatedShared S T r (readInt 4 r.pool).1) with
        | none => none
        | some r1 => some (some r.heap.length, r1) := by
  rw [idLoadS]
  rfl

theorem loadField_ext {ldRaw ldShared : Cls → ReadSide → Option (Option Addr × ReadSide)}
    (hR : LoaderExt ldRaw) (hS : LoaderExt ldShared) (r : ReadSide) (ty : FieldTy) (f : Field)
    (r1 : ReadSide) (h : loadField ldRaw ldShared r ty = some (f, r1)) : LoadExt r r1 := by
  cases ty with
  | int =>
    simp only [loadField, Option.some.injEq, Prod.mk.injEq] at h
    rw [← h.2]
    exact HelperIntegral.load_loadExt 4 r
  | handle k c =>
    cases k with
    | shared =>
      simp only [loadField] at h
      cases hl : ldShared c r with
      | none => simp [hl] at h
      | some res =>
        obtain ⟨p, r2⟩ := res
        simp only [hl, Option.some.injEq, Prod.mk.injEq] at h
        rw [← h.2]
        exact hS c r p r2 hl
    | unique =>
      simp only [loadField] at h
      cases hl : ldRaw c r with
      | none => simp [hl] at h
      | some res =>
        obtain ⟨p, r2⟩ := res
        simp only [hl, Option.some.injEq, Prod.mk.injEq] at h
        rw [← h.2]
        exact hR c r p r2 hl
    | raw =>
      simp only [loadField] at h
      cases hl : ldRaw c r with
      | none => simp [hl] at h
      | some res =>
        obtain ⟨p, r2⟩ := res
        simp only [hl, Option.some.injEq, Prod.mk.injEq] at h
        rw [← h.2]
        exact hR c r p r2 hl

theorem loadFields_cons_some {ld : ReadSide → FieldTy → Option (Field × ReadSide)}
    {ty : FieldTy} {tys : List FieldTy} {r : ReadSide} {fs : List Field} {r2 : ReadSide}
    (h : loadFields ld (ty :: tys) r = some (fs, r2)) :
    ∃ f r1 fs1, ld r ty = some (f, r1) ∧ loadFields ld tys r1 = some (fs1, r2) ∧
      fs = f :: fs1 := by
  simp only [loadFields] at h
  cases h1 : ld r ty with
  | none => simp [h1] at h
  | some res =>
    obtain ⟨f, r1⟩ := res
    simp only [h1] at h
    cases h2 : loadFields ld tys r1 with
    | none => simp [h2] at h
    | some res2 =>
      obtain ⟨fs1, r3⟩ := res2
      simp only [h2, Option.some.injEq, Prod.mk.injEq] at h
      refine ⟨f, r1, fs1, rfl, ?_, h.1.symm⟩
      rw [← h.2]
      exact h2

theorem loadFields_ext {ld : ReadSide → FieldTy → Option (Field × ReadSide)}
    (hld : ∀ r ty f r1, ld r ty = some (f, r1) → LoadExt r r1) :
    ∀ (tys : List FieldTy) (r : ReadSide) (fs : List Field) (r1 : ReadSide),
      loadFields ld tys r = some (fs, r1) → LoadExt r r1 := by
  intro tys
  induction tys with
  | nil =>
    intro r fs r1 h
    simp only [loadFields, Option.some.injEq, Prod.mk.injEq] at h
    rw [← h.2]
    exact LoadExt.refl_load r
  | cons ty tys ih =>
    intro r fs r2 h
    obtain ⟨f, r1, fs1, h1, h2, -⟩ := loadFields_cons_some h
    exact (hld r ty f r1 h1).trans_load (ih r1 fs1 r2 h2)

theorem loadObject_some {ld : ReadSide → FieldTy → Option (Field × ReadSide)} {S : Schema}
    {T : Cls} {t : Addr} {r r1 : ReadSide} (h : loadObject ld S T t r = some r1) :
    ∃ fs r2, loadFields ld (S T) r = some (fs, r2) ∧
      r1 = { r2 with heap := r2.heap.set t { cls := T, fields := fs } } := by
  simp only [loadObject] at h
  cases h1 : loadFields ld (S T) r with
  | none => simp [h1] at h
  | some res =>
    obtain ⟨fs, r2⟩ := res
    simp only [h1, Option.some.injEq] at h
    exact ⟨fs, r2, rfl, h.symm⟩

theorem set_extends_of_append {α : Type} (l l1 : List α) (c x : α)
    (h : l ++ [c] <+: l1) : l ++ [x] <+: l1.set l.length x := by
  obtain ⟨t, rfl⟩ := h
  refine ⟨t, ?_⟩
  rw [List.append_assoc, List.append_assoc, List.set_append]
  simp

theorem allocatedRaw_ext (S : Schema) (T : Cls) (r : ReadSide)
    (h : ¬ (readInt 4 r.pool).1 < 0)
    (h2 : ¬ (readInt 4 r.pool).1 < ((readInt 4 r.pool).2.m_loadedRaw.length : Int)) :
    LoadExt r (allocatedRaw S T r (readInt 4 r.pool).1) := by
  have e := readInt_loadExt 4 r
  have er : r.pool.m_loadedRaw <+: (readInt 4 r.pool).2.m_loadedRaw := e.raw
  refine ⟨?_, e.shared, ⟨_, rfl⟩, e.stream, e.idx, e.next⟩
  exact er.trans (resize_set_extends (readInt 4 r.pool).2.m_loadedRaw _ _ (by omega))

theorem allocatedShared_ext (S : Schema) (T : Cls) (r : ReadSide)
    (h : ¬ (readInt 4 r.pool).1 < 0)
    (h2 : ¬ (readInt 4 r.pool).1 < ((readInt 4 r.pool).2.m_loaded.length : Int)) :
    LoadExt r (allocatedShared S T r (readInt 4 r.pool).1) := by
  have e := readInt_loadExt 4 r
  have er : r.pool.m_loaded <+: (readInt 4 r.pool).2.m_loaded := e.shared
  refine ⟨e.raw, ?_, ⟨_, rfl⟩, e.stream, e.idx, e.next⟩
  exact er.trans (resize_set_extends (readInt 4 r.pool).2.m_loaded _ _ (by omega))

theorem loadObject_ext {ld : ReadSide → FieldTy → Option (Field × ReadSide)}
    (hld : ∀ r ty f r1, ld r ty = some (f, r1) → LoadExt r r1) (S : Schema) (T : Cls)
    (r r0 r1 : ReadSide) (h0 : LoadExt r r0) (hh : r0.heap = r.heap ++ [Obj.create S T])
    (h : loadObject ld S T r.heap.length r0 = some r1) :
    LoadExt r r1 := by
  obtain ⟨fs, r2, hf, rfl⟩ := loadObject_some h
  have e2 := loadFields_ext hld _ _ _ _ hf
  have e := h0.trans_load e2
  have hp : r.heap ++ [Obj.create S T] <+: r2.heap := by
    rw [← hh]
    exact e2.heap
  have hp2 := set_extends_of_append r.heap r2.heap (Obj.create S T)
    { cls := T, fields := fs } hp
  exact ⟨e.raw, e.shared, (List.prefix_append _ _).trans hp2, e.stream, e.idx, e.next⟩

theorem idLoad_idLoadS_ext (fuel : Nat) (S : Schema) :
    LoaderExt (idLoad fuel S) ∧ LoaderExt (idLoadS fuel S) := by
  induction fuel with
  | zero =>
    constructor <;> intro T r p r1 h
    · simp [idLoad] at h
    · simp [idLoadS] at h
  | succ fuel ih =>
    have hld : ∀ r ty f r1,
        loadField (idLoad fuel S) (idLoadS fuel S) r ty = some (f, r1) → LoadExt r r1 :=
      fun r ty f r1 h => loadField_ext ih.1 ih.2 r ty f r1 h
    constructor <;> intro T r p r1 h
    · rw [idLoad_unfold] at h
      split at h
      · simp only [Option.some.injEq, Prod.mk.injEq] at h
        rw [← h.2]
        exact readInt_loadExt 4 r
      · split at h
        · simp only [Option.some.injEq, Prod.mk.injEq] at h
          rw [← h.2]
          exact readInt_loadExt 4 r
        · rename_i hneg hlt
          split at h
          · simp at h
          · rename_i r2 hobj
            simp only [Option.some.injEq, Prod.mk.injEq] at h
            rw [← h.2]
            exact loadObject_ext hld S T r _ r2 (allocatedRaw_ext S T r hneg hlt) rfl hobj
    · rw [idLoadS_unfold] at h
      split at h
      · simp only [Option.some.injEq, Prod.mk.injEq] at h
        rw [← h.2]
        exact readInt_loadExt 4 r
      · split at h
        · simp only [Option.some.injEq, Prod.mk.injEq] at h
          rw [← h.2]
          exact readInt_loadExt 4 r
        · rename_i hneg hlt
          split at h
          · simp at h
          · rename_i r2 hobj
            simp only [Option.some.injEq, Prod.mk.injEq] at h
            rw [← h.2]
            exact loadObject_ext hld S T r _ r2 (allocatedShared_ext S T r hneg hlt) rfl hobj

theorem IdentityInv.of_ext {w w1 : PersistentPool} (e : Ext w w1) (inv1 : IdentityInv w1) :
    w.storedAddrs.Nodup :=
  List.Nodup.sublist e.addrs.sublist inv1.nodup

theorem mem_idx_of_mem_addrs {w : PersistentPool} {a : Addr} (h : a ∈ w.storedAddrs) :
    ∃ i, (a, i) ∈ w.m_storageIndices := by
  obtain ⟨⟨a1, i⟩, hin, rfl⟩ := List.mem_map.1 h
  exact ⟨i, hin⟩

theorem mem_addrs_of_mem_idx {w : PersistentPool} {a : Addr} {i : Int}
    (h : (a, i) ∈ w.m_storageIndices) : a ∈ w.storedAddrs :=
  List.mem_map.2 ⟨(a, i), h, rfl⟩

theorem value_stable {w w1 : PersistentPool} (e : Ext w w1) (inv1 : IdentityInv w1) {a : Addr}
    (h : a ∈ w.storedAddrs) (d : Int) :
    QHash.value w1.m_storageIndices a d = QHash.value w.m_storageIndices a d := by
  obtain ⟨i, hi⟩ := mem_idx_of_mem_addrs h
  rw [QHash.value_of_mem _ _ i _ inv1.nodup (e.idx.subset hi),
    QHash.value_of_mem _ _ i _ (IdentityInv.of_ext e inv1) hi]

theorem mem_idx_of_ext {w w1 : PersistentPool} (e : Ext w w1) (inv1 : IdentityInv w1) {a : Addr}
    {i : Int} (h1 : (a, i) ∈ w1.m_storageIndices) (h : a ∈ w.storedAddrs) :
    (a, i) ∈ w.m_storageIndices := by
  obtain ⟨j, hj⟩ := mem_idx_of_mem_addrs h
  have e1 := QHash.value_of_mem _ _ i (-1) inv1.nodup h1
  have e2 := QHash.value_of_mem _ _ j (-1) inv1.nodup (e.idx.subset hj)
  have : i = j := by rw [← e1, ← e2]
  rw [this]
  exact hj

theorem Field.reloc_stable_field {w w1 : PersistentPool} (e : Ext w w1) (inv1 : IdentityInv w1)
    (base : Nat) (f : Field)
    (h : ∀ k b, f = Field.handle k (some b) → b ∈ w.storedAddrs) :
    f.reloc base w1.m_storageIndices = f.reloc base w.m_storageIndices := by
  cases f with
  | int v => rfl
  | handle k p =>
    cases p with
    | none => rfl
    | some b =>
      simp only [Field.reloc, Option.map_some', loadedAddr, value_stable e inv1 (h k b rfl)]

theorem map_reloc_stable {w w1 : PersistentPool} (e : Ext w w1) (inv1 : IdentityInv w1)
    (base : Nat) (fs : List Field)
    (h : ∀ k b, Field.handle k (some b) ∈ fs → b ∈ w.storedAddrs) :
    fs.map (Field.reloc base w1.m_storageIndices) = fs.map (Field.reloc base w.m_storageIndices) := by
  apply List.map_congr_left
  intro f hf
  exact Field.reloc_stable_field e inv1 base f (fun k b hb => h k b (hb ▸ hf))

theorem Obj.reloc_stable_obj {w w1 : PersistentPool} (e : Ext w w1) (inv1 : IdentityInv w1)
    (base : Nat) (o : Obj)
    (h : ∀ k b, Field.handle k (some b) ∈ o.fields → b ∈ w.storedAddrs) :
    o.reloc base w1.m_storageIndices = o.reloc base w.m_storageIndices := by
  simp only [Obj.reloc, map_reloc_stable e inv1 base o.fields h]

theorem prefix_getElem? {α : Type} {l l1 : List α} (h : l <+: l1) {i : Nat} {x : α}
    (hx : l[i]? = some x) : l1[i]? = some x := by
  obtain ⟨t, rfl⟩ := h
  have hi : i < l.length := by
    by_contra hc
    rw [List.getElem?_eq_none (by omega)] at hx
    cases hx
  rw [List.getElem?_append_left hi]
  exact hx

theorem Loaded.trans_loaded {heap : Heap} {base : Nat} {w wm w1 : PersistentPool} {rm r1 : ReadSide}
    (l1 : Loaded heap base w wm rm) (l2 : Loaded heap base wm w1 r1)
    (c1 : Closed heap w wm) (e2 : Ext wm w1) (inv1 : IdentityInv w1) (x : LoadExt rm r1) :
    Loaded heap base w w1 r1 := by
  intro a i hi hna
  by_cases hm : a ∈ wm.storedAddrs
  · have him := mem_idx_of_ext e2 inv1 hi hm
    obtain ⟨o, ho, hr⟩ := l1 a i him hna
    obtain ⟨o1, ho1, ht⟩ := c1 a hm hna
    rw [ho] at ho1
    cases ho1
    refine ⟨o, ho, ?_⟩
    rw [Obj.reloc_stable_obj e2 inv1 base o ht]
    exact prefix_getElem? x.heap hr
  · exact l2 a i hi hm

theorem loadField_handle (ldRaw ldShared : Cls → ReadSide → Option (Option Addr × ReadSide))
    (r : ReadSide) (k : HandleKind) (c : Cls) :
    loadField ldRaw ldShared r (.handle k c) =
      match decoderOf ldRaw ldShared k c r with
      | some (p, r1) => some (.handle k p, r1)
      | none => none := by
  cases k <;> simp [loadField, decoderOf, HandleKind.isShared]

theorem loadField_int (ldRaw ldShared : Cls → ReadSide → Option (Option Addr × ReadSide))
    (r : ReadSide) (v : Int) (hv : InRange 4 v) (rest : List Nat)
    (hs : r.pool.m_stream = encodeInt 4 v ++ rest) :
    loadField ldRaw ldShared r .int =
      some (.int v, { r with pool := { r.pool with m_stream := rest } }) := by
  simp only [loadField, HelperIntegral.load, readInt_encodeInt 4 v hv r.pool rest hs]

theorem hasType_int {heap : Heap} {v : Int} {ty : FieldTy}
    (h : Field.hasType heap (.int v) ty = true) : ty = .int ∧ InRange 4 v := by
  cases ty with
  | int => simpa [Field.hasType] using h
  | handle k c => simp [Field.hasType] at h

theorem hasType_handle {heap : Heap} {k : HandleKind} {p : Option Addr} {ty : FieldTy}
    (h : Field.hasType heap (.handle k p) ty = true) :
    ∃ c, ty = .handle k c ∧ ∀ a, p = some a → ∃ o, heap[a]? = some o ∧ o.cls = c := by
  cases ty with
  | int => cases p <;> simp [Field.hasType] at h
  | handle k1 c =>
    cases p with
    | none =>
      simp only [Field.hasType, decide_eq_true_eq] at h
      subst h
      exact ⟨c, rfl, by simp⟩
    | some a =>
      simp only [Field.hasType, Bool.and_eq_true, decide_eq_true_eq] at h
      obtain ⟨h1, h2⟩ := h
      subst h1
      refine ⟨c, rfl, ?_⟩
      intro b hb
      obtain rfl : a = b := Option.some.inj hb
      cases ho : heap[a]? with
      | none => simp [ho] at h2
      | some o =>
        simp only [ho, decide_eq_true_eq] at h2
        exact ⟨o, rfl, h2⟩

theorem Corr.of_eq {sharedObj : Addr → Bool} {base : Nat} {w w1 : PersistentPool}
    {r r1 : ReadSide} (c : Corr sharedObj base w r)
    (h1 : w1.m_storageIndices = w.m_storageIndices)
    (h2 : w1.m_lastStoredObjectId = w.m_lastStoredObjectId)
    (h3 : r1.heap.length = r.heap.length) (h4 : r1.pool.m_loadedRaw = r.pool.m_loadedRaw)
    (h5 : r1.pool.m_loaded = r.pool.m_loaded) : Corr sharedObj base w1 r1 := by
  refine ⟨?_, ?_, ?_, ?_⟩
  · rw [h3, h2]; exact c.heap_len
  · rw [h4, h2]; exact c.len_raw
  · rw [h5, h2]; exact c.len_shared
  · intro a i hi
    rw [h4, h5]
    exact c.entry a i (h1 ▸ hi)

theorem sim_fields {heap : Heap} {sharedObj : Addr → Bool} {base : Nat}
    {sso : PersistentPool → Option Addr → Option PersistentPool}
    {ldRaw ldShared : Cls → ReadSide → Option (Option Addr × ReadSide)}
    (hs : ∀ w p w1, sso w p = some w1 → StoreSpec heap w p w1)
    (hR : LoaderExt ldRaw) (hS : LoaderExt ldShared)
    (sim : Sim heap sharedObj base sso ldRaw ldShared) :
    ∀ (fs : List Field) (tys : List FieldTy) (w w1 : PersistentPool),
      fs.foldlM (storeField sso) w = some w1 → IdentityInv w →
      w1.m_lastStoredObjectId ≤ 2 ^ 31 → fieldsHaveTypes heap fs tys = true →
      (∀ k a, Field.handle k (some a) ∈ fs → k.isShared = sharedObj a) →
      ∀ r out rest, Corr sharedObj base w r → w1.m_stream = w.m_stream ++ out →
        r.pool.m_stream = out ++ rest →
        ∃ r1, loadFields (loadField ldRaw ldShared) tys r =
            some (fs.map (Field.reloc base w1.m_storageIndices), r1) ∧
          r1.pool.m_stream = rest ∧ r1.pool.m_status = r.pool.m_status ∧
          Corr sharedObj base w1 r1 ∧ Loaded heap base w w1 r1 := by
  intro fs
  induction fs with
  | nil =>
    intro tys w w1 h inv hb hty hk r out rest c hw hr
    simp only [List.foldlM_nil, Option.pure_def, Option.some.injEq] at h
    subst h
    cases tys with
    | cons ty tys => simp [fieldsHaveTypes] at hty
    | nil =>
      have : out = [] := by simpa using hw
      subst this
      refine ⟨r, rfl, by simpa using hr, rfl, c, ?_⟩
      intro a i hi hna
      exact absurd (mem_addrs_of_mem_idx hi) hna
  | cons f fs ih =>
    intro tys w w1 h inv hb hty hk r out rest c hw hr
    simp only [List.foldlM_cons, Option.bind_eq_bind, Option.bind_eq_some] at h
    obtain ⟨wm, hf, hrest⟩ := h
    cases tys with
    | nil => simp [fieldsHaveTypes] at hty
    | cons ty tys =>
      simp only [fieldsHaveTypes, Bool.and_eq_true] at hty
      obtain ⟨hty1, hty2⟩ := hty
      have hk2 : ∀ k a, Field.handle k (some a) ∈ fs → k.isShared = sharedObj a :=
        fun k a hm => hk k a (List.mem_cons_of_mem _ hm)
      cases f with
      | int v =>
        obtain ⟨rfl, hv⟩ := hasType_int hty1
        simp only [storeField, HelperIntegral.store, Option.some.injEq] at hf
        subst hf
        have invm : IdentityInv (writeInt 4 v w) := ⟨inv.nonneg, inv.nodup, inv.ids⟩
        obtain ⟨e2, inv1, -, -⟩ := storeFields_spec heap sso hs fs _ w1 hrest invm
        obtain ⟨out2, ho2⟩ := e2.stream
        have hout : out = encodeInt 4 v ++ out2 := by
          have : w.m_stream ++ out = w.m_stream ++ (encodeInt 4 v ++ out2) := by
            rw [← hw, ← ho2]
            simp [writeInt]
          exact List.append_cancel_left this
        have hr2 : r.pool.m_stream = encodeInt 4 v ++ (out2 ++ rest) := by
          rw [hr, hout, List.append_assoc]
        have cm : Corr sharedObj base (writeInt 4 v w)
            { r with pool := { r.pool with m_stream := out2 ++ rest } } :=
          c.of_eq rfl rfl rfl rfl rfl
        obtain ⟨r1, hl, hs1, hst, c1, l1⟩ :=
          ih tys _ w1 hrest invm hb hty2 hk2 _ out2 rest cm ho2.symm rfl
        refine ⟨r1, ?_, hs1, hst, c1, ?_⟩
        · simp only [loadFields, loadField_int ldRaw ldShared r v hv _ hr2, hl, List.map_cons,
            Field.reloc]
        · intro a i hi hna
          exact l1 a i hi hna
      | handle k p =>
        obtain ⟨cl, rfl, hcl⟩ := hasType_handle hty1
        simp only [storeField] at hf
        obtain ⟨e1, invm, cm, tm⟩ := hs w p wm hf inv
        obtain ⟨e2, inv1, c2, -⟩ := storeFields_spec heap sso hs fs wm w1 hrest invm
        obtain ⟨out1, ho1⟩ := e1.stream
        obtain ⟨out2, ho2⟩ := e2.stream
        have hout : out = out1 ++ out2 := by
          have : w.m_stream ++ out = w.m_stream ++ (out1 ++ out2) := by
            rw [← hw, ← ho2, ← ho1, List.append_assoc]
          exact List.append_cancel_left this
        have hr2 : r.pool.m_stream = out1 ++ (out2 ++ rest) := by
          rw [hr, hout, List.append_assoc]
        have hok : HandleOK heap sharedObj k cl p := by
          intro a ha
          refine ⟨hcl a ha, hk k a ?_⟩
          rw [ha]
          exact List.mem_cons_self _ _
        obtain ⟨rm, hlm, hsm, hstm, corrm, lm⟩ :=
          sim w p wm hf inv (le_trans e2.next hb) k cl hok r out1 (out2 ++ rest) c ho1.symm hr2
        obtain ⟨r1, hl, hs1, hst, c1, l1⟩ :=
          ih tys wm w1 hrest invm hb hty2 hk2 rm out2 rest corrm ho2.symm hsm
        have xm : LoadExt rm r1 :=
          loadFields_ext (fun r ty f r1 h => loadField_ext hR hS r ty f r1 h) _ _ _ _ hl
        refine ⟨r1, ?_, hs1, hst.trans hstm, c1, lm.trans_loaded l1 cm e2 inv1 xm⟩
        simp only [loadFields, loadField_handle, hlm, hl, List.map_cons, Field.reloc]
        have : Option.map (loadedAddr base w1.m_storageIndices) p =
            Option.map (loadedAddr base wm.m_storageIndices) p := by
          cases p with
          | none => rfl
          | some a =>
            simp only [Option.map_some', loadedAddr, value_stable e2 inv1 (tm a rfl)]
        rw [this]

theorem IdentityInv.inj {w : PersistentPool} (inv : IdentityInv w) {a b : Addr} {i : Int}
    (ha : (a, i) ∈ w.m_storageIndices) (hb : (b, i) ∈ w.m_storageIndices) : a = b := by
  have nd : (w.m_storageIndices.map Prod.snd).Nodup := by
    rw [inv.ids]
    exact (List.nodup_range _).map (fun x y h => by simpa using h)
  have := List.inj_on_of_nodup_map nd ha hb rfl
  exact congrArg Prod.fst this

theorem inRange_id {n : Int} (h0 : 0 ≤ n) (h1 : n < 2 ^ 31) : InRange 4 n := by
  unfold InRange
  norm_num
  constructor <;> omega

theorem registered_stream (w : PersistentPool) (a : Addr) :
    (registered w a).m_stream = w.m_stream ++ encodeInt 4 w.m_lastStoredObjectId := rfl

theorem registered_next (w : PersistentPool) (a : Addr) :
    (registered w a).m_lastStoredObjectId = w.m_lastStoredObjectId + 1 := rfl

theorem corr_allocatedShared {sharedObj : Addr → Bool} {base : Nat} {w : PersistentPool}
    {r : ReadSide} (c : Corr sharedObj base w r) (inv : IdentityInv w) {a : Addr}
    (ha : a ∉ w.storedAddrs) (hk : sharedObj a = true) (S : Schema) (T : Cls) (s : List Nat)
    (hread : readInt 4 r.pool = (w.m_lastStoredObjectId, { r.pool with m_stream := s })) :
    Corr sharedObj base (registered w a) (allocatedShared S T r w.m_lastStoredObjectId) := by
  have h0 := inv.nonneg
  have hlen := c.len_shared
  have hle : r.pool.m_loaded.length ≤ w.m_lastStoredObjectId.toNat := by omega
  have ht : r.heap.length = base + w.m_lastStoredObjectId.toNat := by
    have := c.heap_len
    omega
  simp only [allocatedShared, hread]
  refine ⟨?_, ?_, ?_, ?_⟩
  · simp only [List.length_append, List.length_singleton, registered_next, ht]
    push_cast
    omega
  · have := c.len_raw
    simp only [registered_next]
    omega
  · simp only [registered_next, resize_set_length _ _ _ hle]
    push_cast
    omega
  · intro b i hi
    rw [registered_idx ha, List.mem_append, List.mem_singleton] at hi
    rcases hi with hi | hi
    · have := c.entry b i hi
      by_cases hb : sharedObj b = true
      · simp only [hb, if_true] at this ⊢
        exact prefix_getElem? (resize_set_extends _ _ _ hle) this
      · simp only [hb] at this ⊢
        exact this
    · cases hi
      simp only [hk, if_true]
      rw [resize_set_get _ _ _ hle, ht]

theorem corr_allocatedRaw {sharedObj : Addr → Bool} {base : Nat} {w : PersistentPool}
    {r : ReadSide} (c : Corr sharedObj base w r) (inv : IdentityInv w) {a : Addr}
    (ha : a ∉ w.storedAddrs) (hk : sharedObj a = false) (S : Schema) (T : Cls) (s : List Nat)
    (hread : readInt 4 r.pool = (w.m_lastStoredObjectId, { r.pool with m_stream := s })) :
    Corr sharedObj base (registered w a) (allocatedRaw S T r w.m_lastStoredObjectId) := by
  have h0 := inv.nonneg
  have hlen := c.len_raw
  have hle : r.pool.m_loadedRaw.length ≤ w.m_lastStoredObjectId.toNat := by omega
  have ht : r.heap.length = base + w.m_lastStoredObjectId.toNat := by
    have := c.heap_len
    omega
  simp only [allocatedRaw, hread]
  refine ⟨?_, ?_, ?_, ?_⟩
  · simp only [List.length_append, List.length_singleton, registered_next, ht]
    push_cast
    omega
  · simp only [registered_next, resize_set_length _ _ _ hle]
    push_cast
    omega
  · have := c.len_shared
    simp only [registered_next]
    omega
  · intro b i hi
    rw [registered_idx ha, List.mem_append, List.mem_singleton] at hi
    rcases hi with hi | hi
    · have := c.entry b i hi
      by_cases hb : sharedObj b = true
      · simp only [hb, if_true] at this ⊢
        exact this
      · simp only [hb] at this ⊢
        exact prefix_getElem? (resize_set_extends _ _ _ hle) this
    · cases hi
      simp only [hk]
      rw [if_neg (by simp), resize_set_get _ _ _ hle, ht]

/-- The last step of decoding a new object: once the members are loaded, the
body is assigned and the states correspond again. -/
theorem sim_finish {heap : Heap} {sharedObj : Addr → Bool} {base : Nat} {w w1 : PersistentPool}
    {r r2 : ReadSide} {a : Addr} {o : Obj} {c : Cls}
    (inv : IdentityInv w) (ha : a ∉ w.storedAddrs) (ho : heap[a]? = some o) (hc : o.cls = c)
    (cr : Corr sharedObj base w r)
    (e2 : Ext (registered w a) w1) (inv1 : IdentityInv w1)
    (c1 : Corr sharedObj base w1 r2) (l1 : Loaded heap base (registered w a) w1 r2) :
    some r.heap.length = (some a).map (loadedAddr base w1.m_storageIndices) ∧
    Corr sharedObj base w1
      { r2 with heap := (r2.heap.set r.heap.length
          { cls := c, fields := o.fields.map (Field.reloc base w1.m_storageIndices) }) } ∧
    Loaded heap base w w1
      { r2 with heap := (r2.heap.set r.heap.length
          { cls := c, fields := o.fields.map (Field.reloc base w1.m_storageIndices) }) } := by
  have h0 := inv.nonneg
  have hmem : (a, w.m_lastStoredObjectId) ∈ (registered w a).m_storageIndices := by
    simp [registered_idx ha]
  have hmem1 := e2.idx.subset hmem
  have hval := QHash.value_of_mem _ _ _ (-1) inv1.nodup hmem1
  have ht : r.heap.length = base + w.m_lastStoredObjectId.toNat := by
    have := cr.heap_len
    omega
  have hn1 := e2.next
  rw [registered_next] at hn1
  refine ⟨?_, c1.of_eq rfl rfl (by simp) rfl rfl, ?_⟩
  · simp only [Option.map_some', loadedAddr, hval, ht]
  · intro b i hi hnb
    by_cases hba : b = a
    · subst hba
      have hi2 := mem_idx_of_ext e2 inv1 hi (mem_addrs_of_mem_idx hmem)
      rw [registered_idx ha, List.mem_append, List.mem_singleton] at hi2
      rcases hi2 with hi2 | hi2
      · exact absurd (mem_addrs_of_mem_idx hi2) hnb
      · cases hi2
        refine ⟨o, ho, ?_⟩
        have hlt : r.heap.length < r2.heap.length := by
          have := c1.heap_len
          omega
        simp only [← ht, List.getElem?_set_self, hlt, Obj.reloc, hc]
    · have hnb2 : b ∉ (registered w a).storedAddrs := by
        simp only [PersistentPool.storedAddrs, registered_idx ha, List.map_append,
          List.map_cons, List.map_nil, List.mem_append, List.mem_singleton, not_or]
        exact ⟨hnb, hba⟩
      obtain ⟨o1, ho1, hr1⟩ := l1 b i hi hnb2
      refine ⟨o1, ho1, ?_⟩
      have hne : i ≠ w.m_lastStoredObjectId := by
        rintro rfl
        exact hba (inv1.inj hi hmem1)
      have hi0 := (inv1.id_bounds hi).1
      have : r.heap.length ≠ base + i.toNat := by omega
      simp only [List.getElem?_set_ne this]
      exact hr1

theorem decoderOf_raw (ldRaw ldShared : Cls → ReadSide → Option (Option Addr × ReadSide))
    {k : HandleKind} (h : k.isShared = false) : decoderOf ldRaw ldShared k = ldRaw := by
  simp [decoderOf, h]

theorem decoderOf_shared (ldRaw ldShared : Cls → ReadSide → Option (Option Addr × ReadSide))
    {k : HandleKind} (h : k.isShared = true) : decoderOf ldRaw ldShared k = ldShared := by
  simp [decoderOf, h]

theorem wellTyped_fields {S : Schema} {heap : Heap} (h : heap.wellTyped S = true) {a : Addr}
    {o : Obj} (ho : heap[a]? = some o) : fieldsHaveTypes heap o.fields (S o.cls) = true := by
  simp only [Heap.wellTyped, List.all_eq_true] at h
  exact h o (List.getElem?_mem ho)

theorem kindsAgree_fields {sharedObj : Addr → Bool} {heap : Heap}
    (h : heap.kindsAgree sharedObj = true) {a : Addr} {o : Obj} (ho : heap[a]? = some o) :
    ∀ k b, Field.handle k (some b) ∈ o.fields → k.isShared = sharedObj b := by
  simp only [Heap.kindsAgree, List.all_eq_true] at h
  intro k b hb
  have := h o (List.getElem?_mem ho) _ hb
  simpa using this

theorem sim_main (heap : Heap) (S : Schema) (sharedObj : Addr → Bool) (base : Nat)
    (hwt : heap.wellTyped S = true) (hka : heap.kindsAgree sharedObj = true) :
    ∀ fuel, Sim heap sharedObj base (storeSharedObject fuel heap) (idLoad fuel S)
      (idLoadS fuel S) := by
  intro fuel
  induction fuel with
  | zero =>
    intro w p w1 h
    simp [storeSharedObject] at h
  | succ fuel ih =>
    intro w p w1 h inv hb k c hok r out rest cr hw hr
    have hRS := idLoad_idLoadS_ext fuel S
    have hs := fun w p w1 => storeSharedObject_spec fuel heap w p w1
    have h0 := inv.nonneg
    cases p with
    | none =>
      simp only [storeSharedObject, Option.some.injEq] at h
      subst h
      have hout : out = encodeInt 4 (-1) := by
        have : w.m_stream ++ out = w.m_stream ++ encodeInt 4 (-1) := by
          rw [← hw]
          rfl
        exact List.append_cancel_left this
      subst hout
      have hread := readInt_encodeInt 4 (-1) (by decide) r.pool rest hr
      refine ⟨{ r with pool := { r.pool with m_stream := rest } }, ?_, rfl, rfl,
        cr.of_eq rfl rfl rfl rfl rfl, ?_⟩
      · cases hsh : k.isShared
        · rw [decoderOf_raw _ _ hsh, idLoad_unfold, hread]
          simp
        · rw [decoderOf_shared _ _ hsh, idLoadS_unfold, hread]
          simp
      · intro a i hi hna
        exact absurd (mem_addrs_of_mem_idx hi) hna
    | some a =>
      obtain ⟨⟨o, ho, hc⟩, hk⟩ := hok a rfl
      by_cases hid : QHash.value w.m_storageIndices a (-1) < 0
      · rw [storeSharedObject_new _ _ _ _ hid] at h
        have ha : a ∉ w.storedAddrs := (inv.value_neg_iff a).1 hid
        simp only [ho] at h
        obtain ⟨e2, inv1, c2, t2⟩ :=
          storeFields_spec heap _ hs o.fields _ w1 h (registered_inv inv ha)
        obtain ⟨out2, ho2⟩ := e2.stream
        have hn1 := e2.next
        rw [registered_next] at hn1
        have hout : out = encodeInt 4 w.m_lastStoredObjectId ++ out2 := by
          have : w.m_stream ++ out =
              w.m_stream ++ (encodeInt 4 w.m_lastStoredObjectId ++ out2) := by
            rw [← hw, ← ho2, registered_stream, List.append_assoc]
          exact List.append_cancel_left this
        have hr2 : r.pool.m_stream = encodeInt 4 w.m_lastStoredObjectId ++ (out2 ++ rest) := by
          rw [hr, hout, List.append_assoc]
        have hread := readInt_encodeInt 4 w.m_lastStoredObjectId
          (inRange_id h0 (by omega)) r.pool (out2 ++ rest) hr2
        have hty := wellTyped_fields hwt ho
        rw [hc] at hty
        have hkf := kindsAgree_fields hka ho
        have hnneg : ¬ w.m_lastStoredObjectId < 0 := by omega
        cases hsh : k.isShared
        · have hso : sharedObj a = false := by rw [← hk, hsh]
          have hlen : ¬ w.m_lastStoredObjectId < (r.pool.m_loadedRaw.length : Int) := by
            have := cr.len_raw
            omega
          have c0 := corr_allocatedRaw cr inv ha hso S c (out2 ++ rest) hread
          have hs0 : (allocatedRaw S c r w.m_lastStoredObjectId).pool.m_stream = out2 ++ rest := by
            simp only [allocatedRaw, hread]
          obtain ⟨r2, hl, hs2, hst2, c1, l1⟩ :=
            sim_fields hs hRS.1 hRS.2 ih o.fields (S c) _ w1 h (registered_inv inv ha) hb hty hkf
              _ out2 rest c0 ho2.symm hs0
          obtain ⟨f1, f2, f3⟩ := sim_finish inv ha ho hc cr e2 inv1 c1 l1
          refine ⟨_, ?_, ?_, ?_, f2, f3⟩
          · rw [decoderOf_raw _ _ hsh, idLoad_unfold, hread]
            simp only []
            rw [if_neg hnneg, if_neg hlen]
            simp only [loadObject, hl, f1]
          · exact hs2
          · rw [show r.pool.m_status = (allocatedRaw S c r w.m_lastStoredObjectId).pool.m_status
              by simp only [allocatedRaw, hread]]
            exact hst2
        · have hso : sharedObj a = true := by rw [← hk, hsh]
          have hlen : ¬ w.m_lastStoredObjectId < (r.pool.m_loaded.length : Int) := by
            have := cr.len_shared
            omega
          have c0 := corr_allocatedShared cr inv ha hso S c (out2 ++ rest) hread
          have hs0 : (allocatedShared S c r w.m_lastStoredObjectId).pool.m_stream =
              out2 ++ rest := by
            simp only [allocatedShared, hread]
          obtain ⟨r2, hl, hs2, hst2, c1, l1⟩ :=
            sim_fields hs hRS.1 hRS.2 ih o.fields (S c) _ w1 h (registered_inv inv ha) hb hty hkf
              _ out2 rest c0 ho2.symm hs0
          obtain ⟨f1, f2, f3⟩ := sim_finish inv ha ho hc cr e2 inv1 c1 l1
          refine ⟨_, ?_, ?_, ?_, f2, f3⟩
          · rw [decoderOf_shared _ _ hsh, idLoadS_unfold, hread]
            simp only []
            rw [if_neg hnneg, if_neg hlen]
            simp only [loadObject, hl, f1]
          · exact hs2
          · rw [show r.pool.m_status = (allocatedShared S c r w.m_lastStoredObjectId).pool.m_status
              by simp only [allocatedShared, hread]]
            exact hst2
      · rw [storeSharedObject_old _ _ _ _ hid] at h
        simp only [Option.some.injEq] at h
        subst h
        have ha : a ∈ w.storedAddrs := by
          by_contra hc2
          exact hid ((inv.value_neg_iff a).2 hc2)
        obtain ⟨i, hi⟩ := mem_idx_of_mem_addrs ha
        have hval := QHash.value_of_mem _ _ i (-1) inv.nodup hi
        rw [hval] at hw
        obtain ⟨hi0, hi1⟩ := inv.id_bounds hi
        have hout : out = encodeInt 4 i := by
          have : w.m_stream ++ out = w.m_stream ++ encodeInt 4 i := by
            rw [← hw]
            rfl
          exact List.append_cancel_left this
        subst hout
        have hb2 : w.m_lastStoredObjectId ≤ 2 ^ 31 := hb
        have hread := readInt_encodeInt 4 i (inRange_id hi0 (by omega)) r.pool rest hr
        have hent := cr.entry a i hi
        have hnneg : ¬ i < 0 := by omega
        refine ⟨{ r with pool := { r.pool with m_stream := rest } }, ?_, rfl, rfl,
          cr.of_eq rfl rfl rfl rfl rfl, ?_⟩
        · have hres : Option.map
              (loadedAddr base (writeInt 4 (QHash.value w.m_storageIndices a (-1)) w).m_storageIndices)
              (some a) = some (base + i.toNat) := by
            simp only [Option.map_some', loadedAddr, writeInt, hval]
          rw [hres]
          cases hsh : k.isShared
          · have hso : sharedObj a = false := by rw [← hk, hsh]
            simp only [hso, Bool.false_eq_true, if_false] at hent
            have hlt : i.toNat < r.pool.m_loadedRaw.length := by
              by_contra hc2
              rw [List.getElem?_eq_none (by omega)] at hent
              cases hent
            have hlen : i < (r.pool.m_loadedRaw.length : Int) := by omega
            rw [decoderOf_raw _ _ hsh, idLoad_unfold, hread]
            simp only []
            rw [if_neg hnneg, if_pos hlen]
            simp only [List.getD_eq_getElem?_getD, hent, Option.getD_some]
          · have hso : sharedObj a = true := by rw [← hk, hsh]
            simp only [hso, if_true] at hent
            have hlt : i.toNat < r.pool.m_loaded.length := by
              by_contra hc2
              rw [List.getElem?_eq_none (by omega)] at hent
              cases hent
            have hlen : i < (r.pool.m_loaded.length : Int) := by omega
            rw [decoderOf_shared _ _ hsh, idLoadS_unfold, hread]
            simp only []
            rw [if_neg hnneg, if_pos hlen]
            simp only [List.getD_eq_getElem?_getD, hent, Option.getD_some]
        · intro b j hj hnb
          exact absurd (mem_addrs_of_mem_idx hj) hnb

theorem length_le_of_nodup_lt {l : List Nat} {n : Nat} (nd : l.Nodup) (h : ∀ a ∈ l, a < n) :
    l.length ≤ n := by
  have hs : l ⊆ List.range n := fun a ha => List.mem_range.2 (h a ha)
  simpa using (List.subperm_of_subset nd hs).length_le

theorem fieldsHaveTypes_valid {heap : Heap} :
    ∀ {fs : List Field} {tys : List FieldTy}, fieldsHaveTypes heap fs tys = true →
      ∀ k b, Field.handle k (some b) ∈ fs → b < heap.length := by
  intro fs
  induction fs with
  | nil => intro tys _ k b hb; cases hb
  | cons f fs ih =>
    intro tys hty k b hb
    cases tys with
    | nil => simp [fieldsHaveTypes] at hty
    | cons ty tys =>
      simp only [fieldsHaveTypes, Bool.and_eq_true] at hty
      rcases List.mem_cons.1 hb with hb | hb
      · subst hb
        obtain ⟨c, -, hc⟩ := hasType_handle hty.1
        obtain ⟨o, ho, -⟩ := hc b rfl
        by_contra hlt
        rw [List.getElem?_eq_none (Nat.le_of_not_lt hlt)] at ho
        cases ho
      · exact ih hty.2 k b hb

/-- Storing a list of members succeeds when storing each handle does. -/
theorem storeFields_total {heap : Heap} {fuel : Nat}
    (IH : ∀ w p, IdentityInv w → (∀ a ∈ w.storedAddrs, a < heap.length) →
      heap.length < w.storedAddrs.length + fuel → (∀ a, p = some a → a < heap.length) →
      ∃ w1, storeSharedObject fuel heap w p = some w1) :
    ∀ (fs : List Field) (w : PersistentPool), IdentityInv w →
      (∀ a ∈ w.storedAddrs, a < heap.length) →
      heap.length < w.storedAddrs.length + fuel →
      (∀ k b, Field.handle k (some b) ∈ fs → b < heap.length) →
      ∃ w1, fs.foldlM (storeField (storeSharedObject fuel heap)) w = some w1 := by
  intro fs
  induction fs with
  | nil => intro w _ _ _ _; exact ⟨w, rfl⟩
  | cons f fs ih =>
    intro w inv hv hf ht
    have ht2 : ∀ k b, Field.handle k (some b) ∈ fs → b < heap.length :=
      fun k b hb => ht k b (List.mem_cons_of_mem _ hb)
    cases f with
    | int v =>
      have invm : IdentityInv (writeInt 4 v w) := ⟨inv.nonneg, inv.nodup, inv.ids⟩
      obtain ⟨w1, h1⟩ := ih (writeInt 4 v w) invm hv hf ht2
      exact ⟨w1, by simpa [List.foldlM_cons, storeField, HelperIntegral.store] using h1⟩
    | handle k p =>
      have hp : ∀ a, p = some a → a < heap.length := by
        intro a ha
        exact ht k a (by rw [ha]; exact List.mem_cons_self _ _)
      obtain ⟨wm, hm⟩ := IH w p inv hv hf hp
      obtain ⟨em, invm, cm, -⟩ := storeSharedObject_spec fuel heap w p wm hm inv
      have hvm : ∀ a ∈ wm.storedAddrs, a < heap.length := by
        intro a ha
        by_cases hin : a ∈ w.storedAddrs
        · exact hv a hin
        · obtain ⟨o, ho, -⟩ := cm a ha hin
          by_contra hlt
          rw [List.getElem?_eq_none (Nat.le_of_not_lt hlt)] at ho
          cases ho
      have hfm : heap.length < wm.storedAddrs.length + fuel :=
        lt_of_lt_of_le hf (Nat.add_le_add_right em.addrs.length_le _)
      obtain ⟨w1, h1⟩ := ih wm invm hvm hfm ht2
      exact ⟨w1, by simp [List.foldlM_cons, storeField, hm, h1]⟩

/-- Termination of `storeSharedObject`: a nesting bound above the number of
objects not yet recorded is enough for the call to return. -/
theorem storeSharedObject_total (heap : Heap) (S : Schema) (hwt : heap.wellTyped S = true) :
    ∀ (fuel : Nat) (w : PersistentPool) (p : Option Addr), IdentityInv w →
      (∀ a ∈ w.storedAddrs, a < heap.length) →
      heap.length < w.storedAddrs.length + fuel → (∀ a, p = some a → a < heap.length) →
      ∃ w1, storeSharedObject fuel heap w p = some w1 := by
  intro fuel
  induction fuel with
  | zero =>
    intro w p inv hv hf _
    have := length_le_of_nodup_lt inv.nodup hv
    omega
  | succ fuel ih =>
    intro w p inv hv hf hp
    cases p with
    | none => exact ⟨_, rfl⟩
    | some a =>
      by_cases hid : QHash.value w.m_storageIndices a (-1) < 0
      · rw [storeSharedObject_new _ _ _ _ hid]
        have ha : a ∉ w.storedAddrs := (inv.value_neg_iff a).1 hid
        have hlt := hp a rfl
        have ho : heap[a]? = some heap[a] := List.getElem?_eq_getElem hlt
        simp only [ho]
        have hty := fieldsHaveTypes_valid (wellTyped_fields hwt ho)
        have hlen : (registered w a).storedAddrs.length = w.storedAddrs.length + 1 := by
          simp [PersistentPool.storedAddrs, registered_idx ha]
        refine storeFields_total ih _ _ (registered_inv inv ha) ?_ (by omega) hty
        intro b hb
        simp only [PersistentPool.storedAddrs, registered_idx ha, List.map_append,
          List.map_cons, List.map_nil, List.mem_append, List.mem_singleton] at hb
        rcases hb with hb | hb
        · exact hv b hb
        · rw [hb]; exact hlt
      · rw [storeSharedObject_old _ _ _ _ hid]
        exact ⟨_, rfl⟩

theorem clear_inv (pool : PersistentPool) : IdentityInv pool.clear :=
  ⟨le_refl _, List.nodup_nil, rfl⟩

theorem HelperPointer.load_eq (fuel : Nat) (S : Schema) (k : HandleKind) :
    HelperPointer.load fuel S k = decoderOf (idLoad fuel S) (idLoadS fuel S) k := by
  cases k <;> rfl

theorem HelperPointer.load_ext (fuel : Nat) (S : Schema) (k : HandleKind) :
    LoaderExt (HelperPointer.load fuel S k) := by
  cases k
  · exact (idLoad_idLoadS_ext fuel S).2
  · exact (idLoad_idLoadS_ext fuel S).1
  · exact (idLoad_idLoadS_ext fuel S).1

/-- Store a graph from a cleared pool, load the bytes with a fresh pool: the
store returns, the load returns the loaded root, and every recorded object has
its loaded copy. -/
theorem roundtrip (heap : Heap) (S : Schema) (sharedObj : Addr → Bool)
    (hwt : heap.wellTyped S = true) (hka : heap.kindsAgree sharedObj = true)
    (hsz : heap.length < 2 ^ 31) (k : HandleKind) (c : Cls) (root : Option Addr)
    (hroot : HandleOK heap sharedObj k c root) (pool0 : PersistentPool) :
    ∃ w1 out, storeSharedObject (heap.length + 1) heap pool0.clear root = some w1 ∧
      w1.m_stream = pool0.m_stream ++ out ∧ IdentityInv w1 ∧
      Closed heap pool0.clear w1 ∧ (∀ a, root = some a → a ∈ w1.storedAddrs) ∧
      ∀ (rpool : PersistentPool) (mem : Heap) (rest : List Nat),
        ∃ r1, HelperPointer.load (heap.length + 1) S k c
            ⟨{ rpool.clear with m_stream := out ++ rest }, mem⟩ =
            some (root.map (loadedAddr mem.length w1.m_storageIndices), r1) ∧
          r1.pool.m_stream = rest ∧ r1.pool.m_status = rpool.m_status ∧
          Corr sharedObj mem.length w1 r1 ∧ Loaded heap mem.length pool0.clear w1 r1 ∧
          mem <+: r1.heap := by
  have inv0 := clear_inv pool0
  have hvalid : ∀ a, root = some a → a < heap.length := by
    intro a ha
    obtain ⟨⟨o, ho, -⟩, -⟩ := hroot a ha
    by_contra hlt
    rw [List.getElem?_eq_none (Nat.le_of_not_lt hlt)] at ho
    cases ho
  obtain ⟨w1, hst⟩ := storeSharedObject_total heap S hwt (heap.length + 1) pool0.clear root inv0
    (by intro a ha; cases ha) (by omega) hvalid
  obtain ⟨e1, inv1, c1, t1⟩ := storeSharedObject_spec _ heap _ root w1 hst inv0
  obtain ⟨out, hout⟩ := e1.stream
  have hv1 : ∀ a ∈ w1.storedAddrs, a < heap.length := by
    intro a ha
    obtain ⟨o, ho, -⟩ := c1 a ha (by intro h; cases h)
    by_contra hlt
    rw [List.getElem?_eq_none (Nat.le_of_not_lt hlt)] at ho
    cases ho
  have hb : w1.m_lastStoredObjectId ≤ 2 ^ 31 := by
    have h1 := length_le_of_nodup_lt inv1.nodup hv1
    have h2 := inv1.length_eq
    have h3 : w1.storedAddrs.length = w1.m_storageIndices.length := by
      simp [PersistentPool.storedAddrs]
    omega
  refine ⟨w1, out, hst, hout.symm, inv1, c1, t1, ?_⟩
  intro rpool mem rest
  have cr : Corr sharedObj mem.length pool0.clear
      ⟨{ rpool.clear with m_stream := out ++ rest }, mem⟩ := by
    refine ⟨?_, ?_, ?_, ?_⟩
    · simp [PersistentPool.clear]
    · simp [PersistentPool.clear]
    · simp [PersistentPool.clear]
    · intro a i hi
      cases hi
  obtain ⟨r1, hl, hs, hstat, c2, l2⟩ :=
    sim_main heap S sharedObj mem.length hwt hka (heap.length + 1) pool0.clear root w1 hst inv0
      hb k c hroot _ out rest cr hout.symm rfl
  rw [← HelperPointer.load_eq] at hl
  exact ⟨r1, hl, hs, hstat, c2, l2, (HelperPointer.load_ext _ S k c _ _ _ hl).heap⟩

/-- Every object of the graph is recorded once its root has been stored. -/
theorem reach_stored {heap : Heap} {w w1 : PersistentPool} {root : Option Addr}
    (c : Closed heap w w1) (hw : w.storedAddrs = [])
    (t : ∀ a, root = some a → a ∈ w1.storedAddrs) {a : Addr} (h : Reach heap root a) :
    a ∈ w1.storedAddrs := by
  obtain ⟨r, hr, hreach⟩ := h
  induction hreach with
  | refl => exact t r hr
  | tail _ hedge ih =>
    obtain ⟨o, k, ho, hb⟩ := hedge
    obtain ⟨o1, ho1, ht⟩ := c _ ih (by rw [hw]; intro h; cases h)
    rw [ho] at ho1
    cases ho1
    exact ht k _ hb

theorem inRange_length {n : Nat} (h : n < 2 ^ 31) : InRange 4 (n : Int) :=
  inRange_id (Int.ofNat_nonneg n) (by exact_mod_cast h)

/-- The 32-bit integral helper round-trips the values of an `int`. -/
theorem int32_roundTrips : RoundTrips storeInt32 loadInt32 (InRange 4) (fun _ _ => True) := by
  refine ⟨fun _ _ _ _ _ => trivial, ?_⟩
  intro x w w1 hx h
  simp only [storeInt32, HelperIntegral.store, Option.some.injEq] at h
  subst h
  refine ⟨encodeInt 4 x, rfl, ?_⟩
  intro r rest _ hr
  refine ⟨{ r with pool := { r.pool with m_stream := rest } }, ?_, rfl, trivial⟩
  simp only [loadInt32, HelperIntegral.load, readInt_encodeInt 4 x hx r.pool rest hr]

theorem pushBackLoop_roundtrip {α : Type}
    {storeElem : α → PersistentPool → Option PersistentPool}
    {loadElem : ReadSide → Option (α × ReadSide)} {Valid : α → Prop}
    {Rel : PersistentPool → ReadSide → Prop} (rt : RoundTrips storeElem loadElem Valid Rel) :
    ∀ (xs acc : List α) (w w1 : PersistentPool), (∀ x ∈ xs, Valid x) →
      xs.foldlM (fun pool x => storeElem x pool) w = some w1 →
      ∃ out, w1.m_stream = w.m_stream ++ out ∧
        ∀ r rest, Rel w r → r.pool.m_stream = out ++ rest →
          ∃ r1, pushBackLoop loadElem xs.length acc r = some (acc ++ xs, r1) ∧
            r1.pool.m_stream = rest ∧ Rel w1 r1 := by
  intro xs
  induction xs with
  | nil =>
    intro acc w w1 _ h
    simp only [List.foldlM_nil, Option.pure_def, Option.some.injEq] at h
    subst h
    exact ⟨[], by simp, fun r rest hrel hr => ⟨r, by simp [pushBackLoop], by simpa using hr, hrel⟩⟩
  | cons x xs ih =>
    intro acc w w1 hv h
    simp only [List.foldlM_cons, Option.bind_eq_bind, Option.bind_eq_some] at h
    obtain ⟨wm, hx, hrest⟩ := h
    obtain ⟨out1, ho1, hl1⟩ := rt.roundtrip x w wm (hv x (List.mem_cons_self _ _)) hx
    obtain ⟨out2, ho2, hl2⟩ :=
      ih (acc ++ [x]) wm w1 (fun y hy => hv y (List.mem_cons_of_mem _ hy)) hrest
    refine ⟨out1 ++ out2, by rw [ho2, ho1, List.append_assoc], ?_⟩
    intro r rest hrel hr
    obtain ⟨rm, hlm, hsm, hrelm⟩ := hl1 r (out2 ++ rest) hrel (by rw [hr, List.append_assoc])
    obtain ⟨r1, hl, hs, hrel1⟩ := hl2 rm rest hrelm hsm
    refine ⟨r1, ?_, hs, hrel1⟩
    simp only [List.length_cons, pushBackLoop, hlm, hl, List.append_assoc, List.singleton_append]

theorem foldlM_total {α : Type} (storeElem : α → PersistentPool → Option PersistentPool)
    (ht : ∀ x p, ∃ p1, storeElem x p = some p1) :
    ∀ (xs : List α) (w : PersistentPool),
      ∃ w1, xs.foldlM (fun pool x => storeElem x pool) w = some w1 := by
  intro xs
  induction xs with
  | nil => intro w; exact ⟨w, rfl⟩
  | cons x xs ih =>
    intro w
    obtain ⟨wm, hm⟩ := ht x w
    obtain ⟨w1, h1⟩ := ih wm
    exact ⟨w1, by simp [List.foldlM_cons, hm, h1]⟩

theorem readUInt_encodeInt (n : Nat) (h : n < 2 ^ 32) (pool : PersistentPool) (rest : List Nat)
    (hs : pool.m_stream = encodeInt 4 (n : Int) ++ rest) :
    readUInt 4 pool = (n, { pool with m_stream := rest }) := by
  have hl := encodeInt_length 4 (n : Int)
  simp only [readUInt, hs, List.length_append, hl, Nat.le_add_right, if_true,
    List.take_left' hl, List.drop_left' hl]
  simp only [encodeInt, decodeBE_encodeBE]
  congr 1
  have e : ((n : Int) % ((256 ^ 4 : Nat) : Int)).toNat = n := by
    norm_num
    omega
  rw [e]
  exact Nat.mod_eq_of_lt (by norm_num; omega)

theorem lookup_eq_some_iff {κ ν : Type} [DecidableEq κ] {l : List (κ × ν)}
    (nd : (l.map Prod.fst).Nodup) (key : κ) (v : ν) : l.lookup key = some v ↔ (key, v) ∈ l := by
  induction l with
  | nil => simp
  | cons e t ih =>
    obtain ⟨k, x⟩ := e
    simp only [List.map_cons, List.nodup_cons] at nd
    by_cases hk : key = k
    · subst hk
      simp only [List.lookup, beq_self_eq_true, Option.some.injEq, List.mem_cons, Prod.mk.injEq,
        true_and]
      constructor
      · intro h; exact Or.inl h.symm
      · rintro (h | h)
        · exact h.symm
        · exact absurd (List.mem_map.2 ⟨(key, v), h, rfl⟩) nd.1
    · have hne : (key == k) = false := by simpa using hk
      simp only [List.lookup, hne, List.mem_cons, Prod.mk.injEq, hk, false_and, false_or]
      exact ih nd.2

theorem lookup_perm {κ ν : Type} [DecidableEq κ] {l m : List (κ × ν)}
    (nd : (m.map Prod.fst).Nodup) (hp : l.Perm m) (key : κ) : l.lookup key = m.lookup key := by
  have ndl : (l.map Prod.fst).Nodup := (hp.map Prod.fst).nodup_iff.2 nd
  cases h : m.lookup key with
  | some v =>
    rw [lookup_eq_some_iff ndl]
    exact hp.mem_iff.2 ((lookup_eq_some_iff nd key v).1 h)
  | none =>
    cases h2 : l.lookup key with
    | none => rfl
    | some v =>
      have := (lookup_eq_some_iff nd key v).2 (hp.mem_iff.1 ((lookup_eq_some_iff ndl key v).1 h2))
      rw [h] at this
      cases this

theorem foldl_insert_nodup {κ ν : Type} [DecidableEq κ] :
    ∀ (its acc : List (κ × ν)), ((acc ++ its).map Prod.fst).Nodup →
      its.foldl (fun c e => QHash.insert c e.1 e.2) acc = acc ++ its := by
  intro its
  induction its with
  | nil => intro acc _; simp
  | cons e its ih =>
    intro acc nd
    have hk : e.1 ∉ acc.map Prod.fst := by
      simp only [List.map_append, List.map_cons] at nd
      have := (List.nodup_append.1 nd).2.2
      intro hin
      exact this hin (List.mem_cons_self _ _) 
    simp only [List.foldl_cons, QHash.insert_of_not_mem _ _ _ hk]
    rw [ih (acc ++ [(e.1, e.2)]) (by simpa using nd)]
    simp

theorem foldl_uinsert_nodup {κ ν : Type} [DecidableEq κ] :
    ∀ (its acc : List (κ × ν)), ((acc ++ its).map Prod.fst).Nodup →
      its.foldl UnorderedMap.insert acc = acc ++ its := by
  intro its
  induction its with
  | nil => intro acc _; simp
  | cons e its ih =>
    intro acc nd
    have hk : e.1 ∉ acc.map Prod.fst := by
      simp only [List.map_append, List.map_cons] at nd
      have := (List.nodup_append.1 nd).2.2
      intro hin
      exact this hin (List.mem_cons_self _ _)
    simp only [List.foldl_cons, UnorderedMap.insert, if_neg hk]
    rw [ih (acc ++ [e]) (by simpa using nd)]
    simp

theorem insertLoop_roundtrip {κ ν : Type} [DecidableEq κ]
    {storeKey : κ → PersistentPool → Option PersistentPool}
    {loadKey : ReadSide → Option (κ × ReadSide)} {ValidK : κ → Prop}
    {storeValue : ν → PersistentPool → Option PersistentPool}
    {loadValue : ReadSide → Option (ν × ReadSide)} {ValidV : ν → Prop}
    {Rel : PersistentPool → ReadSide → Prop} (rtk : RoundTrips storeKey loadKey ValidK Rel)
    (rtv : RoundTrips storeValue loadValue ValidV Rel) :
    ∀ (its acc : List (κ × ν)) (w w1 : PersistentPool), (∀ e ∈ its, ValidK e.1 ∧ ValidV e.2) →
      its.foldlM (fun pool e => (storeKey e.1 pool).bind (storeValue e.2)) w = some w1 →
      ∃ out, w1.m_stream = w.m_stream ++ out ∧
        ∀ r rest, Rel w r → r.pool.m_stream = out ++ rest →
          ∃ r1, insertLoop loadKey loadValue its.length acc r =
              some (its.foldl (fun c e => QHash.insert c e.1 e.2) acc, r1) ∧
            r1.pool.m_stream = rest ∧ Rel w1 r1 := by
  intro its
  induction its with
  | nil =>
    intro acc w w1 _ h
    simp only [List.foldlM_nil, Option.pure_def, Option.some.injEq] at h
    subst h
    exact ⟨[], by simp, fun r rest hrel hr => ⟨r, by simp [insertLoop], by simpa using hr, hrel⟩⟩
  | cons e its ih =>
    intro acc w w1 hv h
    simp only [List.foldlM_cons, Option.bind_eq_bind, Option.bind_eq_some] at h
    obtain ⟨wm, ⟨wk, hk, hvv⟩, hrest⟩ := h
    have hve := hv e (List.mem_cons_self _ _)
    obtain ⟨out1, ho1, hl1⟩ := rtk.roundtrip e.1 w wk hve.1 hk
    obtain ⟨out2, ho2, hl2⟩ := rtv.roundtrip e.2 wk wm hve.2 hvv
    obtain ⟨out3, ho3, hl3⟩ :=
      ih (QHash.insert acc e.1 e.2) wm w1 (fun y hy => hv y (List.mem_cons_of_mem _ hy)) hrest
    refine ⟨out1 ++ (out2 ++ out3), by rw [ho3, ho2, ho1]; simp, ?_⟩
    intro r rest hrel hr
    obtain ⟨rk, hlk, hsk, hrelk⟩ := hl1 r (out2 ++ out3 ++ rest) hrel (by rw [hr]; simp)
    obtain ⟨rm, hlm, hsm, hrelm⟩ := hl2 rk (out3 ++ rest) hrelk (by rw [hsk]; simp)
    obtain ⟨r1, hl, hs, hrel1⟩ := hl3 rm rest hrelm hsm
    refine ⟨r1, ?_, hs, hrel1⟩
    simp only [List.length_cons, insertLoop, hlk, hlm, hl, List.foldl_cons]

theorem insertPairLoop_roundtrip {κ ν : Type} [DecidableEq κ]
    {storeKey : κ → PersistentPool → Option PersistentPool}
    {loadKey : ReadSide → Option (κ × ReadSide)} {ValidK : κ → Prop}
    {storeValue : ν → PersistentPool → Option PersistentPool}
    {loadValue : ReadSide → Option (ν × ReadSide)} {ValidV : ν → Prop}
    {Rel : PersistentPool → ReadSide → Prop} (rtk : RoundTrips storeKey loadKey ValidK Rel)
    (rtv : RoundTrips storeValue loadValue ValidV Rel) (tmp : κ × ν) :
    ∀ (its acc : List (κ × ν)) (w w1 : PersistentPool), (∀ e ∈ its, ValidK e.1 ∧ ValidV e.2) →
      its.foldlM (fun pool e => HelperPair.store storeKey storeValue e pool) w = some w1 →
      ∃ out, w1.m_stream = w.m_stream ++ out ∧
        ∀ r rest, Rel w r → r.pool.m_stream = out ++ rest →
          ∃ r1, insertPairLoop
                (HelperPair.load (fun _ => loadKey) (fun _ => loadValue) tmp) its.length acc r =
              some (its.foldl UnorderedMap.insert acc, r1) ∧
            r1.pool.m_stream = rest ∧ Rel w1 r1 := by
  intro its
  induction its with
  | nil =>
    intro acc w w1 _ h
    simp only [List.foldlM_nil, Option.pure_def, Option.some.injEq] at h
    subst h
    exact ⟨[], by simp,
      fun r rest hrel hr => ⟨r, by simp [insertPairLoop], by simpa using hr, hrel⟩⟩
  | cons e its ih =>
    intro acc w w1 hv h
    simp only [List.foldlM_cons, Option.bind_eq_bind, Option.bind_eq_some, HelperPair.store] at h
    obtain ⟨wm, ⟨wk, hk, hvv⟩, hrest⟩ := h
    have hve := hv e (List.mem_cons_self _ _)
    obtain ⟨out1, ho1, hl1⟩ := rtk.roundtrip e.1 w wk hve.1 hk
    obtain ⟨out2, ho2, hl2⟩ := rtv.roundtrip e.2 wk wm hve.2 hvv
    obtain ⟨out3, ho3, hl3⟩ :=
      ih (UnorderedMap.insert acc e) wm w1 (fun y hy => hv y (List.mem_cons_of_mem _ hy))
        (by simpa only [HelperPair.store] using hrest)
    refine ⟨out1 ++ (out2 ++ out3), by rw [ho3, ho2, ho1]; simp, ?_⟩
    intro r rest hrel hr
    obtain ⟨rk, hlk, hsk, hrelk⟩ := hl1 r (out2 ++ out3 ++ rest) hrel (by rw [hr]; simp)
    obtain ⟨rm, hlm, hsm, hrelm⟩ := hl2 rk (out3 ++ rest) hrelk (by rw [hsk]; simp)
    obtain ⟨r1, hl, hs, hrel1⟩ := hl3 rm rest hrelm hsm
    refine ⟨r1, ?_, hs, hrel1⟩
    simp only [List.length_cons, insertPairLoop, HelperPair.load, hlk, hlm, hl, List.foldl_cons]

theorem encodeInts_length (xs : List Int) : (encodeInts xs).length = 4 * xs.length := by
  induction xs with
  | nil => rfl
  | cons x xs ih => simp [encodeInts, encodeInt_length, ih]; omega

theorem store_ints_stream : ∀ (xs : List Int) (w w1 : PersistentPool),
    xs.foldlM (fun pool x => storeInt32 x pool) w = some w1 →
    w1 = { w with m_stream := w.m_stream ++ encodeInts xs } := by
  intro xs
  induction xs with
  | nil =>
    intro w w1 h
    simp only [List.foldlM_nil, Option.pure_def, Option.some.injEq] at h
    subst h
    simp [encodeInts]
  | cons x xs ih =>
    intro w w1 h
    simp only [List.foldlM_cons, Option.bind_eq_bind, Option.bind_eq_some] at h
    obtain ⟨wm, hx, hrest⟩ := h
    simp only [storeInt32, HelperIntegral.store, Option.some.injEq] at hx
    subst hx
    rw [ih _ w1 hrest]
    simp [writeInt, encodeInts]

theorem loadInt32_past_end (r : ReadSide) (h : r.pool.m_stream.length < 4) :
    loadInt32 r =
      some (0, { r with pool := { r.pool with m_stream := [], m_status := Status.ReadPastEnd } }) := by
  simp only [loadInt32, HelperIntegral.load, readInt_short 4 r.pool h]

/-- Once the stream is drained, every further integer read gives `0`. -/
theorem pushBackLoop_drained (n : Nat) (acc : List Int) (r : ReadSide)
    (hs : r.pool.m_stream = []) (hst : r.pool.m_status = Status.ReadPastEnd) :
    pushBackLoop loadInt32 n acc r = some (acc ++ List.replicate n 0, r) := by
  induction n generalizing acc with
  | zero => simp [pushBackLoop]
  | succ n ih =>
    have hr : { r with pool := { r.pool with m_stream := [], m_status := Status.ReadPastEnd } }
        = r := by
      obtain ⟨pool, heap⟩ := r
      obtain ⟨a, b, c, d, e, f, g, h, i⟩ := pool
      simp only at hs hst
      subst hs hst
      rfl
    simp only [pushBackLoop, loadInt32_past_end r (by simp [hs]), hr, ih (acc ++ [0])]
    simp [List.replicate_succ]

theorem pushBackLoop_truncated : ∀ (xs acc : List Int) (k : Nat) (r : ReadSide),
    (∀ x ∈ xs, InRange 4 x) → k < 4 * xs.length → r.pool.m_stream = (encodeInts xs).take k →
    ∃ r1, pushBackLoop loadInt32 xs.length acc r =
        some (acc ++ (xs.take (k / 4) ++ List.replicate (xs.length - k / 4) 0), r1) ∧
      r1.pool.m_status = Status.ReadPastEnd ∧ r1.pool.m_stream = [] ∧ r1.heap = r.heap := by
  intro xs
  induction xs with
  | nil => intro acc k r _ hk; simp at hk
  | cons x xs ih =>
    intro acc k r hv hk hs
    have hl := encodeInt_length 4 x
    by_cases h4 : k < 4
    · have hshort : r.pool.m_stream.length < 4 := by
        rw [hs, List.length_take]
        omega
      have hk0 : k / 4 = 0 := by omega
      refine ⟨{ r with pool := { r.pool with m_stream := [], m_status := Status.ReadPastEnd } },
        ?_, rfl, rfl, rfl⟩
      simp only [List.length_cons, pushBackLoop, loadInt32_past_end r hshort]
      rw [pushBackLoop_drained _ _ _ rfl rfl, hk0]
      simp [List.replicate_succ]
    · have hs2 : r.pool.m_stream = encodeInt 4 x ++ (encodeInts xs).take (k - 4) := by
        rw [hs, encodeInts, List.take_append_eq_append_take, hl,
          List.take_of_length_le (by omega)]
      have hload : loadInt32 r =
          some (x, { r with pool := { r.pool with m_stream := (encodeInts xs).take (k - 4) } }) := by
        simp only [loadInt32, HelperIntegral.load,
          readInt_encodeInt 4 x (hv x (List.mem_cons_self _ _)) r.pool _ hs2]
      have hk2 : k - 4 < 4 * xs.length := by
        simp only [List.length_cons] at hk
        omega
      obtain ⟨r1, hl1, h1, h2, h3⟩ := ih (acc ++ [x]) (k - 4)
        { r with pool := { r.pool with m_stream := (encodeInts xs).take (k - 4) } }
        (fun y hy => hv y (List.mem_cons_of_mem _ hy)) hk2 rfl
      refine ⟨r1, ?_, h1, h2, h3⟩
      have hk4 : k / 4 = (k - 4) / 4 + 1 := by omega
      simp only [List.length_cons, pushBackLoop, hload, hl1, hk4, List.take_succ_cons,
        Nat.add_sub_add_right]
      simp

theorem WriteStep.spec {w w1 : PersistentPool} (h : WriteStep w w1) (inv : IdentityInv w) :
    IdentityInv w1 ∧ w.m_storageIndices <+: w1.m_storageIndices := by
  cases h with
  | handle fuel heap _ p _ hst =>
    obtain ⟨e, inv1, -, -⟩ := storeSharedObject_spec fuel heap w p w1 hst inv
    exact ⟨inv1, e.idx⟩
  | integral n value => exact ⟨⟨inv.nonneg, inv.nodup, inv.ids⟩, List.prefix_refl _⟩
  | other _ _ h1 h2 =>
    refine ⟨⟨by rw [h2]; exact inv.nonneg, ?_, by rw [h1, h2]; exact inv.ids⟩, ?_⟩
    · simp only [PersistentPool.storedAddrs, h1]
      exact inv.nodup
    · rw [h1]

theorem WriteSession.inv {w : PersistentPool} (h : WriteSession w) : IdentityInv w := by
  induction h with
  | start pool => exact clear_inv pool
  | step _ _ _ hstep ih => exact (hstep.spec ih).1

theorem WriteSession.later {w w1 : PersistentPool} (h : WriteSession w)
    (hs : Relation.ReflTransGen WriteStep w w1) :
    WriteSession w1 ∧ w.m_storageIndices <+: w1.m_storageIndices := by
  induction hs with
  | refl => exact ⟨h, List.prefix_refl _⟩
  | tail _ hstep ih =>
    exact ⟨WriteSession.step _ _ ih.1 hstep, ih.2.trans (hstep.spec ih.1.inv).2⟩

theorem cycleStored_session : WriteSession cycleStored :=
  WriteSession.step _ _ (WriteSession.start emptyPool)
    (WriteStep.handle 3 cycleHeap _ (some 0) _ (by decide))

theorem ReadStep.ext_step {r r1 : ReadSide} (h : ReadStep r r1) : LoadExt r r1 := by
  cases h with
  | idLoad fuel S T _ p _ h => exact (idLoad_idLoadS_ext fuel S).1 T r p r1 h
  | idLoadS fuel S T _ p _ h => exact (idLoad_idLoadS_ext fuel S).2 T r p r1 h
  | integral n => exact HelperIntegral.load_loadExt n r

theorem ReadSteps.ext_steps {r r1 : ReadSide} (h : Relation.ReflTransGen ReadStep r r1) :
    LoadExt r r1 := by
  induction h with
  | refl => exact LoadExt.refl_load r
  | tail _ hstep ih => exact ih.trans_load hstep.ext_step

/-- `idLoad` on an id below the size of `m_loadedRaw`: the entry at that index
is returned as it is. -/
theorem idLoad_seen (fuel : Nat) (S : Schema) (T : Cls) (r : ReadSide) (id : Int) (h0 : 0 ≤ id)
    (h1 : id < 2 ^ 31) (rest : List Nat) (hs : r.pool.m_stream = encodeInt 4 id ++ rest)
    (hlt : id < (r.pool.m_loadedRaw.length : Int)) :
    idLoad (fuel + 1) S T r =
      some (r.pool.m_loadedRaw.getD id.toNat none,
        { r with pool := { r.pool with m_stream := rest } }) := by
  have hread := readInt_encodeInt 4 id (inRange_id h0 h1) r.pool rest hs
  rw [idLoad_unfold, hread]
  simp only []
  rw [if_neg (by omega), if_pos hlt]

theorem drop_addrs_trans {w wm w1 : PersistentPool} (e1 : Ext w wm) (e2 : Ext wm w1) :
    wm.storedAddrs.drop w.storedAddrs.length ++ w1.storedAddrs.drop wm.storedAddrs.length =
      w1.storedAddrs.drop w.storedAddrs.length := by
  obtain ⟨t1, h1⟩ := e1.addrs
  obtain ⟨t2, h2⟩ := e2.addrs
  rw [← h2, ← h1]
  simp

/-- The list of bodies written by a run of member stores is the list of the
addresses the run records. -/
theorem storeFieldsLog_eq (heap : Heap) (fuel : Nat)
    (IH : ∀ w log p, IdentityInv w → storeSharedObjectLog fuel heap (w, log) p =
      (storeSharedObject fuel heap w p).map
        (fun w1 => (w1, log ++ w1.storedAddrs.drop w.storedAddrs.length))) :
    ∀ (fs : List Field) (w : PersistentPool) (log : List Addr), IdentityInv w →
      fs.foldlM (storeFieldLog (storeSharedObjectLog fuel heap)) (w, log) =
        (fs.foldlM (storeField (storeSharedObject fuel heap)) w).map
          (fun w1 => (w1, log ++ w1.storedAddrs.drop w.storedAddrs.length)) := by
  intro fs
  induction fs with
  | nil => intro w log _; simp
  | cons f fs ih =>
    intro w log inv
    cases f with
    | int v =>
      have invm : IdentityInv (writeInt 4 v w) := ⟨inv.nonneg, inv.nodup, inv.ids⟩
      simp only [List.foldlM_cons, storeFieldLog, storeField, HelperIntegral.store,
        Option.bind_eq_bind, Option.some_bind]
      rw [ih (writeInt 4 v w) log invm]
      rfl
    | handle k p =>
      simp only [List.foldlM_cons, storeFieldLog, storeField, Option.bind_eq_bind]
      rw [IH w log p inv]
      cases hm : storeSharedObject fuel heap w p with
      | none => rfl
      | some wm =>
        obtain ⟨e1, invm, -, -⟩ := storeSharedObject_spec fuel heap w p wm hm inv
        simp only [Option.map_some', Option.some_bind]
        rw [ih wm _ invm]
        cases h1 : fs.foldlM (storeField (storeSharedObject fuel heap)) wm with
        | none => rfl
        | some w1 =>
          obtain ⟨e2, -, -, -⟩ := storeFields_spec heap _ (storeSharedObject_spec fuel heap)
            fs wm w1 h1 invm
          simp only [Option.map_some', List.append_assoc, drop_addrs_trans e1 e2]

/-- The list of bodies written by `storeSharedObject` is the list of the
addresses the call records. -/
theorem storeSharedObjectLog_eq (heap : Heap) : ∀ (fuel : Nat) (w : PersistentPool)
    (log : List Addr) (p : Option Addr), IdentityInv w →
    storeSharedObjectLog fuel heap (w, log) p =
      (storeSharedObject fuel heap w p).map
        (fun w1 => (w1, log ++ w1.storedAddrs.drop w.storedAddrs.length)) := by
  intro fuel
  induction fuel with
  | zero => intro w log p _; rfl
  | succ fuel ih =>
    intro w log p inv
    cases p with
    | none => simp [storeSharedObjectLog, storeSharedObject, writeInt, PersistentPool.storedAddrs]
    | some a =>
      by_cases hid : QHash.value w.m_storageIndices a (-1) < 0
      · have ha : a ∉ w.storedAddrs := (inv.value_neg_iff a).1 hid
        rw [storeSharedObject_new _ _ _ _ hid]
        simp only [storeSharedObjectLog, if_pos hid]
        cases ho : heap[a]? with
        | none => rfl
        | some o =>
          simp only []
          have := storeFieldsLog_eq heap fuel ih o.fields (registered w a) (log ++ [a])
            (registered_inv inv ha)
          simp only [registered] at this
          rw [this]
          cases h1 : o.fields.foldlM (storeField (storeSharedObject fuel heap))
              (registered w a) with
          | none => simp only [registered] at h1; rw [h1]; rfl
          | some w1 =>
            obtain ⟨e2, -, -, -⟩ := storeFields_spec heap _ (storeSharedObject_spec fuel heap)
              o.fields _ w1 h1 (registered_inv inv ha)
            have h1' := h1
            simp only [registered] at h1'
            rw [h1']
            simp only [Option.map_some', Option.some.injEq, Prod.mk.injEq, true_and,
              List.append_assoc, List.append_cancel_left_eq]
            have e1 := registered_ext (w := w) ha
            rw [← drop_addrs_trans e1 e2]
            congr 1
            simp [PersistentPool.storedAddrs, registered_idx ha]
      · rw [storeSharedObject_old _ _ _ _ hid]
        simp [storeSharedObjectLog, if_neg hid, writeInt, PersistentPool.storedAddrs]

theorem WriteSessionLog.session {w : PersistentPool} {log : List Addr}
    (h : WriteSessionLog w log) : WriteSession w ∧ log = w.storedAddrs := by
  induction h with
  | start pool => exact ⟨WriteSession.start pool, rfl⟩
  | handle fuel heap pool log p pool1 log1 _ hst ih =>
    obtain ⟨hs, hlog⟩ := ih
    rw [storeSharedObjectLog_eq heap fuel pool log p hs.inv] at hst
    cases hm : storeSharedObject fuel heap pool p with
    | none => simp [hm] at hst
    | some wm =>
      simp only [hm, Option.map_some', Option.some.injEq, Prod.mk.injEq] at hst
      obtain ⟨h1, h2⟩ := hst
      subst h1
      obtain ⟨e, -, -, -⟩ := storeSharedObject_spec fuel heap pool p wm hm hs.inv
      refine ⟨WriteSession.step _ _ hs (WriteStep.handle fuel heap pool p wm hm), ?_⟩
      rw [← h2, hlog]
      obtain ⟨t, ht⟩ := e.addrs
      rw [← ht]
      simp
  | integral n value pool log _ ih =>
    exact ⟨WriteSession.step _ _ ih.1 (WriteStep.integral n value pool), ih.2⟩
  | other pool pool1 log _ h1 h2 ih =>
    refine ⟨WriteSession.step _ _ ih.1 (WriteStep.other pool pool1 h1 h2), ?_⟩
    rw [ih.2]
    simp only [PersistentPool.storedAddrs, h1]

theorem prefix_ne_nil {α : Type} {l l1 : List α} (h : l <+: l1) (hl : l ≠ []) : l1 ≠ [] := by
  obtain ⟨t, rfl⟩ := h
  simp [hl]

theorem loadDepth_mono {r r1 : ReadSide} (e : LoadExt r r1) : loadDepth r1 ≤ loadDepth r := by
  unfold loadDepth
  have h1 : r1.pool.m_stream.length ≤ r.pool.m_stream.length := e.stream.length_le
  have h2 : (if r1.pool.m_loadedRaw = [] then 1 else 0) ≤
      (if r.pool.m_loadedRaw = [] then 1 else 0) := by
    by_cases hr : r.pool.m_loadedRaw = []
    · rw [if_pos hr]; split <;> omega
    · rw [if_neg hr, if_neg (prefix_ne_nil e.raw hr)]
  have h3 : (if r1.pool.m_loaded = [] then 1 else 0) ≤
      (if r.pool.m_loaded = [] then 1 else 0) := by
    by_cases hr : r.pool.m_loaded = []
    · rw [if_pos hr]; split <;> omega
    · rw [if_neg hr, if_neg (prefix_ne_nil e.shared hr)]
  have h4 : r1.pool.m_stream.length / 4 ≤ r.pool.m_stream.length / 4 :=
    Nat.div_le_div_right h1
  omega

theorem readInt_cases (pool : PersistentPool) :
    (4 ≤ pool.m_stream.length ∧ (readInt 4 pool).2 = { pool with m_stream := pool.m_stream.drop 4 }) ∨
    (pool.m_stream.length < 4 ∧
      readInt 4 pool = (0, { pool with m_stream := [], m_status := Status.ReadPastEnd })) := by
  by_cases h : 4 ≤ pool.m_stream.length
  · left
    refine ⟨h, ?_⟩
    simp [readInt, readUInt, h]
  · right
    exact ⟨by omega, readInt_short 4 pool (by omega)⟩

theorem set_ne_nil {α : Type} (l : List α) (i : Nat) (x : α) (h : i < l.length) :
    l.set i x ≠ [] := by
  intro hc
  have := congrArg List.length hc
  rw [List.length_set, List.length_nil] at this
  omega

theorem loadDepth_allocatedRaw (S : Schema) (T : Cls) (r : ReadSide)
    (h1 : ¬ (readInt 4 r.pool).1 < ((readInt 4 r.pool).2.m_loadedRaw.length : Int)) :
    loadDepth (allocatedRaw S T r (readInt 4 r.pool).1) + 1 ≤ loadDepth r := by
  have hne : (allocatedRaw S T r (readInt 4 r.pool).1).pool.m_loadedRaw ≠ [] := by
    apply set_ne_nil
    simp [resize]
    omega
  rcases readInt_cases r.pool with ⟨hl, hr⟩ | ⟨hl, hr⟩
  · have hs : (allocatedRaw S T r (readInt 4 r.pool).1).pool.m_stream = r.pool.m_stream.drop 4 := by
      simp only [allocatedRaw, hr]
    have hsh : (allocatedRaw S T r (readInt 4 r.pool).1).pool.m_loaded = r.pool.m_loaded := by
      simp only [allocatedRaw, hr]
    unfold loadDepth
    rw [hs, hsh, if_neg hne, List.length_drop]
    have : (r.pool.m_stream.length - 4) / 4 + 1 = r.pool.m_stream.length / 4 := by omega
    split <;> omega
  · rw [hr] at h1 hne ⊢
    have hemp : r.pool.m_loadedRaw = [] := by
      simp only [] at h1
      cases hc : r.pool.m_loadedRaw with
      | nil => rfl
      | cons x t =>
        rw [hc] at h1
        simp at h1
    have hs : (allocatedRaw S T r 0).pool.m_stream = [] := by
      simp only [allocatedRaw, hr]
    have hsh : (allocatedRaw S T r 0).pool.m_loaded = r.pool.m_loaded := by
      simp only [allocatedRaw, hr]
    unfold loadDepth
    rw [hs, hsh, if_neg hne, if_pos hemp]
    split <;> simp

theorem loadDepth_allocatedShared (S : Schema) (T : Cls) (r : ReadSide)
    (h1 : ¬ (readInt 4 r.pool).1 < ((readInt 4 r.pool).2.m_loaded.length : Int)) :
    loadDepth (allocatedShared S T r (readInt 4 r.pool).1) + 1 ≤ loadDepth r := by
  have hne : (allocatedShared S T r (readInt 4 r.pool).1).pool.m_loaded ≠ [] := by
    apply set_ne_nil
    simp [resize]
    omega
  rcases readInt_cases r.pool with ⟨hl, hr⟩ | ⟨hl, hr⟩
  · have hs : (allocatedShared S T r (readInt 4 r.pool).1).pool.m_stream =
        r.pool.m_stream.drop 4 := by
      simp only [allocatedShared, hr]
    have hsh : (allocatedShared S T r (readInt 4 r.pool).1).pool.m_loadedRaw =
        r.pool.m_loadedRaw := by
      simp only [allocatedShared, hr]
    unfold loadDepth
    rw [hs, hsh, if_neg hne, List.length_drop]
    have : (r.pool.m_stream.length - 4) / 4 + 1 = r.pool.m_stream.length / 4 := by omega
    split <;> omega
  · rw [hr] at h1 hne ⊢
    have hemp : r.pool.m_loaded = [] := by
      simp only [] at h1
      cases hc : r.pool.m_loaded with
      | nil => rfl
      | cons x t =>
        rw [hc] at h1
        simp at h1
    have hs : (allocatedShared S T r 0).pool.m_stream = [] := by
      simp only [allocatedShared, hr]
    have hsh : (allocatedShared S T r 0).pool.m_loadedRaw = r.pool.m_loadedRaw := by
      simp only [allocatedShared, hr]
    unfold loadDepth
    rw [hs, hsh, if_neg hne, if_pos hemp]
    split <;> simp

/-- Loading a list of members returns when the decoders of the pointers do. -/
theorem loadFields_total {fuel : Nat} {S : Schema}
    (hR : ∀ T r, loadDepth r < fuel → ∃ p r1, idLoad fuel S T r = some (p, r1))
    (hS : ∀ T r, loadDepth r < fuel → ∃ p r1, idLoadS fuel S T r = some (p, r1)) :
    ∀ (tys : List FieldTy) (r : ReadSide), loadDepth r < fuel →
      ∃ fs r1, loadFields (loadField (idLoad fuel S) (idLoadS fuel S)) tys r = some (fs, r1) := by
  have hext := idLoad_idLoadS_ext fuel S
  intro tys
  induction tys with
  | nil => intro r _; exact ⟨[], r, rfl⟩
  | cons ty tys ih =>
    intro r hd
    have hfield : ∃ f rm, loadField (idLoad fuel S) (idLoadS fuel S) r ty = some (f, rm) := by
      cases ty with
      | int => exact ⟨_, _, rfl⟩
      | handle k c =>
        cases k with
        | shared =>
          obtain ⟨p, r1, h⟩ := hS c r hd
          exact ⟨.handle .shared p, r1, by simp only [loadField, h]⟩
        | unique =>
          obtain ⟨p, r1, h⟩ := hR c r hd
          exact ⟨.handle .unique p, r1, by simp only [loadField, h]⟩
        | raw =>
          obtain ⟨p, r1, h⟩ := hR c r hd
          exact ⟨.handle .raw p, r1, by simp only [loadField, h]⟩
    obtain ⟨f, rm, hf⟩ := hfield
    have em := loadField_ext hext.1 hext.2 r ty f rm hf
    obtain ⟨fs, r1, h1⟩ := ih rm (lt_of_le_of_lt (loadDepth_mono em) hd)
    exact ⟨f :: fs, r1, by simp only [loadFields, hf, h1]⟩

/-- Termination of the decoders: on every state and every stream, `idLoad`
and `idLoadS` return once the nesting bound exceeds `loadDepth`. -/
theorem idLoad_idLoadS_total (S : Schema) : ∀ (fuel : Nat),
    (∀ T r, loadDepth r < fuel → ∃ p r1, idLoad fuel S T r = some (p, r1)) ∧
    (∀ T r, loadDepth r < fuel → ∃ p r1, idLoadS fuel S T r = some (p, r1)) := by
  intro fuel
  induction fuel with
  | zero => constructor <;> intro T r h <;> omega
  | succ fuel ih =>
    constructor
    · intro T r hd
      rw [idLoad_unfold]
      split
      · exact ⟨_, _, rfl⟩
      · split
        · exact ⟨_, _, rfl⟩
        · rename_i h0 h1
          have hlt := loadDepth_allocatedRaw S T r h1
          obtain ⟨fs, r1, hf⟩ := loadFields_total ih.1 ih.2 (S T)
            (allocatedRaw S T r (readInt 4 r.pool).1) (by omega)
          simp only [loadObject, hf]
          exact ⟨_, _, rfl⟩
    · intro T r hd
      rw [idLoadS_unfold]
      split
      · exact ⟨_, _, rfl⟩
      · split
        · exact ⟨_, _, rfl⟩
        · rename_i h0 h1
          have hlt := loadDepth_allocatedShared S T r h1
          obtain ⟨fs, r1, hf⟩ := loadFields_total ih.1 ih.2 (S T)
            (allocatedShared S T r (readInt 4 r.pool).1) (by omega)
          simp only [loadObject, hf]
          exact ⟨_, _, rfl⟩


theorem lookup_none_of_not_mem {κ ν : Type} [DecidableEq κ] {h : List (κ × ν)} {k : κ}
    (hk : k ∉ h.map Prod.fst) : h.lookup k = none := by
  rw [List.lookup_eq_none_iff]
  intro p hp
  have : k ≠ p.1 := fun e => hk (List.mem_map.2 ⟨p, hp, e.symm⟩)
  simpa using this

theorem lookup_map_replace_ne {κ ν : Type} [DecidableEq κ] (h : List (κ × ν)) (key k : κ) (v : ν)
    (hne : k ≠ key) :
    (h.map (fun e => if e.1 = key then (key, v) else e)).lookup k = h.lookup k := by
  induction h with
  | nil => rfl
  | cons e t ih =>
    obtain ⟨a, b⟩ := e
    rw [List.map_cons]
    by_cases ha : a = key
    · have hka : (k == key) = false := by simpa using hne
      have hka2 : (k == a) = false := by rw [ha]; exact hka
      have he : (if (a, b).1 = key then (key, v) else (a, b)) = (key, v) := if_pos ha
      rw [he, List.lookup_cons, List.lookup_cons, hka, hka2]
      exact ih
    · have he : (if (a, b).1 = key then (key, v) else (a, b)) = (a, b) := if_neg ha
      rw [he, List.lookup_cons, List.lookup_cons, ih]

theorem lookup_map_replace_eq {κ ν : Type} [DecidableEq κ] (h : List (κ × ν)) (key : κ) (v : ν)
    (hmem : key ∈ h.map Prod.fst) :
    (h.map (fun e => if e.1 = key then (key, v) else e)).lookup key = some v := by
  induction h with
  | nil => simp at hmem
  | cons e t ih =>
    obtain ⟨a, b⟩ := e
    rw [List.map_cons]
    by_cases ha : a = key
    · have he : (if (a, b).1 = key then (key, v) else (a, b)) = (key, v) := if_pos ha
      rw [he, List.lookup_cons]
      simp
    · have hka : (key == a) = false := by
        have : key ≠ a := fun e => ha e.symm
        simpa using this
      have hmem2 : key ∈ t.map Prod.fst := by
        simp only [List.map_cons, List.mem_cons] at hmem
        rcases hmem with h1 | h1
        · exact absurd h1.symm ha
        · exact h1
      have he : (if (a, b).1 = key then (key, v) else (a, b)) = (a, b) := if_neg ha
      rw [he, List.lookup_cons, hka]
      exact ih hmem2

/-- After `QHash::insert(key, v)` the key has the value `v`, every other key
what it had. -/
theorem QHash.lookup_insert {κ ν : Type} [DecidableEq κ] (h : List (κ × ν)) (key k : κ) (v : ν) :
    (QHash.insert h key v).lookup k = if k = key then some v else h.lookup k := by
  unfold QHash.insert
  by_cases hmem : key ∈ h.map Prod.fst
  · rw [if_pos hmem]
    by_cases hk : k = key
    · subst hk
      rw [if_pos rfl]
      exact lookup_map_replace_eq h k v hmem
    · rw [if_neg hk]
      exact lookup_map_replace_ne h key k v hk
  · rw [if_neg hmem, List.lookup_append]
    by_cases hk : k = key
    · subst hk
      rw [if_pos rfl, lookup_none_of_not_mem hmem]
      simp
    · rw [if_neg hk]
      have hka : (k == key) = false := by simpa using hk
      simp [List.lookup, hka, Option.or_none]

/-- After `std::unordered_map::insert(e)` a key that had a value keeps it. -/
theorem UnorderedMap.lookup_insert_pair {κ ν : Type} [DecidableEq κ] (h : List (κ × ν)) (e : κ × ν)
    (k : κ) :
    (UnorderedMap.insert h e).lookup k =
      (h.lookup k).or (if k = e.1 then some e.2 else none) := by
  unfold UnorderedMap.insert
  by_cases hmem : e.1 ∈ h.map Prod.fst
  · rw [if_pos hmem]
    by_cases hk : k = e.1
    · rw [hk]
      cases hl : h.lookup e.1 with
      | some v => rfl
      | none =>
        rw [List.lookup_eq_none_iff] at hl
        obtain ⟨p, hp, hpe⟩ := List.mem_map.1 hmem
        have := hl p hp
        simp [hpe] at this
    · rw [if_neg hk, Option.or_none]
  · rw [if_neg hmem, List.lookup_append]
    obtain ⟨a, b⟩ := e
    by_cases hk : k = a
    · subst hk
      simp [List.lookup]
    · have hka : (k == a) = false := by simpa using hk
      simp [List.lookup, hka, hk]

/-- Inserting pairs one after the other with `QHash::insert`: a key ends with
the value of its last pair. -/
theorem lookup_foldl_insert {κ ν : Type} [DecidableEq κ] :
    ∀ (its acc : List (κ × ν)) (k : κ),
      (its.foldl (fun c e => QHash.insert c e.1 e.2) acc).lookup k =
        (its.reverse.lookup k).or (acc.lookup k) := by
  intro its
  induction its with
  | nil => intro acc k; simp
  | cons e t ih =>
    intro acc k
    rw [List.foldl_cons, ih, QHash.lookup_insert, List.reverse_cons, List.lookup_append]
    cases t.reverse.lookup k with
    | some v => simp
    | none =>
      obtain ⟨a, b⟩ := e
      by_cases hk : k = a
      · subst hk
        simp [List.lookup]
      · have hka : (k == a) = false := by simpa using hk
        simp [List.lookup, hka, hk]

/-- Inserting pairs one after the other with `std::unordered_map::insert`: a
key ends with the value of its first pair. -/
theorem lookup_foldl_uinsert {κ ν : Type} [DecidableEq κ] :
    ∀ (its acc : List (κ × ν)) (k : κ),
      (its.foldl UnorderedMap.insert acc).lookup k = (acc.lookup k).or (its.lookup k) := by
  intro its
  induction its with
  | nil => intro acc k; simp [Option.or_none]
  | cons e t ih =>
    intro acc k
    rw [List.foldl_cons, ih, UnorderedMap.lookup_insert_pair]
    obtain ⟨a, b⟩ := e
    cases acc.lookup k with
    | some v => simp
    | none =>
      by_cases hk : k = a
      · subst hk
        simp [List.lookup]
      · have hka : (k == a) = false := by simpa using hk
        simp [List.lookup, hka, hk]

theorem lookup_reverse_split {κ ν : Type} [DecidableEq κ] (pre post : List (κ × ν)) (k : κ) (v : ν)
    (hk : k ∉ post.map Prod.fst) : (pre ++ (k, v) :: post).reverse.lookup k = some v := by
  rw [List.reverse_append, List.reverse_cons, List.append_assoc, List.lookup_append]
  have : post.reverse.lookup k = none := by
    apply lookup_none_of_not_mem
    simpa using hk
  rw [this]
  simp [List.lookup]

theorem lookup_split {κ ν : Type} [DecidableEq κ] (pre post : List (κ × ν)) (k : κ) (v : ν)
    (hk : k ∉ pre.map Prod.fst) : (pre ++ (k, v) :: post).lookup k = some v := by
  rw [List.lookup_append, lookup_none_of_not_mem hk]
  simp [List.lookup]

theorem loadInt32_encodeInt (v : Int) (h : InRange 4 v) (r : ReadSide) (rest : List Nat)
    (hs : r.pool.m_stream = encodeInt 4 v ++ rest) :
    loadInt32 r = some (v, { r with pool := { r.pool with m_stream := rest } }) := by
  simp only [loadInt32, HelperIntegral.load, readInt_encodeInt 4 v h r.pool rest hs]

/-- The insert loop of the `QMap`/`QHash` helper on the bytes of a pair list. -/
theorem insertLoop_pairs : ∀ (its acc : List (Int × Int)) (r : ReadSide) (rest : List Nat),
    (∀ e ∈ its, InRange 4 e.1 ∧ InRange 4 e.2) →
    r.pool.m_stream = encodePairs its ++ rest →
    insertLoop loadInt32 loadInt32 its.length acc r =
      some (its.foldl (fun c e => QHash.insert c e.1 e.2) acc,
        { r with pool := { r.pool with m_stream := rest } }) := by
  intro its
  induction its with
  | nil =>
    intro acc r rest _ hs
    simp only [encodePairs, List.nil_append] at hs
    simp only [List.length_nil, insertLoop, List.foldl_nil, ← hs]
  | cons e its ih =>
    intro acc r rest hv hs
    have hve := hv e (List.mem_cons_self _ _)
    simp only [encodePairs, List.append_assoc] at hs
    have h1 := loadInt32_encodeInt e.1 hve.1 r _ hs
    have h2 := loadInt32_encodeInt e.2 hve.2
      { r with pool := { r.pool with m_stream := encodeInt 4 e.2 ++ (encodePairs its ++ rest) } }
      (encodePairs its ++ rest) rfl
    have h3 := ih (QHash.insert acc e.1 e.2)
      { r with pool := { r.pool with m_stream := encodePairs its ++ rest } } rest
      (fun y hy => hv y (List.mem_cons_of_mem _ hy)) rfl
    simp only [List.length_cons, insertLoop, h1, h2, List.foldl_cons]
    exact h3

/-- The insert loop of the `std::unordered_map` helper on the bytes of a pair
list. -/
theorem insertPairLoop_pairs (tmp : Int × Int) :
    ∀ (its acc : List (Int × Int)) (r : ReadSide) (rest : List Nat),
    (∀ e ∈ its, InRange 4 e.1 ∧ InRange 4 e.2) →
    r.pool.m_stream = encodePairs its ++ rest →
    insertPairLoop (HelperPair.load (fun _ => loadInt32) (fun _ => loadInt32) tmp) its.length acc r =
      some (its.foldl UnorderedMap.insert acc,
        { r with pool := { r.pool with m_stream := rest } }) := by
  intro its
  induction its with
  | nil =>
    intro acc r rest _ hs
    simp only [encodePairs, List.nil_append] at hs
    simp only [List.length_nil, insertPairLoop, List.foldl_nil, ← hs]
  | cons e its ih =>
    intro acc r rest hv hs
    have hve := hv e (List.mem_cons_self _ _)
    simp only [encodePairs, List.append_assoc] at hs
    have h1 := loadInt32_encodeInt e.1 hve.1 r _ hs
    have h2 := loadInt32_encodeInt e.2 hve.2
      { r with pool := { r.pool with m_stream := encodeInt 4 e.2 ++ (encodePairs its ++ rest) } }
      (encodePairs its ++ rest) rfl
    have h3 := ih (UnorderedMap.insert acc e)
      { r with pool := { r.pool with m_stream := encodePairs its ++ rest } } rest
      (fun y hy => hv y (List.mem_cons_of_mem _ hy)) rfl
    simp only [List.length_cons, insertPairLoop, HelperPair.load, h1, h2, List.foldl_cons]
    exact h3

theorem PersistentPool.store_single (a : StoreArg) (pool : PersistentPool) :
    PersistentPool.store [a] pool = a.helper a.value pool := by
  simp only [PersistentPool.store]
  cases a.helper a.value pool <;> rfl

theorem PersistentPool.store_cons (a : StoreArg) (args : List StoreArg) (pool : PersistentPool) :
    PersistentPool.store (a :: args) pool =
      (PersistentPool.store [a] pool).bind (PersistentPool.store args) := by
  rw [PersistentPool.store_single]
  simp only [PersistentPool.store]
  cases a.helper a.value pool <;> rfl

theorem PersistentPool.store_seq : ∀ (args : List StoreArg) (pool : PersistentPool),
    PersistentPool.store args pool =
      args.foldlM (fun p a => PersistentPool.store [a] p) pool := by
  intro args
  induction args with
  | nil => intro pool; rfl
  | cons a args ih =>
    intro pool
    rw [PersistentPool.store_cons, List.foldlM_cons]
    cases h : PersistentPool.store [a] pool with
    | none => rfl
    | some p => exact ih p

theorem PersistentPool.store_append : ∀ (xs ys : List StoreArg) (pool : PersistentPool),
    PersistentPool.store (xs ++ ys) pool =
      (PersistentPool.store xs pool).bind (PersistentPool.store ys) := by
  intro xs
  induction xs with
  | nil => intro ys pool; rfl
  | cons a xs ih =>
    intro ys pool
    rw [List.cons_append, PersistentPool.store_cons, PersistentPool.store_cons a xs]
    cases h : PersistentPool.store [a] pool with
    | none => rfl
    | some p => exact ih ys p

theorem PersistentPool.load_single (a : LoadArg) (r : ReadSide) :
    PersistentPool.load [a] r =
      (a.helper a.value r).map (fun x => ([{ a with value := x.1 }], x.2)) := by
  simp only [PersistentPool.load]
  cases a.helper a.value r <;> rfl

theorem PersistentPool.load_cons (a : LoadArg) (args : List LoadArg) (r : ReadSide) :
    PersistentPool.load (a :: args) r =
      (PersistentPool.load [a] r).bind (fun x =>
        (PersistentPool.load args x.2).map (fun y => (x.1 ++ y.1, y.2))) := by
  rw [PersistentPool.load_single]
  simp only [PersistentPool.load]
  cases a.helper a.value r with
  | none => rfl
  | some x =>
    obtain ⟨v, r1⟩ := x
    simp only [Option.map_some', Option.some_bind]
    cases PersistentPool.load args r1 with
    | none => rfl
    | some y => rfl

theorem PersistentPool.load_seq_from : ∀ (args acc : List LoadArg) (r : ReadSide),
    args.foldlM loadNext (acc, r) =
      (PersistentPool.load args r).map (fun x => (acc ++ x.1, x.2)) := by
  intro args
  induction args with
  | nil => intro acc r; simp [PersistentPool.load]
  | cons a args ih =>
    intro acc r
    rw [List.foldlM_cons, PersistentPool.load_cons]
    simp only [loadNext]
    cases h : PersistentPool.load [a] r with
    | none => rfl
    | some x =>
      simp only [Option.map_some', Option.bind_eq_bind, Option.some_bind]
      rw [ih]
      cases PersistentPool.load args x.2 with
      | none => rfl
      | some y => simp

theorem inRange_four_iff (v : Int) : InRange 4 v ↔ -2147483648 ≤ v ∧ v < 2147483648 := by
  unfold InRange
  norm_num
  constructor <;> intro h <;> constructor <;> omega

theorem inRange_eight_iff (v : Int) :
    InRange 8 v ↔ -9223372036854775808 ≤ v ∧ v < 9223372036854775808 := by
  unfold InRange
  norm_num
  constructor <;> intro h <;> constructor <;> omega

theorem inRange_four_eight {v : Int} (h : InRange 4 v) : InRange 8 v := by
  rw [inRange_four_iff] at h
  rw [inRange_eight_iff]
  constructor <;> omega

/-- A `long` of 4 bytes written as a `qint64`: four bytes of sign, then the
four bytes of the value. -/
theorem encodeInt_sign_extend (v : Int) (h : InRange 4 v) :
    encodeInt 8 v = List.replicate 4 (if v < 0 then 255 else 0) ++ encodeInt 4 v := by
  rw [inRange_four_iff] at h
  obtain ⟨h1, h2⟩ := h
  have e8 : ((v % ((256 ^ 8 : Nat) : Int)).toNat : Int) = v % 18446744073709551616 := by
    rw [Int.toNat_of_nonneg (Int.emod_nonneg _ (by norm_num))]
    norm_num
  have e4 : ((v % ((256 ^ 4 : Nat) : Int)).toNat : Int) = v % 4294967296 := by
    rw [Int.toNat_of_nonneg (Int.emod_nonneg _ (by norm_num))]
    norm_num
  unfold encodeInt
  generalize (v % ((256 ^ 8 : Nat) : Int)).toNat = a at e8
  generalize (v % ((256 ^ 4 : Nat) : Int)).toNat = b at e4
  simp only [encodeBE, List.replicate, List.cons_append, List.nil_append, List.cons.injEq,
    and_true]
  norm_num
  by_cases hv : v < 0
  · simp only [hv, if_true]
    refine ⟨?_, ?_, ?_, ?_, ?_, ?_, ?_, ?_⟩ <;> omega
  · simp only [hv, if_false]
    refine ⟨?_, ?_, ?_, ?_, ?_, ?_, ?_, ?_⟩ <;> omega

theorem longCast_inRange (w : Nat) (v : Int) (h : InRange w v) : longCast w v = v := by
  have hpos : (0 : Int) < ((256 ^ w : Nat) : Int) := by positivity
  have hlt := Int.emod_lt_of_pos v hpos
  have hnn := Int.emod_nonneg v (ne_of_gt hpos)
  have hmod : (v % ((256 ^ w : Nat) : Int)).toNat % 256 ^ w =
      (v % ((256 ^ w : Nat) : Int)).toNat := by
    apply Nat.mod_eq_of_lt
    have : ((v % ((256 ^ w : Nat) : Int)).toNat : Int) < ((256 ^ w : Nat) : Int) := by
      rw [Int.toNat_of_nonneg hnn]; exact hlt
    exact_mod_cast this
  have := toSigned_emod w v h
  rw [hmod] at this
  exact this

/-- The conversion to a `long` of 4 bytes reduces modulo `2^32`: the result is
in the range of 32 bits and differs from `v` by a multiple of `2^32`. -/
theorem longCast_four (v : Int) :
    InRange 4 (longCast 4 v) ∧ (longCast 4 v - v) % 4294967296 = 0 := by
  have e4 : ((v % ((256 ^ 4 : Nat) : Int)).toNat : Int) = v % 4294967296 := by
    rw [Int.toNat_of_nonneg (Int.emod_nonneg _ (by norm_num))]
    norm_num
  rw [inRange_four_iff]
  unfold longCast toSigned
  generalize (v % ((256 ^ 4 : Nat) : Int)).toNat = b at e4
  norm_num
  split_ifs with hb <;> refine ⟨⟨?_, ?_⟩, ?_⟩ <;> omega

theorem HelperLong.load_encodeInt (w : Nat) (v : Int) (h : InRange 8 v) (r : ReadSide)
    (rest : List Nat) (hs : r.pool.m_stream = encodeInt 8 v ++ rest) :
    HelperLong.load w r = (longCast w v, { r with pool := { r.pool with m_stream := rest } }) := by
  simp only [HelperLong.load, readInt_encodeInt 8 v h r.pool rest hs]

theorem encodeChars_length (s : QString) : (encodeChars s).length = 2 * s.length := by
  induction s with
  | nil => rfl
  | cons c cs ih => simp only [encodeChars, List.length_cons, ih]; omega

theorem decodeChars_encodeChars (s : QString) (h : ∀ c ∈ s, c < 65536) :
    decodeChars (encodeChars s) = s := by
  induction s with
  | nil => rfl
  | cons c cs ih =>
    have hc := h c (List.mem_cons_self _ _)
    simp only [encodeChars, decodeChars, ih (fun x hx => h x (List.mem_cons_of_mem _ hx))]
    congr 1
    omega

theorem readUInt_encodeBE (n : Nat) (h : n < 4294967296) (pool : PersistentPool)
    (rest : List Nat) (hs : pool.m_stream = encodeBE 4 n ++ rest) :
    readUInt 4 pool = (n, { pool with m_stream := rest }) := by
  have hl := encodeBE_length 4 n
  simp only [readUInt, hs, List.length_append, hl, Nat.le_add_right, if_true,
    List.take_left' hl, List.drop_left' hl, decodeBE_encodeBE]
  rw [Nat.mod_eq_of_lt (by norm_num; exact h)]

theorem readString_writeString (s : QString) (h : ValidString s) (pool : PersistentPool)
    (rest : List Nat)
    (hs : pool.m_stream = encodeBE 4 (2 * s.length) ++ (encodeChars s ++ rest)) :
    readString pool = (s, { pool with m_stream := rest }) := by
  have hl := encodeChars_length s
  unfold readString
  simp only [readUInt_encodeBE (2 * s.length) (by have := h.2; omega) pool _ hs,
    List.length_append, hl, Nat.le_add_right, if_true, List.take_left' hl, List.drop_left' hl,
    decodeChars_encodeChars s h.1]

theorem QHash.value_insert_self {κ ν : Type} [DecidableEq κ] (h : List (κ × ν)) (key : κ)
    (v d : ν) : QHash.value (QHash.insert h key v) key d = v := by
  unfold QHash.value
  rw [QHash.lookup_insert, if_pos rfl]

/-- First store of a string: the next id, then the characters. -/
theorem storeString_new (s : QString) (w : PersistentPool)
    (hnew : s ∉ w.m_inverseStringStorage.map Prod.fst) :
    storeString s w =
      { w with
        m_stream := w.m_stream ++
          (encodeInt 4 w.m_lastStoredStringId ++ (encodeBE 4 (2 * s.length) ++ encodeChars s))
        m_inverseStringStorage := QHash.insert w.m_inverseStringStorage s w.m_lastStoredStringId
        m_lastStoredStringId := w.m_lastStoredStringId + 1 } := by
  unfold storeString
  simp only [QHash.value_of_not_mem _ _ _ hnew, show ((-1 : Int) < 0) from by decide, if_true,
    writeString, writeInt, List.append_assoc]

/-- Store of a string that has an id: the id alone. -/
theorem storeString_again (s : QString) (w : PersistentPool) (id : Int) (h0 : 0 ≤ id)
    (hid : QHash.value w.m_inverseStringStorage s (-1) = id) :
    storeString s w = { w with m_stream := w.m_stream ++ encodeInt 4 id } := by
  unfold storeString
  simp only [hid, not_lt.2 h0, if_false, writeInt]

/-- First sight of a string id: the characters are read and cached. -/
theorem idLoadString_first (s : QString) (hs : ValidString s) (id : Int) (h0 : 0 ≤ id)
    (h1 : id < 2 ^ 31) (pool : PersistentPool) (rest : List Nat)
    (hsize : (pool.m_stringStorage.length : Int) ≤ id)
    (hstream : pool.m_stream =
      encodeInt 4 id ++ (encodeBE 4 (2 * s.length) ++ (encodeChars s ++ rest))) :
    idLoadString pool =
      (s, { pool with
        m_stream := rest
        m_stringStorage := (resizeStrings pool.m_stringStorage (id.toNat + 1)).set id.toNat s }) := by
  unfold idLoadString loadString
  simp only [readInt_encodeInt 4 id (inRange_id h0 h1) pool _ hstream, not_lt.2 h0, if_false,
    not_lt.2 hsize]
  rw [readString_writeString s hs _ rest rfl]

/-- A later sight of a string id: the cached string, and the table as it was. -/
theorem idLoadString_cached (s : QString) (id : Int) (h0 : 0 ≤ id) (h1 : id < 2 ^ 31)
    (pool : PersistentPool) (rest : List Nat)
    (hc : pool.m_stringStorage[id.toNat]? = some s)
    (hstream : pool.m_stream = encodeInt 4 id ++ rest) :
    idLoadString pool = (s, { pool with m_stream := rest }) := by
  have hlt : id.toNat < pool.m_stringStorage.length := by
    rcases Nat.lt_or_ge id.toNat pool.m_stringStorage.length with h | h
    · exact h
    · rw [List.getElem?_eq_none h] at hc
      cases hc
  have hlt2 : id < (pool.m_stringStorage.length : Int) := by omega
  unfold idLoadString loadString
  simp only [readInt_encodeInt 4 id (inRange_id h0 h1) pool _ hstream, not_lt.2 h0, if_false,
    hlt2, if_true, List.getD_eq_getElem?_getD, hc, Option.getD_some]

theorem resizeStrings_set_get (tbl : List QString) (i : Nat) (x : QString)
    (h : tbl.length ≤ i) : ((resizeStrings tbl (i + 1)).set i x)[i]? = some x := by
  have e : tbl.take (i + 1) = tbl := List.take_of_length_le (by omega)
  have hl : i < (resizeStrings tbl (i + 1)).length := by
    simp [resizeStrings, e]
    omega
  simp [List.getElem?_set, hl]

/-- Further stores of a string that has an id write the id each time and
leave the tables alone. -/
theorem storeString_repeat (s : QString) (id : Int) (h0 : 0 ≤ id) :
    ∀ (n : Nat) (w : PersistentPool), QHash.value w.m_inverseStringStorage s (-1) = id →
      (List.replicate n s).foldlM (fun p x => HelperQString.store x p) w =
        some { w with m_stream := w.m_stream ++ repeatBytes n (encodeInt 4 id) } := by
  intro n
  induction n with
  | zero => intro w _; simp [repeatBytes]
  | succ n ih =>
    intro w hid
    have hstep : HelperQString.store s w =
        some { w with m_stream := w.m_stream ++ encodeInt 4 id } := by
      simp only [HelperQString.store, storeString_again s w id h0 hid]
    rw [List.replicate_succ, List.foldlM_cons, hstep]
    simp only [Option.bind_eq_bind, Option.some_bind]
    rw [ih { w with m_stream := w.m_stream ++ encodeInt 4 id } hid]
    simp [repeatBytes]

/-- Further loads of a string id that is cached return the string each time. -/
theorem idLoadString_repeat (s : QString) (id : Int) (h0 : 0 ≤ id) (h1 : id < 2 ^ 31) :
    ∀ (n : Nat) (acc : List QString) (r : ReadSide) (rest : List Nat),
      r.pool.m_stringStorage[id.toNat]? = some s →
      r.pool.m_stream = repeatBytes n (encodeInt 4 id) ++ rest →
      pushBackLoop HelperQString.load n acc r =
        some (acc ++ List.replicate n s, { r with pool := { r.pool with m_stream := rest } }) := by
  intro n
  induction n with
  | zero =>
    intro acc r rest _ hs
    simp only [repeatBytes, List.nil_append] at hs
    simp [pushBackLoop, ← hs]
  | succ n ih =>
    intro acc r rest hc hs
    simp only [repeatBytes, List.append_assoc] at hs
    have hl := idLoadString_cached s id h0 h1 r.pool _ hc hs
    have := ih (acc ++ [s])
      { r with pool := { r.pool with m_stream := repeatBytes n (encodeInt 4 id) ++ rest } } rest
      hc rfl
    simp only [pushBackLoop, HelperQString.load, hl]
    rw [this, List.replicate_succ]
    simp

/-- The id `storeSharedObject` writes for a non-null pointer, and what the
load reads back: the next id for an address not yet recorded, the recorded id
and nothing else for a recorded address. -/
theorem stored_handle_id {heap : Heap} (fuel : Nat) {w w1 : PersistentPool} {a : Addr}
    (h : storeSharedObject fuel heap w (some a) = some w1) (inv : IdentityInv w)
    (hb : w1.m_lastStoredObjectId ≤ 2 ^ 31) {pool : PersistentPool} {out rest : List Nat}
    (hw : w1.m_stream = w.m_stream ++ out) (hr : pool.m_stream = out ++ rest) :
    ∃ id tl, 0 ≤ id ∧ id < 2 ^ 31 ∧ out = encodeInt 4 id ++ tl ∧
      readInt 4 pool = (id, { pool with m_stream := tl ++ rest }) ∧
      (a, id) ∈ w1.m_storageIndices ∧ QHash.value w1.m_storageIndices a (-1) = id ∧
      ((a ∉ w.storedAddrs ∧ id = w.m_lastStoredObjectId) ∨
        ((a, id) ∈ w.m_storageIndices ∧ tl = [])) := by
  have h0 := inv.nonneg
  obtain ⟨e1, inv1, -, -⟩ := storeSharedObject_spec fuel heap w (some a) w1 h inv
  cases fuel with
  | zero => simp [storeSharedObject] at h
  | succ fuel =>
    by_cases hid : QHash.value w.m_storageIndices a (-1) < 0
    · rw [storeSharedObject_new _ _ _ _ hid] at h
      have ha : a ∉ w.storedAddrs := (inv.value_neg_iff a).1 hid
      cases ho : heap[a]? with
      | none => simp [ho] at h
      | some o =>
        simp only [ho] at h
        obtain ⟨e2, -, -, -⟩ :=
          storeFields_spec heap _ (fun w p w1 => storeSharedObject_spec fuel heap w p w1)
            o.fields _ w1 h (registered_inv inv ha)
        obtain ⟨out2, ho2⟩ := e2.stream
        have hn1 := e2.next
        rw [registered_next] at hn1
        have hout : out = encodeInt 4 w.m_lastStoredObjectId ++ out2 := by
          have : w.m_stream ++ out =
              w.m_stream ++ (encodeInt 4 w.m_lastStoredObjectId ++ out2) := by
            rw [← hw, ← ho2, registered_stream, List.append_assoc]
          exact List.append_cancel_left this
        have hlt : w.m_lastStoredObjectId < 2 ^ 31 := by omega
        have hr2 : pool.m_stream = encodeInt 4 w.m_lastStoredObjectId ++ (out2 ++ rest) := by
          rw [hr, hout, List.append_assoc]
        have hmem : (a, w.m_lastStoredObjectId) ∈ w1.m_storageIndices := by
          apply e2.idx.subset
          rw [registered_idx ha]
          simp
        exact ⟨w.m_lastStoredObjectId, out2, h0, hlt, hout,
          readInt_encodeInt 4 _ (inRange_id h0 hlt) pool _ hr2, hmem,
          QHash.value_of_mem _ _ _ _ inv1.nodup hmem, Or.inl ⟨ha, rfl⟩⟩
    · rw [storeSharedObject_old _ _ _ _ hid] at h
      simp only [Option.some.injEq] at h
      subst h
      have ha : a ∈ w.storedAddrs := by
        by_contra hc2
        exact hid ((inv.value_neg_iff a).2 hc2)
      obtain ⟨i, hi⟩ := mem_idx_of_mem_addrs ha
      have hval := QHash.value_of_mem _ _ i (-1) inv.nodup hi
      rw [hval] at hw
      obtain ⟨hi0, hi1⟩ := inv.id_bounds hi
      have hout : out = encodeInt 4 i := by
        have : w.m_stream ++ out = w.m_stream ++ encodeInt 4 i := by
          rw [← hw]
          rfl
        exact List.append_cancel_left this
      have hb2 : w.m_lastStoredObjectId ≤ 2 ^ 31 := hb
      have hlt : i < 2 ^ 31 := by omega
      have hr2 : pool.m_stream = encodeInt 4 i ++ ([] ++ rest) := by
        rw [hr, hout, List.nil_append]
      exact ⟨i, [], hi0, hlt, by rw [hout, List.append_nil],
        readInt_encodeInt 4 _ (inRange_id hi0 hlt) pool _ hr2, hi, hval, Or.inr ⟨hi, rfl⟩⟩

theorem idLoadS_seen (fuel : Nat) (S : Schema) (T : Cls) (r : ReadSide) (id : Int) (h0 : 0 ≤ id)
    (h1 : id < 2 ^ 31) (rest : List Nat) (hs : r.pool.m_stream = encodeInt 4 id ++ rest)
    (hlt : id < (r.pool.m_loaded.length : Int)) :
    idLoadS (fuel + 1) S T r =
      some (r.pool.m_loaded.getD id.toNat none,
        { r with pool := { r.pool with m_stream := rest } }) := by
  have hread := readInt_encodeInt 4 id (inRange_id h0 h1) r.pool rest hs
  rw [idLoadS_unfold, hread]
  simp only []
  rw [if_neg (by omega), if_pos hlt]

theorem findInPath_eq_none_iff (host : Host) (fileName : QString) (path : List QString) :
    findInPath host fileName path = none ↔
      ∀ d ∈ path, host.fileExists (fullPath d fileName) = false := by
  induction path with
  | nil => simp [findInPath]
  | cons d ds ih =>
    simp only [findInPath, List.mem_cons, forall_eq_or_imp]
    cases he : host.fileExists (fullPath d fileName)
    · simpa using ih
    · simp

/-- The inner loop returns the first directory of the list in which the file
exists. -/
theorem findInPath_found (host : Host) (fileName : QString) (front : List QString)
    (dir : QString) (back : List QString)
    (hfront : ∀ d ∈ front, host.fileExists (fullPath d fileName) = false)
    (hdir : host.fileExists (fullPath dir fileName) = true) :
    findInPath host fileName (front ++ dir :: back) =
      some (host.cleanPath (fullPath dir fileName)) := by
  induction front with
  | nil => simp only [List.nil_append, findInPath, hdir, if_true]
  | cons d ds ih =>
    have hd := hfront d (List.mem_cons_self _ _)
    simp only [List.cons_append, findInPath, hd]
    exact ih (fun x hx => hfront x (List.mem_cons_of_mem _ hx))

/-- A file that exists in some directory of the list exists in a first one. -/
theorem exists_first_dir (host : Host) (fileName : QString) (path : List QString)
    (h : ∃ d ∈ path, host.fileExists (fullPath d fileName) = true) :
    ∃ front dir back, path = front ++ dir :: back ∧
      (∀ d ∈ front, host.fileExists (fullPath d fileName) = false) ∧
      host.fileExists (fullPath dir fileName) = true := by
  induction path with
  | nil =>
    obtain ⟨d, hd, -⟩ := h
    cases hd
  | cons d ds ih =>
    cases he : host.fileExists (fullPath d fileName)
    · obtain ⟨x, hx, hex⟩ := h
      rcases List.mem_cons.1 hx with rfl | hx
      · rw [he] at hex
        cases hex
      · obtain ⟨front, dir, back, hp, hf, hd⟩ := ih ⟨x, hx, hex⟩
        refine ⟨d :: front, dir, back, by rw [hp]; rfl, ?_, hd⟩
        intro y hy
        rcases List.mem_cons.1 hy with rfl | hy
        · exact he
        · exact hf y hy
    · exact ⟨[], d, ds, rfl, fun _ h => (by cases h), he⟩

/-- The outer loop skips the names that exist in no directory. -/
theorem findInNames_skip (host : Host) (path : List QString) (front rest : List QString)
    (hfront : ∀ n ∈ front, ∀ d ∈ path,
      host.fileExists (fullPath d n) = false) :
    findInNames host path (front ++ rest) = findInNames host path rest := by
  induction front with
  | nil => rfl
  | cons n ns ih =>
    have hn := (findInPath_eq_none_iff host n path).2 (hfront n (List.mem_cons_self _ _))
    simp only [List.cons_append, findInNames, hn]
    exact ih (fun x hx => hfront x (List.mem_cons_of_mem _ hx))

theorem findInNames_none (host : Host) (path : List QString) (fileNames : List QString)
    (h : ∀ n ∈ fileNames, ∀ d ∈ path,
      host.fileExists (fullPath d n) = false) :
    findInNames host path fileNames = [] := by
  have := findInNames_skip host path fileNames [] h
  rw [List.append_nil] at this
  rw [this]
  rfl

/-- A name that exists in some directory, among names: there is a first such
name. -/
theorem exists_first_name (host : Host) (path : List QString) (fileNames : List QString)
    (h : ∃ n ∈ fileNames, ∃ d ∈ path,
      host.fileExists (fullPath d n) = true) :
    ∃ front name back, fileNames = front ++ name :: back ∧
      (∀ n ∈ front, ∀ d ∈ path, host.fileExists (fullPath d n) = false) ∧
      ∃ d ∈ path, host.fileExists (fullPath d name) = true := by
  induction fileNames with
  | nil =>
    obtain ⟨n, hn, -⟩ := h
    cases hn
  | cons n ns ih =>
    by_cases he : ∃ d ∈ path, host.fileExists (fullPath d n) = true
    · exact ⟨[], n, ns, rfl, fun _ h => (by cases h), he⟩
    · have hnone : ∀ d ∈ path, host.fileExists (fullPath d n) = false := by
        intro d hd
        cases hf : host.fileExists (fullPath d n)
        · rfl
        · exact absurd ⟨d, hd, hf⟩ he
      obtain ⟨x, hx, hex⟩ := h
      rcases List.mem_cons.1 hx with rfl | hx
      · exact absurd hex he
      · obtain ⟨front, name, back, hp, hf, hd⟩ := ih ⟨x, hx, hex⟩
        refine ⟨n :: front, name, back, by rw [hp]; rfl, ?_, hd⟩
        intro y hy
        rcases List.mem_cons.1 hy with rfl | hy
        · exact hnone
        · exact hf y hy

/-- The search order of the two loops, on a list of directories. -/
theorem findInNames_found (host : Host) (fileNames path : List QString)
    (front : List QString) (name : QString) (back : List QString)
    (dfront : List QString) (dir : QString) (dback : List QString)
    (hnames : fileNames = front ++ name :: back) (hpath : path = dfront ++ dir :: dback)
    (hfront : ∀ n ∈ front, ∀ d ∈ path,
      host.fileExists (fullPath d n) = false)
    (hdfront : ∀ d ∈ dfront, host.fileExists (fullPath d name) = false)
    (hdir : host.fileExists (fullPath dir name) = true) :
    findInNames host path fileNames = host.cleanPath (fullPath dir name) := by
  rw [hnames, findInNames_skip host path front _ hfront]
  simp only [findInNames, hpath, findInPath_found host name dfront dir dback hdfront hdir]

theorem msi_ne_js : QLatin1String "msi" ≠ QLatin1String "js" := by decide

/-- The command of a target that is not a `.js` file and not for Windows: the
target itself. -/
theorem targetCommand_plain (host : Host) (targetOS : List QString) (targetBin : QString)
    (arguments : List QString) (hos : targetOS.contains (QLatin1String "windows") = false)
    (hjs : host.completeSuffix targetBin ≠ QLatin1String "js") :
    targetCommand host targetOS targetBin arguments = (targetBin, arguments) := by
  have hmem : QLatin1String "windows" ∉ targetOS := by simpa using hos
  unfold targetCommand
  simp [hmem, hjs]

/-- The command of a Windows target that is not a `.js` file, on a Windows
host: `msiexec /package <target>` for an `.msi` file, the target itself
otherwise. -/
theorem targetCommand_windows (host : Host) (targetOS : List QString) (targetBin : QString)
    (arguments : List QString) (hos : targetOS.contains (QLatin1String "windows") = true)
    (hhost : host.isWindowsHost = true)
    (hjs : host.completeSuffix targetBin ≠ QLatin1String "js") :
    targetCommand host targetOS targetBin arguments =
      if host.completeSuffix targetBin = QLatin1String "msi" then
        (QLatin1String "msiexec",
          QLatin1String "/package" :: host.toNativeSeparators targetBin :: arguments)
      else (targetBin, arguments) := by
  have hmem : QLatin1String "windows" ∈ targetOS := by simpa using hos
  unfold targetCommand
  by_cases hmsi : host.completeSuffix targetBin = QLatin1String "msi"
  · simp [hmem, hhost, hmsi, msi_ne_js]
  · simp [hmem, hhost, hjs, hmsi]

/-- The command of a Windows target that is not a `.js` file, on another host:
`wine`, then the command of a Windows host. -/
theorem targetCommand_wine (host : Host) (targetOS : List QString) (targetBin : QString)
    (arguments : List QString) (hos : targetOS.contains (QLatin1String "windows") = true)
    (hhost : host.isWindowsHost = false)
    (hjs : host.completeSuffix targetBin ≠ QLatin1String "js") :
    targetCommand host targetOS targetBin arguments =
      (QLatin1String "wine",
        if host.completeSuffix targetBin = QLatin1String "msi" then
          QLatin1String "msiexec" :: QLatin1String "/package" ::
            host.toNativeSeparators targetBin :: arguments
        else targetBin :: arguments) := by
  have hmem : QLatin1String "windows" ∈ targetOS := by simpa using hos
  unfold targetCommand
  by_cases hmsi : host.completeSuffix targetBin = QLatin1String "msi"
  · simp [hmem, hhost, hmsi, msi_ne_js]
  · simp [hmem, hhost, hjs, hmsi]

/-- The command of a `.js` target: the Node.js binary found in `PATH`, then
the target, then the arguments as they are at that point. -/
theorem targetCommand_js (host : Host) (targetOS : List QString) (targetBin : QString)
    (arguments : List QString) (hjs : host.completeSuffix targetBin = QLatin1String "js") :
    targetCommand host targetOS targetBin arguments =
      (findExecutable host [QLatin1String "nodejs", QLatin1String "node"],
        targetBin ::
          (if targetOS.contains (QLatin1String "windows") = true ∧ host.isWindowsHost = false
            then targetBin :: arguments else arguments)) := by
  unfold targetCommand
  by_cases hmem : QLatin1String "windows" ∈ targetOS <;>
    cases hhost : host.isWindowsHost <;> simp [hjs, hmem, hhost, msi_ne_js.symm]

theorem runTarget_unfold (host : Host) (targetOS : List QString) (targetBin : QString)
    (arguments : List QString) :
    runTarget host targetOS targetBin arguments =
      if targetBin = (targetCommand host targetOS targetBin arguments).1 ∧
          (!host.isExecutable (targetCommand host targetOS targetBin arguments).1) = true then
        RunResult.exitFailure
      else
        RunResult.started (targetCommand host targetOS targetBin arguments).1
          (targetCommand host targetOS targetBin arguments).2 := rfl

theorem runTarget_exitFailure_iff (host : Host) (targetOS : List QString) (targetBin : QString)
    (arguments : List QString) :
    runTarget host targetOS targetBin arguments = RunResult.exitFailure ↔
      (targetCommand host targetOS targetBin arguments).1 = targetBin ∧
        host.isExecutable targetBin = false := by
  rw [runTarget_unfold]
  constructor
  · intro h
    by_cases hc : targetBin = (targetCommand host targetOS targetBin arguments).1 ∧
        (!host.isExecutable (targetCommand host targetOS targetBin arguments).1) = true
    · obtain ⟨h1, h2⟩ := hc
      refine ⟨h1.symm, ?_⟩
      rw [← h1] at h2
      simpa using h2
    · rw [if_neg hc] at h
      cases h
  · intro ⟨h1, h2⟩
    rw [if_pos]
    rw [h1]
    exact ⟨rfl, by simp [h2]⟩

theorem runTarget_started (host : Host) (targetOS : List QString) (targetBin : QString)
    (arguments : List QString)
    (h : (targetCommand host targetOS targetBin arguments).1 = targetBin →
      host.isExecutable targetBin = true) :
    runTarget host targetOS targetBin arguments =
      RunResult.started (targetCommand host targetOS targetBin arguments).1
        (targetCommand host targetOS targetBin arguments).2 := by
  rw [runTarget_unfold, if_neg]
  intro ⟨h1, h2⟩
  have h3 := h h1.symm
  rw [← h1] at h2
  simp [h3] at h2

theorem joinWith_cons_cons (sep c : Nat) (p : QString) (ps : List QString) :
    joinWith sep ((c :: p) :: ps) = c :: joinWith sep (p :: ps) := by
  cases ps <;> rfl

theorem joinWith_nil_cons (sep : Nat) (q : QString) (ps : List QString) :
    joinWith sep ([] :: q :: ps) = sep :: joinWith sep (q :: ps) := rfl

/-- Splitting what `joinWith` has put together, with the part `cur` already
read: the parts that are not empty, in order. -/
theorem split_joinWith_cons (sep : Nat) : ∀ (ps : List QString) (p cur : QString),
    sep ∉ p → (∀ q ∈ ps, sep ∉ q) →
    splitSkipEmptyParts sep (joinWith sep (p :: ps)) cur =
      (if cur ++ p = [] then [] else [cur ++ p]) ++ ps.filter (fun q => q ≠ []) := by
  intro ps
  induction ps with
  | nil =>
    intro p
    induction p with
    | nil =>
      intro cur _ _
      simp [joinWith, splitSkipEmptyParts]
    | cons c p ih =>
      intro cur hp hps
      have hc : c ≠ sep := fun h => hp (h ▸ List.mem_cons_self _ _)
      have hp2 : sep ∉ p := fun h => hp (List.mem_cons_of_mem _ h)
      rw [joinWith_cons_cons, splitSkipEmptyParts, if_neg hc, ih (cur ++ [c]) hp2 hps]
      simp
  | cons q qs ihq =>
    intro p
    induction p with
    | nil =>
      intro cur _ hps
      have hq : sep ∉ q := hps q (List.mem_cons_self _ _)
      have hqs : ∀ x ∈ qs, sep ∉ x := fun x hx => hps x (List.mem_cons_of_mem _ hx)
      rw [joinWith_nil_cons, splitSkipEmptyParts, if_pos rfl, ihq q [] hq hqs]
      by_cases hcur : cur = []
      · by_cases hqe : q = []
        · simp [hcur, hqe]
        · simp [hcur, hqe]
      · by_cases hqe : q = []
        · simp [hcur, hqe]
        · simp [hcur, hqe]
    | cons c p ih =>
      intro cur hp hps
      have hc : c ≠ sep := fun h => hp (h ▸ List.mem_cons_self _ _)
      have hp2 : sep ∉ p := fun h => hp (List.mem_cons_of_mem _ h)
      rw [joinWith_cons_cons, splitSkipEmptyParts, if_neg hc, ih (cur ++ [c]) hp2 hps]
      simp

/-- `QString::split` with `SkipEmptyParts` undoes `joinWith`, up to the empty
parts. -/
theorem split_joinWith (sep : Nat) (parts : List QString) (h : ∀ p ∈ parts, sep ∉ p) :
    splitSkipEmptyParts sep (joinWith sep parts) [] = parts.filter (fun p => p ≠ []) := by
  cases parts with
  | nil => simp [joinWith, splitSkipEmptyParts]
  | cons p ps =>
    rw [split_joinWith_cons sep ps p [] (h p (List.mem_cons_self _ _))
      (fun q hq => h q (List.mem_cons_of_mem _ hq))]
    by_cases hp : p = []
    · simp [hp]
    · simp [hp]

/-- Every string is some parts joined, none of which holds the separator. -/
theorem exists_joinWith (sep : Nat) : ∀ s : QString,
    ∃ p ps, s = joinWith sep (p :: ps) ∧ ∀ q ∈ p :: ps, sep ∉ q := by
  intro s
  induction s with
  | nil => exact ⟨[], [], rfl, by simp⟩
  | cons c s ih =>
    obtain ⟨p, ps, hs, hfree⟩ := ih
    by_cases hc : c = sep
    · refine ⟨[], p :: ps, by rw [joinWith_nil_cons, ← hs, hc], ?_⟩
      intro q hq
      rcases List.mem_cons.1 hq with rfl | hq
      · simp
      · exact hfree q hq
    · refine ⟨c :: p, ps, by rw [joinWith_cons_cons, ← hs], ?_⟩
      intro q hq
      rcases List.mem_cons.1 hq with rfl | hq
      · intro hm
        rcases List.mem_cons.1 hm with h1 | h1
        · exact hc h1.symm
        · exact hfree p (List.mem_cons_self _ _) h1
      · exact hfree q (List.mem_cons_of_mem _ hq)

/-- The search order of `findExecutable` over the directories it gets from
`PATH`. -/
theorem findExecutable_on_path (host : Host) (fileNames : List QString) :
    (∀ (front : List QString) (name : QString) (back dfront : List QString) (dir : QString)
        (dback : List QString),
      fileNames = front ++ name :: back → host.path = dfront ++ dir :: dback →
      (∀ n ∈ front, ∀ d ∈ host.path, host.fileExists (fullPath d n) = false) →
      (∀ d ∈ dfront, host.fileExists (fullPath d name) = false) →
      host.fileExists (fullPath dir name) = true →
      findExecutable host fileNames = host.cleanPath (fullPath dir name)) ∧
    ((∃ n ∈ fileNames, ∃ d ∈ host.path, host.fileExists (fullPath d n) = true) →
      ∃ front name back dfront dir dback,
        fileNames = front ++ name :: back ∧ host.path = dfront ++ dir :: dback ∧
        (∀ n ∈ front, ∀ d ∈ host.path, host.fileExists (fullPath d n) = false) ∧
        (∀ d ∈ dfront, host.fileExists (fullPath d name) = false) ∧
        host.fileExists (fullPath dir name) = true) ∧
    ((∀ n ∈ fileNames, ∀ d ∈ host.path, host.fileExists (fullPath d n) = false) →
      findExecutable host fileNames = []) ∧
    ((∀ p, p ≠ [] → host.cleanPath p ≠ []) →
      (findExecutable host fileNames = [] ↔
        ∀ n ∈ fileNames, ∀ d ∈ host.path, host.fileExists (fullPath d n) = false)) := by
  have hfound : ∀ (front : List QString) (name : QString) (back dfront : List QString)
      (dir : QString) (dback : List QString),
      fileNames = front ++ name :: back → host.path = dfront ++ dir :: dback →
      (∀ n ∈ front, ∀ d ∈ host.path, host.fileExists (fullPath d n) = false) →
      (∀ d ∈ dfront, host.fileExists (fullPath d name) = false) →
      host.fileExists (fullPath dir name) = true →
      findExecutable host fileNames = host.cleanPath (fullPath dir name) :=
    fun front name back dfront dir dback hn hp hf hdf hd =>
      findInNames_found host fileNames host.path front name back dfront dir dback hn hp hf hdf hd
  have hsplit : (∃ n ∈ fileNames, ∃ d ∈ host.path, host.fileExists (fullPath d n) = true) →
      ∃ front name back dfront dir dback,
        fileNames = front ++ name :: back ∧ host.path = dfront ++ dir :: dback ∧
        (∀ n ∈ front, ∀ d ∈ host.path, host.fileExists (fullPath d n) = false) ∧
        (∀ d ∈ dfront, host.fileExists (fullPath d name) = false) ∧
        host.fileExists (fullPath dir name) = true := by
    intro h
    obtain ⟨front, name, back, hn, hf, hex⟩ := exists_first_name host host.path fileNames h
    obtain ⟨dfront, dir, dback, hp, hdf, hd⟩ := exists_first_dir host name host.path hex
    exact ⟨front, name, back, dfront, dir, dback, hn, hp, hf, hdf, hd⟩
  refine ⟨hfound, hsplit, findInNames_none host host.path fileNames, ?_⟩
  intro hclean
  constructor
  · intro hempty n hn d hd
    cases he : host.fileExists (fullPath d n)
    · rfl
    · exfalso
      obtain ⟨front, name, back, dfront, dir, dback, h1, h2, h3, h4, h5⟩ :=
        hsplit ⟨n, hn, d, hd, he⟩
      rw [hfound front name back dfront dir dback h1 h2 h3 h4 h5] at hempty
      refine hclean (fullPath dir name) ?_ hempty
      simp [fullPath]
  · exact findInNames_none host host.path fileNames

theorem indexed_keys {κ : Type} : ∀ (ks : List κ) (base : Int),
    (indexed base ks).map Prod.fst = ks := by
  intro ks
  induction ks with
  | nil => intro base; rfl
  | cons k ks ih => intro base; simp [indexed, ih]

theorem indexed_append {κ : Type} : ∀ (ks more : List κ) (base : Int),
    indexed base (ks ++ more) = indexed base ks ++ indexed (base + ks.length) more := by
  intro ks
  induction ks with
  | nil => intro more base; simp [indexed]
  | cons k ks ih =>
    intro more base
    have e : base + 1 + (ks.length : Int) = base + ((ks.length + 1 : Nat) : Int) := by
      push_cast
      omega
    rw [List.cons_append, indexed, ih, List.length_cons, ← e]
    rfl

/-- A key of the table has an id that is its place in the list. -/
theorem lookup_indexed {κ : Type} [DecidableEq κ] : ∀ (ks : List κ) (base : Int) (x : κ),
    x ∈ ks → ∃ i : Nat, (indexed base ks).lookup x = some (base + i) ∧ ks[i]? = some x := by
  intro ks
  induction ks with
  | nil => intro base x hx; cases hx
  | cons k ks ih =>
    intro base x hx
    by_cases hk : x = k
    · subst hk
      exact ⟨0, by simp [indexed, List.lookup], by simp⟩
    · have hx2 : x ∈ ks := by
        rcases List.mem_cons.1 hx with h | h
        · exact absurd h hk
        · exact h
      obtain ⟨i, hi, hget⟩ := ih (base + 1) x hx2
      have hb : (x == k) = false := by simpa using hk
      refine ⟨i + 1, ?_, by simpa using hget⟩
      have e : base + 1 + (i : Int) = base + ((i + 1 : Nat) : Int) := by
        push_cast
        omega
      simp only [indexed, List.lookup, hb, hi, e]

/-- The id of a key of the table stays when keys are added. -/
theorem value_indexed_append {κ : Type} [DecidableEq κ] (ks more : List κ) (x : κ) (d : Int)
    (hx : x ∈ ks) :
    QHash.value (indexed 0 (ks ++ more)) x d = QHash.value (indexed 0 ks) x d := by
  obtain ⟨i, hi, -⟩ := lookup_indexed ks 0 x hx
  unfold QHash.value
  rw [indexed_append, List.lookup_append, hi]
  rfl

theorem value_indexed {κ : Type} [DecidableEq κ] (ks : List κ) (x : κ) (d : Int) (hx : x ∈ ks) :
    ∃ i : Nat, QHash.value (indexed 0 ks) x d = (i : Int) ∧ ks[i]? = some x := by
  obtain ⟨i, hi, hget⟩ := lookup_indexed ks 0 x hx
  refine ⟨i, ?_, hget⟩
  unfold QHash.value
  rw [hi]
  simp

theorem value_indexed_new {κ : Type} [DecidableEq κ] (ks : List κ) (x : κ) (d : Int)
    (hx : x ∉ ks) : QHash.value (indexed 0 (ks ++ [x])) x d = (ks.length : Int) := by
  have hnone : (indexed 0 ks).lookup x = none := by
    apply lookup_none_of_not_mem
    rw [indexed_keys]
    exact hx
  unfold QHash.value
  rw [indexed_append, List.lookup_append, hnone]
  simp [indexed, List.lookup]

theorem resizeStrings_set_append (tbl : List QString) (x : QString) :
    (resizeStrings tbl (tbl.length + 1)).set tbl.length x = tbl ++ [x] := by
  have e : tbl.take (tbl.length + 1) = tbl := List.take_of_length_le (by omega)
  unfold resizeStrings
  rw [e]
  simp

/-- One store of a string in a session whose table is `indexed 0 keys`. -/
theorem storeString_step (x : QString) (w : PersistentPool) (keys : List QString)
    (ht : w.m_inverseStringStorage = indexed 0 keys)
    (hn : w.m_lastStoredStringId = (keys.length : Int)) :
    (x ∈ keys →
      storeString x w =
        { w with m_stream := w.m_stream ++
            encodeInt 4 (QHash.value w.m_inverseStringStorage x (-1)) }) ∧
    (x ∉ keys →
      storeString x w =
        { w with
          m_stream := w.m_stream ++
            (encodeInt 4 (keys.length : Int) ++ (encodeBE 4 (2 * x.length) ++ encodeChars x))
          m_inverseStringStorage := indexed 0 (keys ++ [x])
          m_lastStoredStringId := ((keys ++ [x]).length : Int) }) := by
  constructor
  · intro hx
    obtain ⟨i, hi, -⟩ := value_indexed keys x (-1) hx
    rw [← ht] at hi
    exact storeString_again x w _ (by rw [hi]; exact Int.ofNat_nonneg i) rfl
  · intro hx
    have hnew : x ∉ w.m_inverseStringStorage.map Prod.fst := by
      rw [ht, indexed_keys]
      exact hx
    rw [storeString_new x w hnew, QHash.insert_of_not_mem _ _ _ hnew, hn, ht, indexed_append]
    simp [indexed]

/-- A write session that stores the strings `xs` in order, and the read
session that loads as many strings from the bytes written: the tables stay
the strings seen so far in the order of their ids, each string of `xs` ends
with an id, and the loads return `xs`. -/
theorem string_session : ∀ (xs keys : List QString) (w : PersistentPool),
    w.m_inverseStringStorage = indexed 0 keys → w.m_lastStoredStringId = (keys.length : Int) →
    (∀ x ∈ xs, ValidString x) → keys.length + xs.length < 2 ^ 31 →
    ∃ w1 keys1 out, xs.foldlM (fun p x => HelperQString.store x p) w = some w1 ∧
      w1.m_inverseStringStorage = indexed 0 keys1 ∧
      w1.m_lastStoredStringId = (keys1.length : Int) ∧
      keys <+: keys1 ∧ keys1.length ≤ keys.length + xs.length ∧
      (∀ x ∈ xs, x ∈ keys1) ∧ (∀ x ∈ keys1, x ∈ keys ∨ x ∈ xs) ∧
      w1.m_stream = w.m_stream ++ out ∧
      ∀ (acc : List QString) (r : ReadSide) (rest : List Nat),
        r.pool.m_stringStorage = keys → r.pool.m_stream = out ++ rest →
        ∃ r1, pushBackLoop HelperQString.load xs.length acc r = some (acc ++ xs, r1) ∧
          r1.pool.m_stream = rest ∧ r1.pool.m_stringStorage = keys1 := by
  intro xs
  induction xs with
  | nil =>
    intro keys w ht hn _ _
    refine ⟨w, keys, [], rfl, ht, hn, List.prefix_refl _, by simp, by simp,
      fun x hx => Or.inl hx, by simp, ?_⟩
    intro acc r rest htab hs
    exact ⟨r, by simp [pushBackLoop], by simpa using hs, htab⟩
  | cons x xs ih =>
    intro keys w ht hn hv hb
    have hvx := hv x (List.mem_cons_self _ _)
    have hvxs : ∀ y ∈ xs, ValidString y := fun y hy => hv y (List.mem_cons_of_mem _ hy)
    simp only [List.length_cons] at hb
    obtain ⟨hold, hnew⟩ := storeString_step x w keys ht hn
    by_cases hx : x ∈ keys
    · obtain ⟨i, hi, hget⟩ := value_indexed keys x (-1) hx
      rw [← ht] at hi
      have hilt : i < keys.length := by
        rcases Nat.lt_or_ge i keys.length with h | h
        · exact h
        · rw [List.getElem?_eq_none h] at hget
          cases hget
      have hstep := hold hx
      rw [hi] at hstep
      obtain ⟨w1, keys1, out, hf, ht1, hn1, hpre, hlen1, hmem1, hfrom1, hs1, hload⟩ :=
        ih keys { w with m_stream := w.m_stream ++ encodeInt 4 (i : Int) } ht hn hvxs
          (by omega)
      refine ⟨w1, keys1, encodeInt 4 (i : Int) ++ out, ?_, ht1, hn1, hpre, by
        simp only [List.length_cons]; omega, ?_, ?_, by rw [hs1]; simp, ?_⟩
      · rw [List.foldlM_cons]
        simp only [HelperQString.store, hstep, Option.bind_eq_bind, Option.some_bind]
        exact hf
      · intro y hy
        rcases List.mem_cons.1 hy with rfl | hy
        · exact hpre.subset hx
        · exact hmem1 y hy
      · intro y hy
        rcases hfrom1 y hy with h | h
        · exact Or.inl h
        · exact Or.inr (List.mem_cons_of_mem _ h)
      · intro acc r rest htab hs
        have hc : r.pool.m_stringStorage[((i : Int)).toNat]? = some x := by
          rw [htab, Int.toNat_ofNat]
          exact hget
        have hl := idLoadString_cached x (i : Int) (Int.ofNat_nonneg i) (by omega) r.pool
          (out ++ rest) hc (by rw [hs, List.append_assoc])
        obtain ⟨r1, hr1, hrest1, htab1⟩ := hload (acc ++ [x])
          { r with pool := { r.pool with m_stream := out ++ rest } } rest htab rfl
        refine ⟨r1, ?_, hrest1, htab1⟩
        simp only [List.length_cons, pushBackLoop, HelperQString.load, hl]
        rw [hr1]
        simp
    · have hstep := hnew hx
      have hklt : (keys.length : Int) < 2 ^ 31 := by omega
      obtain ⟨w1, keys1, out, hf, ht1, hn1, hpre, hlen1, hmem1, hfrom1, hs1, hload⟩ :=
        ih (keys ++ [x])
          { w with
            m_stream := w.m_stream ++
              (encodeInt 4 (keys.length : Int) ++ (encodeBE 4 (2 * x.length) ++ encodeChars x))
            m_inverseStringStorage := indexed 0 (keys ++ [x])
            m_lastStoredStringId := ((keys ++ [x]).length : Int) }
          rfl rfl hvxs (by simp only [List.length_append, List.length_singleton]; omega)
      have hpre0 : keys <+: keys1 := (List.prefix_append keys [x]).trans hpre
      refine ⟨w1, keys1,
        encodeInt 4 (keys.length : Int) ++ (encodeBE 4 (2 * x.length) ++ encodeChars x) ++ out,
        ?_, ht1, hn1, hpre0, by
          simp only [List.length_append, List.length_singleton, List.length_cons,
            List.length_nil] at hlen1 ⊢
          omega, ?_, ?_, by rw [hs1]; simp, ?_⟩
      · rw [List.foldlM_cons]
        simp only [HelperQString.store, hstep, Option.bind_eq_bind, Option.some_bind]
        exact hf
      · intro y hy
        rcases List.mem_cons.1 hy with rfl | hy
        · exact hpre.subset (by simp)
        · exact hmem1 y hy
      · intro y hy
        rcases hfrom1 y hy with h | h
        · rcases List.mem_append.1 h with h | h
          · exact Or.inl h
          · rw [List.mem_singleton] at h
            exact Or.inr (h ▸ List.mem_cons_self _ _)
        · exact Or.inr (List.mem_cons_of_mem _ h)
      · intro acc r rest htab hs
        have hsize : (r.pool.m_stringStorage.length : Int) ≤ (keys.length : Int) := by
          rw [htab]
        have hl := idLoadString_first x hvx (keys.length : Int) (Int.ofNat_nonneg _) hklt r.pool
          (out ++ rest) hsize (by rw [hs]; simp)
        rw [htab, Int.toNat_ofNat, resizeStrings_set_append] at hl
        obtain ⟨r1, hr1, hrest1, htab1⟩ := hload (acc ++ [x])
          { r with pool := { r.pool with
              m_stream := out ++ rest, m_stringStorage := keys ++ [x] } } rest rfl rfl
        refine ⟨r1, ?_, hrest1, htab1⟩
        simp only [List.length_cons, pushBackLoop, HelperQString.load, hl]
        rw [hr1]
        simp

/-- An element of a list has a first place in it. -/
theorem exists_first_occurrence {α : Type} [DecidableEq α] (a : α) : ∀ (l : List α), a ∈ l →
    ∃ front back, l = front ++ a :: back ∧ a ∉ front := by
  intro l
  induction l with
  | nil => intro h; cases h
  | cons b l ih =>
    intro h
    by_cases hb : a = b
    · subst hb
      exact ⟨[], l, rfl, by simp⟩
    · have hl : a ∈ l := by
        rcases List.mem_cons.1 h with h1 | h1
        · exact absurd h1 hb
        · exact h1
      obtain ⟨front, back, hs, hf⟩ := ih hl
      refine ⟨b :: front, back, by rw [hs]; rfl, ?_⟩
      intro hm
      rcases List.mem_cons.1 hm with h1 | h1
      · exact hb h1
      · exact hf h1

/-- One position of a string in a write session that starts from a cleared
pool: the bytes the store at that position appends, in terms of the id the
string has at the end of the session. -/
theorem string_position (s : QString) (front back : List QString) (pool0 w1 : PersistentPool)
    (hvalid : ∀ x ∈ front ++ s :: back, ValidString x)
    (hlen : (front ++ s :: back).length < 2 ^ 31)
    (hall : (front ++ s :: back).foldlM (fun p x => HelperQString.store x p) pool0.clear =
      some w1) :
    ∃ wpre, front.foldlM (fun p x => HelperQString.store x p) pool0.clear = some wpre ∧
      (storeString s wpre).m_stream = wpre.m_stream ++
        (encodeInt 4 (QHash.value w1.m_inverseStringStorage s (-1)) ++
          if s ∈ front then [] else encodeBE 4 (2 * s.length) ++ encodeChars s) := by
  simp only [List.length_append, List.length_cons] at hlen
  obtain ⟨wpre, kpre, outpre, hfpre, htpre, hnpre, -, hlenpre, hmempre, hfrompre, -, -⟩ :=
    string_session front [] pool0.clear rfl rfl
      (fun x hx => hvalid x (List.mem_append_left _ hx)) (by simp only [List.length_nil]; omega)
  simp only [List.length_nil, Nat.zero_add] at hlenpre
  have hvback : ∀ x ∈ back, ValidString x :=
    fun x hx => hvalid x (List.mem_append_right _ (List.mem_cons_of_mem _ hx))
  have hsplit : (front ++ s :: back).foldlM (fun p x => HelperQString.store x p) pool0.clear =
      back.foldlM (fun p x => HelperQString.store x p) (storeString s wpre) := by
    rw [List.foldlM_append, hfpre]
    simp only [Option.bind_eq_bind, Option.some_bind, List.foldlM_cons, HelperQString.store]
  rw [hsplit] at hall
  obtain ⟨hold, hnew⟩ := storeString_step s wpre kpre htpre hnpre
  refine ⟨wpre, hfpre, ?_⟩
  by_cases hs : s ∈ front
  · have hk : s ∈ kpre := hmempre s hs
    have hstep := hold hk
    obtain ⟨w2, keys2, out2, hf2, ht2, -, hpre2, -, -, -, -, -⟩ :=
      string_session back kpre (storeString s wpre) (by rw [hstep]; exact htpre)
        (by rw [hstep]; exact hnpre) hvback (by omega)
    rw [hf2] at hall
    cases hall
    obtain ⟨more, hmore⟩ := hpre2
    rw [ht2, ← hmore, value_indexed_append kpre more s (-1) hk, ← htpre, if_pos hs,
      List.append_nil, hstep]
  · have hk : s ∉ kpre := by
      intro h
      rcases hfrompre s h with h1 | h1
      · cases h1
      · exact hs h1
    have hstep := hnew hk
    obtain ⟨w2, keys2, out2, hf2, ht2, -, hpre2, -, -, -, -, -⟩ :=
      string_session back (kpre ++ [s]) (storeString s wpre) (by rw [hstep])
        (by rw [hstep]) hvback
        (by simp only [List.length_append, List.length_singleton]; omega)
    rw [hf2] at hall
    cases hall
    obtain ⟨more, hmore⟩ := hpre2
    rw [ht2, ← hmore, value_indexed_append (kpre ++ [s]) more s (-1) (by simp),
      value_indexed_new kpre s (-1) hk, if_neg hs, hstep]

/-- A string `s` that has no id yet, stored `N >= 1` times in a row: the
stores append the next string id, the characters of `s` with their length, and
then `N - 1` times the same id; `N` loads from those bytes return `s` each
time. -/
theorem storeString_in_a_row (s : QString) (N : Nat) (hN : 1 ≤ N) (hs : ValidString s)
    (w : PersistentPool) (r : ReadSide) (rest : List Nat)
    (hnew : s ∉ w.m_inverseStringStorage.map Prod.fst)
    (h0 : 0 ≤ w.m_lastStoredStringId) (h1 : w.m_lastStoredStringId < 2 ^ 31)
    (hsize : (r.pool.m_stringStorage.length : Int) ≤ w.m_lastStoredStringId) :
    ∃ w1, (List.replicate N s).foldlM (fun p x => HelperQString.store x p) w = some w1 ∧
      w1.m_stream = w.m_stream ++
        (encodeInt 4 w.m_lastStoredStringId ++ (encodeBE 4 (2 * s.length) ++ encodeChars s) ++
          repeatBytes (N - 1) (encodeInt 4 w.m_lastStoredStringId)) ∧
      w1.m_lastStoredStringId = w.m_lastStoredStringId + 1 ∧
      (r.pool.m_stream = w1.m_stream.drop w.m_stream.length ++ rest →
        ∃ r1, pushBackLoop HelperQString.load N [] r = some (List.replicate N s, r1) ∧
          r1.pool.m_stream = rest) := by
  obtain ⟨n, rfl⟩ : ∃ n, N = n + 1 := ⟨N - 1, by omega⟩
  have hfirst : HelperQString.store s w = some
      { w with
        m_stream := w.m_stream ++
          (encodeInt 4 w.m_lastStoredStringId ++ (encodeBE 4 (2 * s.length) ++ encodeChars s))
        m_inverseStringStorage := QHash.insert w.m_inverseStringStorage s w.m_lastStoredStringId
        m_lastStoredStringId := w.m_lastStoredStringId + 1 } := by
    simp only [HelperQString.store, storeString_new s w hnew]
  have hrep := storeString_repeat s w.m_lastStoredStringId h0 n
    { w with
      m_stream := w.m_stream ++
        (encodeInt 4 w.m_lastStoredStringId ++ (encodeBE 4 (2 * s.length) ++ encodeChars s))
      m_inverseStringStorage := QHash.insert w.m_inverseStringStorage s w.m_lastStoredStringId
      m_lastStoredStringId := w.m_lastStoredStringId + 1 }
    (QHash.value_insert_self _ _ _ _)
  refine ⟨{ w with
      m_stream := w.m_stream ++
          (encodeInt 4 w.m_lastStoredStringId ++ (encodeBE 4 (2 * s.length) ++ encodeChars s)) ++
        repeatBytes n (encodeInt 4 w.m_lastStoredStringId)
      m_inverseStringStorage := QHash.insert w.m_inverseStringStorage s w.m_lastStoredStringId
      m_lastStoredStringId := w.m_lastStoredStringId + 1 }, ?_, ?_, rfl, ?_⟩
  · rw [List.replicate_succ, List.foldlM_cons, hfirst]
    simp only [Option.bind_eq_bind, Option.some_bind]
    exact hrep
  · simp only [Nat.add_sub_cancel, List.append_assoc]
  · intro hstream
    simp only [List.append_assoc, List.drop_left] at hstream
    have hnat : r.pool.m_stringStorage.length ≤ w.m_lastStoredStringId.toNat := by omega
    have hl := idLoadString_first s hs w.m_lastStoredStringId h0 h1 r.pool
      (repeatBytes n (encodeInt 4 w.m_lastStoredStringId) ++ rest) hsize hstream
    have hrest := idLoadString_repeat s w.m_lastStoredStringId h0 h1 n [s]
      { r with pool := { r.pool with
          m_stream := repeatBytes n (encodeInt 4 w.m_lastStoredStringId) ++ rest
          m_stringStorage :=
            (resizeStrings r.pool.m_stringStorage (w.m_lastStoredStringId.toNat + 1)).set
              w.m_lastStoredStringId.toNat s } }
      rest (resizeStrings_set_get _ _ _ hnat) rfl
    refine ⟨{ r with pool := { r.pool with
        m_stream := rest
        m_stringStorage :=
          (resizeStrings r.pool.m_stringStorage (w.m_lastStoredStringId.toNat + 1)).set
            w.m_lastStoredStringId.toNat s } }, ?_, rfl⟩
    simp only [pushBackLoop, HelperQString.load, hl, List.nil_append]
    rw [hrest, List.replicate_succ]
    rfl

/-! # The claims -/

/-- **C1** (as amended) Identity preservation.  The heap is well typed and
every instance is held through one kind of handle only, shared pointers or
unique and raw pointers (`sharedObj` tells which).  Store the graph of `root`
from a cleared pool and load the bytes with a fresh pool.  If two shared-pointer members, member
`j1` of the object at `a1` and member `j2` of the object at `a2`, both objects of the
graph, hold the same instance `x`, then the same two members of the loaded
objects hold one and the same instance `y`, the one recorded in the table
`m_loaded` at the id of `x`. -/
theorem identity_preservation (heap : Heap) (S : Schema) (sharedObj : Addr → Bool)
    (hwt : heap.wellTyped S = true) (hka : heap.kindsAgree sharedObj = true)
    (hsz : heap.length < 2 ^ 31) (k : HandleKind) (c : Cls) (root : Option Addr)
    (hroot : HandleOK heap sharedObj k c root) (pool0 rpool : PersistentPool) (mem : Heap)
    (rest : List Nat) (a1 a2 x : Addr) (j1 j2 : Nat) (o1 o2 : Obj)
    (hr1 : Reach heap root a1) (hr2 : Reach heap root a2)
    (ho1 : heap[a1]? = some o1) (ho2 : heap[a2]? = some o2)
    (hf1 : o1.fields[j1]? = some (.handle .shared (some x)))
    (hf2 : o2.fields[j2]? = some (.handle .shared (some x))) :
    ∃ w1 out r1 y n1 n2,
      storeSharedObject (heap.length + 1) heap pool0.clear root = some w1 ∧
      w1.m_stream = pool0.m_stream ++ out ∧
      HelperPointer.load (heap.length + 1) S k c
          ⟨{ rpool.clear with m_stream := out ++ rest }, mem⟩ =
        some (root.map (loadedAddr mem.length w1.m_storageIndices), r1) ∧
      r1.heap[loadedAddr mem.length w1.m_storageIndices a1]? = some n1 ∧
      r1.heap[loadedAddr mem.length w1.m_storageIndices a2]? = some n2 ∧
      n1.fields[j1]? = some (.handle .shared (some y)) ∧
      n2.fields[j2]? = some (.handle .shared (some y)) ∧
      r1.pool.m_loaded[(QHash.value w1.m_storageIndices x (-1)).toNat]? = some (some y) := by
  obtain ⟨w1, out, hst, hout, inv1, c1, t1, hload⟩ :=
    roundtrip heap S sharedObj hwt hka hsz k c root hroot pool0
  obtain ⟨r1, hl, -, -, corr, loaded, -⟩ := hload rpool mem rest
  have hs1 := reach_stored c1 rfl t1 hr1
  have hs2 := reach_stored c1 rfl t1 hr2
  have hx : Reach heap root x := by
    obtain ⟨r, hr, hreach⟩ := hr1
    exact ⟨r, hr, hreach.tail ⟨o1, .shared, ho1, List.getElem?_mem hf1⟩⟩
  have hsx := reach_stored c1 rfl t1 hx
  obtain ⟨i1, hi1⟩ := mem_idx_of_mem_addrs hs1
  obtain ⟨i2, hi2⟩ := mem_idx_of_mem_addrs hs2
  obtain ⟨ix, hix⟩ := mem_idx_of_mem_addrs hsx
  obtain ⟨p1, hp1, hn1⟩ := loaded a1 i1 hi1 (by intro h; cases h)
  obtain ⟨p2, hp2, hn2⟩ := loaded a2 i2 hi2 (by intro h; cases h)
  rw [ho1] at hp1
  rw [ho2] at hp2
  cases hp1
  cases hp2
  have hv1 := QHash.value_of_mem _ _ i1 (-1) inv1.nodup hi1
  have hv2 := QHash.value_of_mem _ _ i2 (-1) inv1.nodup hi2
  have hvx := QHash.value_of_mem _ _ ix (-1) inv1.nodup hix
  have hshared : sharedObj x = true := by
    have := kindsAgree_fields hka ho1 .shared x (List.getElem?_mem hf1)
    rw [← this]
    rfl
  have hent := corr.entry x ix hix
  simp only [hshared, if_true] at hent
  refine ⟨w1, out, r1, mem.length + ix.toNat, o1.reloc mem.length w1.m_storageIndices,
    o2.reloc mem.length w1.m_storageIndices, hst, hout, hl, ?_, ?_, ?_, ?_, ?_⟩
  · simp only [loadedAddr, hv1]
    exact hn1
  · simp only [loadedAddr, hv2]
    exact hn2
  · simp only [Obj.reloc, List.getElem?_map, hf1, Option.map_some', Field.reloc, loadedAddr, hvx]
  · simp only [Obj.reloc, List.getElem?_map, hf2, Option.map_some', Field.reloc, loadedAddr, hvx]
  · rw [hvx]
    exact hent

/-- The instance of `identity_preservation` for the graph
`root -> {childA, childB}` whose children hold the same `leaf`. -/
theorem identity_preservation_witness :
    (diamondHeap.wellTyped diamondSchema = true ∧
      diamondHeap.kindsAgree (fun _ => true) = true ∧ diamondHeap.length < 2 ^ 31 ∧
      HandleOK diamondHeap (fun _ => true) .shared 0 (some 0) ∧
      Reach diamondHeap (some 0) 1 ∧ Reach diamondHeap (some 0) 2 ∧
      diamondHeap[1]? = some { cls := 1, fields := [.int 10, .handle .shared (some 3)] } ∧
      diamondHeap[2]? = some { cls := 1, fields := [.int 20, .handle .shared (some 3)] }) ∧
    ∃ w1 out r1 y n1 n2,
      storeSharedObject (diamondHeap.length + 1) diamondHeap emptyPool.clear (some 0) = some w1 ∧
      w1.m_stream = emptyPool.m_stream ++ out ∧
      HelperPointer.load (diamondHeap.length + 1) diamondSchema .shared 0
          ⟨{ emptyPool.clear with m_stream := out ++ [] }, []⟩ =
        some ((some 0).map (loadedAddr ([] : Heap).length w1.m_storageIndices), r1) ∧
      r1.heap[loadedAddr ([] : Heap).length w1.m_storageIndices 1]? = some n1 ∧
      r1.heap[loadedAddr ([] : Heap).length w1.m_storageIndices 2]? = some n2 ∧
      n1.fields[1]? = some (.handle .shared (some y)) ∧
      n2.fields[1]? = some (.handle .shared (some y)) ∧
      r1.pool.m_loaded[(QHash.value w1.m_storageIndices 3 (-1)).toNat]? = some (some y) :=
  have hroot : HandleOK diamondHeap (fun _ => true) .shared 0 (some 0) := by
    intro a ha
    cases ha
    exact ⟨⟨_, rfl, rfl⟩, rfl⟩
  have hr1 : Reach diamondHeap (some 0) 1 :=
    ⟨0, rfl, Relation.ReflTransGen.single ⟨_, .shared, rfl, by decide⟩⟩
  have hr2 : Reach diamondHeap (some 0) 2 :=
    ⟨0, rfl, Relation.ReflTransGen.single ⟨_, .shared, rfl, by decide⟩⟩
  ⟨⟨by decide, by decide, by decide, hroot, hr1, hr2, rfl, rfl⟩,
    identity_preservation diamondHeap diamondSchema (fun _ => true) (by decide) (by decide)
      (by decide) .shared 0 (some 0) hroot emptyPool emptyPool [] [] 1 2 3 1 1 _ _ hr1 hr2
      rfl rfl rfl rfl⟩

/-- **C1** (counterexample) The claim as stated fails when the shared instance
is also held through a raw pointer.  The root holds `x` through a raw pointer
and through two shared pointers; the graph is well typed.  The store writes
the id of the root, the id `1` and the body of `x`, and then the id `1` twice.
On load the raw pointer is decoded by `idLoad`, which records its instance in
`m_loadedRaw`; the first shared pointer then finds `m_loaded` too short for
the id `1`, allocates a second instance and reads the next four bytes as its
body; the second shared pointer reads past the end.  The two shared members of
the loaded root hold the instances `2` and `0`, which differ. -/
theorem identity_preservation_counterexample :
    mixedHeap.wellTyped mixedSchema = true ∧
    (storeSharedObject 3 mixedHeap emptyPool.clear (some 0)).map (fun w => w.m_stream) =
      some [0, 0, 0, 0, 0, 0, 0, 1, 0, 0, 0, 7, 0, 0, 0, 1, 0, 0, 0, 1] ∧
    (idLoadS 3 mixedSchema 0
        ⟨{ emptyPool.clear with
            m_stream := [0, 0, 0, 0, 0, 0, 0, 1, 0, 0, 0, 7, 0, 0, 0, 1, 0, 0, 0, 1] },
          []⟩).map (fun res => (res.1, res.2.heap, res.2.pool.m_loadedRaw, res.2.pool.m_loaded)) =
      some (some 0,
        [{ cls := 0,
           fields :=
            [.handle .raw (some 1), .handle .shared (some 2), .handle .shared (some 0)] },
          { cls := 1, fields := [.int 7] }, { cls := 1, fields := [.int 1] }],
        [none, some 1], [some 0, some 2]) := by
  refine ⟨by decide, by decide, by decide⟩

/-- The bytes written and the objects loaded for the two-object cycle. -/
theorem cycle_example :
    (storeSharedObject 3 cycleHeap emptyPool (some 0)).map (fun w => w.m_stream) =
      some [0, 0, 0, 0, 0, 0, 0, 7, 0, 0, 0, 1, 255, 255, 255, 253, 0, 0, 0, 0] ∧
    (idLoadS 3 cycleSchema 0
        ⟨{ emptyPool with
            m_stream := [0, 0, 0, 0, 0, 0, 0, 7, 0, 0, 0, 1, 255, 255, 255, 253, 0, 0, 0, 0] },
          []⟩).map (fun res => (res.1, res.2.heap, res.2.pool.m_loaded)) =
      some (some 0, cycleHeap, [some 0, some 1]) := by
  constructor <;> decide

/-- **C3** Null handling.  In every pool state, storing a null pointer of any
of the three kinds writes the four bytes of the id `-1` and changes nothing
else (identity map and counter included); `idLoad` and `idLoadS` on those
bytes return a null pointer, consume the four bytes and change nothing else:
no instance is allocated and both tables stay as they were. -/
theorem null_handling (fuel : Nat) (heap : Heap) (S : Schema) (T : Cls) (k : HandleKind)
    (pool : PersistentPool) (mem : Heap) (rest : List Nat) :
    encodeInt 4 (-1) = [255, 255, 255, 255] ∧
    storeSharedObject (fuel + 1) heap pool none =
      some { pool with m_stream := pool.m_stream ++ [255, 255, 255, 255] } ∧
    HelperPointer.store (fuel + 1) heap k none pool =
      some { pool with m_stream := pool.m_stream ++ [255, 255, 255, 255] } ∧
    idLoad (fuel + 1) S T ⟨{ pool with m_stream := [255, 255, 255, 255] ++ rest }, mem⟩ =
      some (none, ⟨{ pool with m_stream := rest }, mem⟩) ∧
    idLoadS (fuel + 1) S T ⟨{ pool with m_stream := [255, 255, 255, 255] ++ rest }, mem⟩ =
      some (none, ⟨{ pool with m_stream := rest }, mem⟩) ∧
    HelperPointer.load (fuel + 1) S k T
        ⟨{ pool with m_stream := [255, 255, 255, 255] ++ rest }, mem⟩ =
      some (none, ⟨{ pool with m_stream := rest }, mem⟩) := by
  have henc : encodeInt 4 (-1) = [255, 255, 255, 255] := by decide
  have hread : readInt 4 { pool with m_stream := [255, 255, 255, 255] ++ rest } =
      (-1, { pool with m_stream := rest }) := by
    have := readInt_encodeInt 4 (-1) (by decide)
      { pool with m_stream := [255, 255, 255, 255] ++ rest } rest (by rw [henc])
    simpa using this
  have h1 : storeSharedObject (fuel + 1) heap pool none =
      some { pool with m_stream := pool.m_stream ++ [255, 255, 255, 255] } := by
    simp only [storeSharedObject, writeInt, henc]
  have h2 : idLoad (fuel + 1) S T ⟨{ pool with m_stream := [255, 255, 255, 255] ++ rest }, mem⟩ =
      some (none, ⟨{ pool with m_stream := rest }, mem⟩) := by
    rw [idLoad_unfold]
    simp only [hread]
    simp
  have h3 : idLoadS (fuel + 1) S T ⟨{ pool with m_stream := [255, 255, 255, 255] ++ rest }, mem⟩ =
      some (none, ⟨{ pool with m_stream := rest }, mem⟩) := by
    rw [idLoadS_unfold]
    simp only [hread]
    simp
  refine ⟨henc, h1, ?_, h2, h3, ?_⟩
  · cases k <;> exact h1
  · cases k
    · exact h3
    · exact h2
    · exact h2

/-- **C4** Sequence round trip.  For a sequence of round-trippable elements,
`store` writes the element count as a four-byte integer and then stores the
elements in order; it returns whenever storing elements does; and `load` on the
bytes written, into any destination `dst`, returns exactly the original
sequence, having consumed exactly those bytes. -/
theorem sequence_round_trip {α : Type} {storeElem : α → PersistentPool → Option PersistentPool}
    {loadElem : ReadSide → Option (α × ReadSide)} {Valid : α → Prop}
    {Rel : PersistentPool → ReadSide → Prop} (rt : RoundTrips storeElem loadElem Valid Rel)
    (xs : List α) (hv : ∀ x ∈ xs, Valid x) (hlen : xs.length < 2 ^ 31) (w : PersistentPool) :
    HelperSimpleContainer.store storeElem xs w =
      xs.foldlM (fun pool x => storeElem x pool)
        { w with m_stream := w.m_stream ++ encodeInt 4 (xs.length : Int) } ∧
    (encodeInt 4 (xs.length : Int)).length = 4 ∧
    ((∀ x p, ∃ p1, storeElem x p = some p1) →
      ∃ w1, HelperSimpleContainer.store storeElem xs w = some w1) ∧
    ∀ w1, HelperSimpleContainer.store storeElem xs w = some w1 →
      ∃ out, w1.m_stream = w.m_stream ++ (encodeInt 4 (xs.length : Int) ++ out) ∧
        ∀ (dst : List α) (r : ReadSide) (rest : List Nat), Rel w r →
          r.pool.m_stream = encodeInt 4 (xs.length : Int) ++ out ++ rest →
          ∃ r1, HelperSimpleContainer.load loadElem dst r = some (xs, r1) ∧
            r1.pool.m_stream = rest ∧ Rel w1 r1 := by
  refine ⟨rfl, encodeInt_length _ _, fun ht => foldlM_total storeElem ht xs _, ?_⟩
  intro w1 h
  obtain ⟨out, ho, hl⟩ := pushBackLoop_roundtrip rt xs [] _ w1 hv h
  refine ⟨out, by rw [ho]; simp [HelperIntegral.store, writeInt], ?_⟩
  intro dst r rest hrel hr
  have hread := readInt_encodeInt 4 (xs.length : Int) (inRange_length hlen) r.pool (out ++ rest)
    (by rw [hr, List.append_assoc])
  obtain ⟨r1, hl1, hs1, hrel1⟩ := hl { r with pool := { r.pool with m_stream := out ++ rest } }
    rest (rt.rel_stream w r _ _ hrel) rfl
  refine ⟨r1, ?_, hs1, hrel1⟩
  simp only [HelperSimpleContainer.load, HelperIntegral.load, hread, Int.toNat_ofNat,
    Container.clear]
  simpa using hl1

/-- The instance of `sequence_round_trip` for the sequence `[1, -2, 3]` of
`int`. -/
theorem sequence_round_trip_witness :
    ((∀ x ∈ [1, -2, 3], InRange 4 x) ∧ [1, -2, (3 : Int)].length < 2 ^ 31) ∧
    (HelperSimpleContainer.store storeInt32 [1, -2, 3] emptyPool =
      [1, -2, (3 : Int)].foldlM (fun pool x => storeInt32 x pool)
        { emptyPool with
          m_stream := emptyPool.m_stream ++ encodeInt 4 ([1, -2, (3 : Int)].length : Int) } ∧
    (encodeInt 4 ([1, -2, (3 : Int)].length : Int)).length = 4 ∧
    ((∀ x p, ∃ p1, storeInt32 x p = some p1) →
      ∃ w1, HelperSimpleContainer.store storeInt32 [1, -2, 3] emptyPool = some w1) ∧
    ∀ w1, HelperSimpleContainer.store storeInt32 [1, -2, 3] emptyPool = some w1 →
      ∃ out, w1.m_stream =
          emptyPool.m_stream ++ (encodeInt 4 ([1, -2, (3 : Int)].length : Int) ++ out) ∧
        ∀ (dst : List Int) (r : ReadSide) (rest : List Nat), True →
          r.pool.m_stream = encodeInt 4 ([1, -2, (3 : Int)].length : Int) ++ out ++ rest →
          ∃ r1, HelperSimpleContainer.load loadInt32 dst r = some ([1, -2, 3], r1) ∧
            r1.pool.m_stream = rest ∧ True) :=
  ⟨⟨by decide, by decide⟩,
    sequence_round_trip int32_roundTrips [1, -2, 3] (by decide) (by decide) emptyPool⟩

/-- The bytes of the sequence `[1, -2, 3]` and what loading them into a
destination holding `[9, 9]` gives. -/
theorem sequence_example :
    (HelperSimpleContainer.store storeInt32 [1, -2, 3] emptyPool).map (fun w => w.m_stream) =
      some [0, 0, 0, 3, 0, 0, 0, 1, 255, 255, 255, 254, 0, 0, 0, 3] ∧
    (HelperSimpleContainer.load loadInt32 [9, 9]
        ⟨{ emptyPool with
            m_stream := [0, 0, 0, 3, 0, 0, 0, 1, 255, 255, 255, 254, 0, 0, 0, 3] }, []⟩).map
        (fun res => (res.1, res.2.pool.m_stream)) = some ([1, -2, 3], []) := by
  constructor <;> decide

/-- **C5** Mapping round trip.  Let `m` be a mapping (its entries, keys
distinct) and `its` the order in which the container iterates over it.  For
`QMap`/`QHash` and for `std::unordered_map`, `store` writes the size as a
four-byte integer and then, for each entry in iteration order, the key
immediately followed by the value, and returns whenever storing keys and
values does; `load` on the bytes written, into any
destination, returns a mapping with exactly the entries of `m`: the same
key/value associations whatever the iteration order was. -/
theorem mapping_round_trip {κ ν : Type} [DecidableEq κ]
    {storeKey : κ → PersistentPool → Option PersistentPool}
    {loadKey : ReadSide → Option (κ × ReadSide)} {ValidK : κ → Prop}
    {storeValue : ν → PersistentPool → Option PersistentPool}
    {loadValue : ReadSide → Option (ν × ReadSide)} {ValidV : ν → Prop}
    {Rel : PersistentPool → ReadSide → Prop} (rtk : RoundTrips storeKey loadKey ValidK Rel)
    (rtv : RoundTrips storeValue loadValue ValidV Rel) (m its : List (κ × ν))
    (hnd : (m.map Prod.fst).Nodup) (hperm : its.Perm m)
    (hv : ∀ e ∈ m, ValidK e.1 ∧ ValidV e.2) (hlen : m.length < 2 ^ 31) (w : PersistentPool)
    (tmp : κ × ν) :
    (HelperKeyValueContainer.store storeKey storeValue its w =
        its.foldlM (fun pool e => (storeKey e.1 pool).bind (storeValue e.2))
          { w with m_stream := w.m_stream ++ encodeInt 4 (m.length : Int) } ∧
      ((∀ x p, ∃ p1, storeKey x p = some p1) → (∀ x p, ∃ p1, storeValue x p = some p1) →
        ∃ w1, HelperKeyValueContainer.store storeKey storeValue its w = some w1) ∧
      ∀ w1, HelperKeyValueContainer.store storeKey storeValue its w = some w1 →
        ∃ out, w1.m_stream = w.m_stream ++ (encodeInt 4 (m.length : Int) ++ out) ∧
          ∀ (dst : List (κ × ν)) (r : ReadSide) (rest : List Nat), Rel w r →
            r.pool.m_stream = encodeInt 4 (m.length : Int) ++ out ++ rest →
            ∃ res r1, HelperKeyValueContainer.load loadKey loadValue dst r = some (res, r1) ∧
              r1.pool.m_stream = rest ∧ Rel w1 r1 ∧ res.Perm m ∧
              ∀ key, res.lookup key = m.lookup key) ∧
    (HelperUnorderedMap.store (HelperPair.store storeKey storeValue) its w =
        its.foldlM (fun pool e => (storeKey e.1 pool).bind (storeValue e.2))
          { w with m_stream := w.m_stream ++ encodeInt 4 (m.length : Int) } ∧
      ((∀ x p, ∃ p1, storeKey x p = some p1) → (∀ x p, ∃ p1, storeValue x p = some p1) →
        ∃ w1, HelperUnorderedMap.store (HelperPair.store storeKey storeValue) its w =
          some w1) ∧
      ∀ w1, HelperUnorderedMap.store (HelperPair.store storeKey storeValue) its w = some w1 →
        ∃ out, w1.m_stream = w.m_stream ++ (encodeInt 4 (m.length : Int) ++ out) ∧
          ∀ (dst : List (κ × ν)) (r : ReadSide) (rest : List Nat), Rel w r →
            r.pool.m_stream = encodeInt 4 (m.length : Int) ++ out ++ rest →
            ∃ res r1, HelperUnorderedMap.load
                  (HelperPair.load (fun _ => loadKey) (fun _ => loadValue) tmp) dst r =
                some (res, r1) ∧
              r1.pool.m_stream = rest ∧ Rel w1 r1 ∧ res.Perm m ∧
              ∀ key, res.lookup key = m.lookup key) := by
  have hl : its.length = m.length := hperm.length_eq
  have hvi : ∀ e ∈ its, ValidK e.1 ∧ ValidV e.2 := fun e he => hv e (hperm.mem_iff.1 he)
  have hndi : (([] ++ its).map Prod.fst).Nodup := by
    simpa using (hperm.map Prod.fst).nodup_iff.2 hnd
  have hrange := inRange_length hlen
  have htot : (∀ x p, ∃ p1, storeKey x p = some p1) →
      (∀ x p, ∃ p1, storeValue x p = some p1) → ∀ e p,
      ∃ p1, (fun (e : κ × ν) pool => (storeKey e.1 pool).bind (storeValue e.2)) e p = some p1 := by
    intro hk hvv e p
    obtain ⟨pk, hpk⟩ := hk e.1 p
    obtain ⟨pv, hpv⟩ := hvv e.2 pk
    exact ⟨pv, by simp only [hpk, Option.some_bind, hpv]⟩
  refine ⟨⟨?_, ?_, ?_⟩, ⟨?_, ?_, ?_⟩⟩
  · simp only [HelperKeyValueContainer.store, HelperIntegral.store, writeInt, hl]
  · intro hk hvv
    exact foldlM_total _ (htot hk hvv) its _
  · intro w1 h
    obtain ⟨out, ho, hload⟩ := insertLoop_roundtrip rtk rtv its [] _ w1 hvi h
    refine ⟨out, by rw [ho]; simp [HelperIntegral.store, writeInt, hl], ?_⟩
    intro dst r rest hrel hr
    have hread := readInt_encodeInt 4 (m.length : Int) hrange r.pool (out ++ rest)
      (by rw [hr, List.append_assoc])
    obtain ⟨r1, hl1, hs1, hrel1⟩ := hload { r with pool := { r.pool with m_stream := out ++ rest } }
      rest (rtk.rel_stream w r _ _ hrel) rfl
    rw [foldl_insert_nodup its [] hndi, List.nil_append] at hl1
    refine ⟨its, r1, ?_, hs1, hrel1, hperm, lookup_perm hnd hperm⟩
    simp only [HelperKeyValueContainer.load, HelperIntegral.load, hread, Int.toNat_ofNat,
      Container.clear, ← hl]
    exact hl1
  · simp only [HelperUnorderedMap.store, HelperIntegral.store, writeInt, hl, HelperPair.store]
  · intro hk hvv
    exact foldlM_total _ (htot hk hvv) its _
  · intro w1 h
    obtain ⟨out, ho, hload⟩ := insertPairLoop_roundtrip rtk rtv tmp its [] _ w1 hvi h
    refine ⟨out, by rw [ho]; simp [HelperIntegral.store, writeInt, hl], ?_⟩
    intro dst r rest hrel hr
    have hread := readUInt_encodeInt m.length (by omega) r.pool (out ++ rest)
      (by rw [hr, List.append_assoc])
    obtain ⟨r1, hl1, hs1, hrel1⟩ := hload { r with pool := { r.pool with m_stream := out ++ rest } }
      rest (rtk.rel_stream w r _ _ hrel) rfl
    rw [foldl_uinsert_nodup its [] hndi, List.nil_append] at hl1
    refine ⟨its, r1, ?_, hs1, hrel1, hperm, lookup_perm hnd hperm⟩
    simp only [HelperUnorderedMap.load, hread, Container.clear, ← hl]
    exact hl1

/-- The instance of `mapping_round_trip` for the mapping `{1 -> 10, 2 -> 20}`
of `int` to `int`, iterated as `2, 1`. -/
theorem mapping_round_trip_witness :
    ((([(1, 10), (2, 20)] : List (Int × Int)).map Prod.fst).Nodup ∧
      ([(2, 20), (1, 10)] : List (Int × Int)).Perm [(1, 10), (2, 20)] ∧
      (∀ e ∈ ([(1, 10), (2, 20)] : List (Int × Int)), InRange 4 e.1 ∧ InRange 4 e.2) ∧
      ([(1, 10), (2, 20)] : List (Int × Int)).length < 2 ^ 31) ∧
    ((HelperKeyValueContainer.store storeInt32 storeInt32 [(2, 20), (1, 10)] emptyPool =
        ([(2, 20), (1, 10)] : List (Int × Int)).foldlM
          (fun pool e => (storeInt32 e.1 pool).bind (storeInt32 e.2))
          { emptyPool with
            m_stream := emptyPool.m_stream ++
              encodeInt 4 (([(1, 10), (2, 20)] : List (Int × Int)).length : Int) } ∧
      ((∀ x p, ∃ p1, storeInt32 x p = some p1) → (∀ x p, ∃ p1, storeInt32 x p = some p1) →
        ∃ w1, HelperKeyValueContainer.store storeInt32 storeInt32 [(2, 20), (1, 10)] emptyPool =
          some w1) ∧
      ∀ w1, HelperKeyValueContainer.store storeInt32 storeInt32 [(2, 20), (1, 10)] emptyPool =
          some w1 →
        ∃ out, w1.m_stream = emptyPool.m_stream ++
            (encodeInt 4 (([(1, 10), (2, 20)] : List (Int × Int)).length : Int) ++ out) ∧
          ∀ (dst : List (Int × Int)) (r : ReadSide) (rest : List Nat), True →
            r.pool.m_stream =
              encodeInt 4 (([(1, 10), (2, 20)] : List (Int × Int)).length : Int) ++ out ++ rest →
            ∃ res r1, HelperKeyValueContainer.load loadInt32 loadInt32 dst r = some (res, r1) ∧
              r1.pool.m_stream = rest ∧ True ∧ res.Perm [(1, 10), (2, 20)] ∧
              ∀ key, res.lookup key = ([(1, 10), (2, 20)] : List (Int × Int)).lookup key) ∧
    (HelperUnorderedMap.store (HelperPair.store storeInt32 storeInt32) [(2, 20), (1, 10)]
          emptyPool =
        ([(2, 20), (1, 10)] : List (Int × Int)).foldlM
          (fun pool e => (storeInt32 e.1 pool).bind (storeInt32 e.2))
          { emptyPool with
            m_stream := emptyPool.m_stream ++
              encodeInt 4 (([(1, 10), (2, 20)] : List (Int × Int)).length : Int) } ∧
      ((∀ x p, ∃ p1, storeInt32 x p = some p1) → (∀ x p, ∃ p1, storeInt32 x p = some p1) →
        ∃ w1, HelperUnorderedMap.store (HelperPair.store storeInt32 storeInt32)
          [(2, 20), (1, 10)] emptyPool = some w1) ∧
      ∀ w1, HelperUnorderedMap.store (HelperPair.store storeInt32 storeInt32)
          [(2, 20), (1, 10)] emptyPool = some w1 →
        ∃ out, w1.m_stream = emptyPool.m_stream ++
            (encodeInt 4 (([(1, 10), (2, 20)] : List (Int × Int)).length : Int) ++ out) ∧
          ∀ (dst : List (Int × Int)) (r : ReadSide) (rest : List Nat), True →
            r.pool.m_stream =
              encodeInt 4 (([(1, 10), (2, 20)] : List (Int × Int)).length : Int) ++ out ++ rest →
            ∃ res r1, HelperUnorderedMap.load
                  (HelperPair.load (fun _ => loadInt32) (fun _ => loadInt32) (0, 0)) dst r =
                some (res, r1) ∧
              r1.pool.m_stream = rest ∧ True ∧ res.Perm [(1, 10), (2, 20)] ∧
              ∀ key, res.lookup key = ([(1, 10), (2, 20)] : List (Int × Int)).lookup key)) :=
  ⟨⟨by decide, by decide, by decide, by decide⟩,
    mapping_round_trip int32_roundTrips int32_roundTrips [(1, 10), (2, 20)] [(2, 20), (1, 10)]
      (by decide) (by decide) (by decide) (by decide) emptyPool (0, 0)⟩

/-- The bytes of the mapping `{2 -> 20, 1 -> 10}` iterated in that order and
what loading them into a destination holding `{7 -> 70}` gives. -/
theorem mapping_example :
    (HelperKeyValueContainer.store storeInt32 storeInt32 [(2, 20), (1, 10)] emptyPool).map
        (fun w => w.m_stream) =
      some [0, 0, 0, 2, 0, 0, 0, 2, 0, 0, 0, 20, 0, 0, 0, 1, 0, 0, 0, 10] ∧
    (HelperKeyValueContainer.load loadInt32 loadInt32 [(7, 70)]
        ⟨{ emptyPool with
            m_stream := [0, 0, 0, 2, 0, 0, 0, 2, 0, 0, 0, 20, 0, 0, 0, 1, 0, 0, 0, 10] },
          []⟩).map (fun res => res.1) = some [(2, 20), (1, 10)] := by
  constructor <;> decide

/-- **C6** (as amended) Truncated input is not rejected.  Store a sequence `xs`
of 32-bit integers and cut the bytes written after the first `k` bytes, `k`
less than their number.  Loading the sequence from the cut stream completes
normally: it returns a value, leaves the stream drained with status
`ReadPastEnd` (which the pool does not inspect) and allocates nothing.  The
value is the empty sequence when the count itself is cut, and otherwise has
the stored length: the elements that are fully present followed by zeros.
Likewise a single integer cut short loads as `0`. -/
theorem truncated_load_completes (xs : List Int) (hv : ∀ x ∈ xs, InRange 4 x)
    (hlen : xs.length < 2 ^ 31) (pool : PersistentPool) (k : Nat) (dst : List Int) (mem : Heap)
    (hk : k < 4 + 4 * xs.length) :
    HelperSimpleContainer.store storeInt32 xs { pool with m_stream := [] } =
      some { pool with m_stream := encodeInt 4 (xs.length : Int) ++ encodeInts xs } ∧
    (encodeInt 4 (xs.length : Int) ++ encodeInts xs).length = 4 + 4 * xs.length ∧
    (∃ r1, HelperSimpleContainer.load loadInt32 dst
          ⟨{ pool with
              m_stream := (encodeInt 4 (xs.length : Int) ++ encodeInts xs).take k }, mem⟩ =
        some (if k < 4 then []
          else xs.take ((k - 4) / 4) ++ List.replicate (xs.length - (k - 4) / 4) 0, r1) ∧
      r1.pool.m_status = Status.ReadPastEnd ∧ r1.pool.m_stream = [] ∧ r1.heap = mem) ∧
    ∀ (v : Int) (j : Nat), j < 4 →
      HelperIntegral.load 4 ⟨{ pool with m_stream := (encodeInt 4 v).take j }, mem⟩ =
        (0, ⟨{ pool with m_stream := [], m_status := Status.ReadPastEnd }, mem⟩) := by
  have hl4 := encodeInt_length 4 (xs.length : Int)
  refine ⟨?_, ?_, ?_, ?_⟩
  · obtain ⟨w1, h1⟩ := foldlM_total storeInt32 (fun x p => ⟨_, rfl⟩) xs
      (HelperIntegral.store 4 (xs.length : Int) { pool with m_stream := [] })
    have := store_ints_stream xs _ w1 h1
    simp only [HelperSimpleContainer.store, h1, this]
    simp [HelperIntegral.store, writeInt]
  · simp [hl4, encodeInts_length]
  · by_cases h4 : k < 4
    · have hshort : ((encodeInt 4 (xs.length : Int) ++ encodeInts xs).take k).length < 4 := by
        rw [List.length_take]
        omega
      have hrs := readInt_short 4
        { pool with m_stream := (encodeInt 4 (xs.length : Int) ++ encodeInts xs).take k } hshort
      refine ⟨⟨{ pool with m_stream := [], m_status := Status.ReadPastEnd }, mem⟩, ?_, rfl, rfl, rfl⟩
      simp only [HelperSimpleContainer.load, HelperIntegral.load, if_pos h4, hrs]
      rfl
    · have hs : (encodeInt 4 (xs.length : Int) ++ encodeInts xs).take k =
          encodeInt 4 (xs.length : Int) ++ (encodeInts xs).take (k - 4) := by
        rw [List.take_append_eq_append_take, hl4, List.take_of_length_le (by omega)]
      have hread := readInt_encodeInt 4 (xs.length : Int) (inRange_length hlen)
        { pool with m_stream := (encodeInt 4 (xs.length : Int) ++ encodeInts xs).take k }
        ((encodeInts xs).take (k - 4)) hs
      obtain ⟨r1, hl1, h1, h2, h3⟩ := pushBackLoop_truncated xs [] (k - 4)
        ⟨{ pool with m_stream := (encodeInts xs).take (k - 4) }, mem⟩ hv (by omega) rfl
      refine ⟨r1, ?_, h1, h2, h3⟩
      simp only [HelperSimpleContainer.load, HelperIntegral.load, hread, Int.toNat_ofNat,
        Container.clear, if_neg h4]
      simpa using hl1
  · intro v j hj
    have hshort : ((encodeInt 4 v).take j).length < 4 := by
      rw [List.length_take]
      omega
    have hrs := readInt_short 4 { pool with m_stream := (encodeInt 4 v).take j } hshort
    simp only [HelperIntegral.load, hrs]

/-- The instance of `truncated_load_completes` for the sequence `[5, 6]` cut
after ten of its twelve bytes. -/
theorem truncated_load_completes_witness :
    ((∀ x ∈ [5, (6 : Int)], InRange 4 x) ∧ [5, (6 : Int)].length < 2 ^ 31 ∧
      10 < 4 + 4 * [5, (6 : Int)].length) ∧
    (HelperSimpleContainer.store storeInt32 [5, 6] { emptyPool with m_stream := [] } =
      some { emptyPool with
        m_stream := encodeInt 4 ([5, (6 : Int)].length : Int) ++ encodeInts [5, 6] } ∧
    (encodeInt 4 ([5, (6 : Int)].length : Int) ++ encodeInts [5, 6]).length =
      4 + 4 * [5, (6 : Int)].length ∧
    (∃ r1, HelperSimpleContainer.load loadInt32 [9]
          ⟨{ emptyPool with
              m_stream :=
                (encodeInt 4 ([5, (6 : Int)].length : Int) ++ encodeInts [5, 6]).take 10 },
            []⟩ =
        some (if 10 < 4 then []
          else [5, (6 : Int)].take ((10 - 4) / 4) ++
            List.replicate ([5, (6 : Int)].length - (10 - 4) / 4) 0, r1) ∧
      r1.pool.m_status = Status.ReadPastEnd ∧ r1.pool.m_stream = [] ∧ r1.heap = []) ∧
    ∀ (v : Int) (j : Nat), j < 4 →
      HelperIntegral.load 4 ⟨{ emptyPool with m_stream := (encodeInt 4 v).take j }, []⟩ =
        (0, ⟨{ emptyPool with m_stream := [], m_status := Status.ReadPastEnd }, []⟩)) :=
  ⟨⟨by decide, by decide, by decide⟩,
    truncated_load_completes [5, 6] (by decide) (by decide) emptyPool 10 [9] [] (by decide)⟩

/-- **C6** (counterexample) The claim as stated fails.  The integer `5` is
stored as the bytes `00 00 00 05`; loading an integer from the first three of
them returns `0`, a value that was not in the stream.  The sequence `[5, 6]`
is stored as twelve bytes; loading a sequence from the first ten of them
returns `[5, 0]`.  Neither load fails; the only trace is the status of the
stream. -/
theorem truncated_load_counterexample :
    (HelperIntegral.store 4 5 emptyPool).m_stream = [0, 0, 0, 5] ∧
    HelperIntegral.load 4 ⟨{ emptyPool with m_stream := [0, 0, 0] }, []⟩ =
      (0, ⟨{ emptyPool with m_stream := [], m_status := Status.ReadPastEnd }, []⟩) ∧
    (HelperSimpleContainer.store storeInt32 [5, 6] emptyPool).map (fun w => w.m_stream) =
      some [0, 0, 0, 2, 0, 0, 0, 5, 0, 0, 0, 6] ∧
    HelperSimpleContainer.load loadInt32 []
        ⟨{ emptyPool with m_stream := [0, 0, 0, 2, 0, 0, 0, 5, 0, 0] }, []⟩ =
      some ([5, 0], ⟨{ emptyPool with m_stream := [], m_status := Status.ReadPastEnd }, []⟩) := by
  refine ⟨by decide, by decide, by decide, by decide⟩

/-- **C7** Identity-record invariant of a write session.  In every state
reached from a cleared pool by store calls in which the counter
`m_lastStoredObjectId`, an `int`, has not gone past `INT_MAX`: two addresses
never share an id
and an address has one id; the ids recorded are `0, 1, ..., n - 1`, in the
order the addresses were first written, where `n` is the value of the counter
`m_lastStoredObjectId`; no recorded id is negative, so `-1` is never assigned,
and every recorded id is a value of `int`; and whatever is stored later in
the session, as long as the counter stays within `int`, a recorded address
keeps its id. -/
theorem identity_record_invariant (w : PersistentPool) (hs : WriteSession w)
    (hb : w.m_lastStoredObjectId < 2 ^ 31) :
    (∀ a b i, (a, i) ∈ w.m_storageIndices → (b, i) ∈ w.m_storageIndices → a = b) ∧
    (∀ a i j, (a, i) ∈ w.m_storageIndices → (a, j) ∈ w.m_storageIndices → i = j) ∧
    0 ≤ w.m_lastStoredObjectId ∧
    w.m_storageIndices.map Prod.snd =
      (List.range w.m_lastStoredObjectId.toNat).map Int.ofNat ∧
    (∀ i, (∃ a, (a, i) ∈ w.m_storageIndices) ↔ 0 ≤ i ∧ i < w.m_lastStoredObjectId) ∧
    (∀ a, (a, -1) ∉ w.m_storageIndices) ∧
    (∀ a i, (a, i) ∈ w.m_storageIndices → InRange 4 i) ∧
    ∀ w1, Relation.ReflTransGen WriteStep w w1 → w1.m_lastStoredObjectId < 2 ^ 31 →
      ∀ a i, (a, i) ∈ w.m_storageIndices →
        (a, i) ∈ w1.m_storageIndices ∧ QHash.value w1.m_storageIndices a (-1) = i := by
  have inv := hs.inv
  refine ⟨fun a b i ha hb => inv.inj ha hb, ?_, inv.nonneg, inv.ids, ?_, ?_, ?_, ?_⟩
  · intro a i j hi hj
    rw [← QHash.value_of_mem _ _ i (-1) inv.nodup hi, ← QHash.value_of_mem _ _ j (-1) inv.nodup hj]
  · intro i
    constructor
    · rintro ⟨a, ha⟩
      exact inv.id_bounds ha
    · rintro ⟨h0, h1⟩
      have hm : i ∈ w.m_storageIndices.map Prod.snd := by
        rw [inv.ids]
        refine List.mem_map.2 ⟨i.toNat, List.mem_range.2 (by omega), ?_⟩
        simp only [Int.ofNat_eq_coe]
        omega
      obtain ⟨⟨a, j⟩, hin, rfl⟩ := List.mem_map.1 hm
      exact ⟨a, hin⟩
  · intro a ha
    have := (inv.id_bounds ha).1
    omega
  · intro a i hi
    obtain ⟨h0, h1⟩ := inv.id_bounds hi
    exact inRange_id h0 (by omega)
  · intro w1 hsteps _ a i hi
    obtain ⟨hs1, hpre⟩ := hs.later hsteps
    exact ⟨hpre.subset hi, QHash.value_of_mem _ _ i (-1) hs1.inv.nodup (hpre.subset hi)⟩

/-- The instance of `identity_record_invariant` for the state reached by
storing the two-object cycle. -/
theorem identity_record_invariant_witness :
    (WriteSession cycleStored ∧ cycleStored.m_lastStoredObjectId < 2 ^ 31) ∧
    ((∀ a b i, (a, i) ∈ cycleStored.m_storageIndices → (b, i) ∈ cycleStored.m_storageIndices →
      a = b) ∧
    (∀ a i j, (a, i) ∈ cycleStored.m_storageIndices → (a, j) ∈ cycleStored.m_storageIndices →
      i = j) ∧
    0 ≤ cycleStored.m_lastStoredObjectId ∧
    cycleStored.m_storageIndices.map Prod.snd =
      (List.range cycleStored.m_lastStoredObjectId.toNat).map Int.ofNat ∧
    (∀ i, (∃ a, (a, i) ∈ cycleStored.m_storageIndices) ↔
      0 ≤ i ∧ i < cycleStored.m_lastStoredObjectId) ∧
    (∀ a, (a, -1) ∉ cycleStored.m_storageIndices) ∧
    (∀ a i, (a, i) ∈ cycleStored.m_storageIndices → InRange 4 i) ∧
    ∀ w1, Relation.ReflTransGen WriteStep cycleStored w1 → w1.m_lastStoredObjectId < 2 ^ 31 →
      ∀ a i, (a, i) ∈ cycleStored.m_storageIndices →
        (a, i) ∈ w1.m_storageIndices ∧ QHash.value w1.m_storageIndices a (-1) = i) :=
  ⟨⟨cycleStored_session, by decide⟩,
    identity_record_invariant cycleStored cycleStored_session (by decide)⟩

/-- **C8** Body written once.  Let `w` be a state of a write session and `log`
the bodies written so far, with the counter `m_lastStoredObjectId`, an `int`,
not past `INT_MAX`.  For every object `a`: if the address is not yet recorded
and the counter can be incremented within `int`, `storeSharedObject` records
it under the current counter value, increments the counter, writes that id
and then the body, that is the members of the object in order (the counter
staying within `int` to the end of the call); if the address is already
recorded, the call appends
the four bytes of its id and changes nothing else, identity map and counter
included, and writes no body.  The bodies a call writes are exactly the
addresses it newly records, so throughout the session the bodies written are
the recorded addresses: all distinct, and as many as the counter says; every
id written is a value of `int`. -/
theorem body_written_once (w : PersistentPool) (log : List Addr) (hs : WriteSessionLog w log)
    (hb : w.m_lastStoredObjectId < 2 ^ 31) (fuel : Nat) (heap : Heap) (a : Addr) :
    (a ∉ w.storedAddrs → w.m_lastStoredObjectId + 1 < 2 ^ 31 →
      storeSharedObject (fuel + 1) heap w (some a) =
        (match heap[a]? with
         | none => none
         | some object =>
           object.fields.foldlM (storeField (storeSharedObject fuel heap)) (registered w a)) ∧
      (registered w a).m_stream = w.m_stream ++ encodeInt 4 w.m_lastStoredObjectId ∧
      (registered w a).m_storageIndices = w.m_storageIndices ++ [(a, w.m_lastStoredObjectId)] ∧
      (registered w a).m_lastStoredObjectId = w.m_lastStoredObjectId + 1 ∧
      InRange 4 w.m_lastStoredObjectId ∧
      ∀ w1, storeSharedObject (fuel + 1) heap w (some a) = some w1 →
        w1.m_lastStoredObjectId < 2 ^ 31 →
        ∃ body rest, w1.m_stream = w.m_stream ++ encodeInt 4 w.m_lastStoredObjectId ++ body ∧
          (a, w.m_lastStoredObjectId) ∈ w1.m_storageIndices ∧
          w.m_lastStoredObjectId < w1.m_lastStoredObjectId ∧
          storeSharedObjectLog (fuel + 1) heap (w, log) (some a) =
            some (w1, log ++ a :: rest) ∧
          w1.storedAddrs = log ++ a :: rest) ∧
    (a ∈ w.storedAddrs →
      storeSharedObject (fuel + 1) heap w (some a) =
        some { w with
          m_stream := w.m_stream ++ encodeInt 4 (QHash.value w.m_storageIndices a (-1)) } ∧
      (encodeInt 4 (QHash.value w.m_storageIndices a (-1))).length = 4 ∧
      (a, QHash.value w.m_storageIndices a (-1)) ∈ w.m_storageIndices ∧
      InRange 4 (QHash.value w.m_storageIndices a (-1)) ∧
      storeSharedObjectLog (fuel + 1) heap (w, log) (some a) =
        some ({ w with
          m_stream := w.m_stream ++ encodeInt 4 (QHash.value w.m_storageIndices a (-1)) },
          log)) ∧
    (storeSharedObjectLog (fuel + 1) heap (w, log) (some a)).map Prod.fst =
      storeSharedObject (fuel + 1) heap w (some a) ∧
    log = w.storedAddrs ∧ log.Nodup ∧ (log.length : Int) = w.m_lastStoredObjectId := by
  obtain ⟨hsess, hlog⟩ := hs.session
  have inv := hsess.inv
  have hleq := storeSharedObjectLog_eq heap (fuel + 1) w log (some a) inv
  refine ⟨?_, ?_, ?_, hlog, hlog ▸ inv.nodup, ?_⟩
  · intro ha _
    have hid := (inv.value_neg_iff a).2 ha
    refine ⟨storeSharedObject_new fuel heap w a hid, rfl, registered_idx ha, rfl,
      inRange_id inv.nonneg hb, ?_⟩
    intro w1 h _
    have h' := h
    rw [storeSharedObject_new fuel heap w a hid] at h
    cases ho : heap[a]? with
    | none => simp [ho] at h
    | some o =>
      simp only [ho] at h
      obtain ⟨e2, -, -, -⟩ := storeFields_spec heap _ (storeSharedObject_spec fuel heap)
        o.fields _ w1 h (registered_inv inv ha)
      obtain ⟨body, hb⟩ := e2.stream
      obtain ⟨rest, hrest⟩ := e2.addrs
      have haddrs : w1.storedAddrs = log ++ a :: rest := by
        rw [← hrest, hlog]
        simp [PersistentPool.storedAddrs, registered_idx ha]
      refine ⟨body, rest, by rw [← hb, registered_stream], ?_, ?_, ?_, haddrs⟩
      · exact e2.idx.subset (by simp [registered_idx ha])
      · have := e2.next
        rw [registered_next] at this
        omega
      · rw [hleq, h', Option.map_some', haddrs, hlog]
        simp
  · intro ha
    have hid : ¬ QHash.value w.m_storageIndices a (-1) < 0 := fun h =>
      (inv.value_neg_iff a).1 h ha
    have hold := storeSharedObject_old fuel heap w a hid
    refine ⟨hold, encodeInt_length _ _, ?_, ?_, ?_⟩
    · obtain ⟨i, hi⟩ := mem_idx_of_mem_addrs ha
      rw [QHash.value_of_mem _ _ i (-1) inv.nodup hi]
      exact hi
    · obtain ⟨i, hi⟩ := mem_idx_of_mem_addrs ha
      rw [QHash.value_of_mem _ _ i (-1) inv.nodup hi]
      obtain ⟨h0, h1⟩ := inv.id_bounds hi
      exact inRange_id h0 (by omega)
    · rw [hleq, hold]
      simp [writeInt, PersistentPool.storedAddrs]
  · rw [hleq]
    cases storeSharedObject (fuel + 1) heap w (some a) <;> rfl
  · rw [hlog, ← inv.length_eq]
    simp [PersistentPool.storedAddrs]

/-- The write session that stores the root of the two-object cycle, with the
two bodies it writes. -/
theorem cycleStored_sessionLog : WriteSessionLog cycleStored [0, 1] :=
  WriteSessionLog.handle 3 cycleHeap _ [] (some 0) _ _ (WriteSessionLog.start emptyPool)
    (by decide)

/-- The instance of `body_written_once` for the state reached by storing the
two-object cycle and the object `B` at address 1, which is recorded there. -/
theorem body_written_once_witness :
    WriteSessionLog cycleStored [0, 1] ∧ cycleStored.m_lastStoredObjectId < 2 ^ 31 ∧
    1 ∈ cycleStored.storedAddrs ∧
    ((1 ∉ cycleStored.storedAddrs → cycleStored.m_lastStoredObjectId + 1 < 2 ^ 31 →
      storeSharedObject (2 + 1) cycleHeap cycleStored (some 1) =
        (match cycleHeap[1]? with
         | none => none
         | some object =>
           object.fields.foldlM (storeField (storeSharedObject 2 cycleHeap))
             (registered cycleStored 1)) ∧
      (registered cycleStored 1).m_stream =
        cycleStored.m_stream ++ encodeInt 4 cycleStored.m_lastStoredObjectId ∧
      (registered cycleStored 1).m_storageIndices =
        cycleStored.m_storageIndices ++ [(1, cycleStored.m_lastStoredObjectId)] ∧
      (registered cycleStored 1).m_lastStoredObjectId = cycleStored.m_lastStoredObjectId + 1 ∧
      InRange 4 cycleStored.m_lastStoredObjectId ∧
      ∀ w1, storeSharedObject (2 + 1) cycleHeap cycleStored (some 1) = some w1 →
        w1.m_lastStoredObjectId < 2 ^ 31 →
        ∃ body rest, w1.m_stream =
            cycleStored.m_stream ++ encodeInt 4 cycleStored.m_lastStoredObjectId ++ body ∧
          (1, cycleStored.m_lastStoredObjectId) ∈ w1.m_storageIndices ∧
          cycleStored.m_lastStoredObjectId < w1.m_lastStoredObjectId ∧
          storeSharedObjectLog (2 + 1) cycleHeap (cycleStored, [0, 1]) (some 1) =
            some (w1, [0, 1] ++ 1 :: rest) ∧
          w1.storedAddrs = [0, 1] ++ 1 :: rest) ∧
    (1 ∈ cycleStored.storedAddrs →
      storeSharedObject (2 + 1) cycleHeap cycleStored (some 1) =
        some { cycleStored with
          m_stream := cycleStored.m_stream ++
            encodeInt 4 (QHash.value cycleStored.m_storageIndices 1 (-1)) } ∧
      (encodeInt 4 (QHash.value cycleStored.m_storageIndices 1 (-1))).length = 4 ∧
      (1, QHash.value cycleStored.m_storageIndices 1 (-1)) ∈ cycleStored.m_storageIndices ∧
      InRange 4 (QHash.value cycleStored.m_storageIndices 1 (-1)) ∧
      storeSharedObjectLog (2 + 1) cycleHeap (cycleStored, [0, 1]) (some 1) =
        some ({ cycleStored with
          m_stream := cycleStored.m_stream ++
            encodeInt 4 (QHash.value cycleStored.m_storageIndices 1 (-1)) },
          [0, 1])) ∧
    (storeSharedObjectLog (2 + 1) cycleHeap (cycleStored, [0, 1]) (some 1)).map Prod.fst =
      storeSharedObject (2 + 1) cycleHeap cycleStored (some 1) ∧
    [0, 1] = cycleStored.storedAddrs ∧ [0, 1].Nodup ∧
    (([0, 1] : List Addr).length : Int) = cycleStored.m_lastStoredObjectId) :=
  ⟨cycleStored_sessionLog, by decide, by decide,
    body_written_once cycleStored [0, 1] cycleStored_sessionLog (by decide) 2 cycleHeap 1⟩

/-- A first store in a session: storing `B` of the two-object cycle from a
cleared pool writes the id `0`, the body of `B`, the id `1` and the body of
`A`, whose handle back to `B` is written as the id `0` alone. -/
theorem body_written_once_example :
    storeSharedObjectLog 3 cycleHeap (emptyPool.clear, []) (some 1) =
      some ({ emptyPool with
          m_stream := [0, 0, 0, 0, 255, 255, 255, 253, 0, 0, 0, 1, 0, 0, 0, 7, 0, 0, 0, 0],
          m_storageIndices := [(1, 0), (0, 1)], m_lastStoredObjectId := 2 }, [1, 0]) := by
  decide

/-- What a call of `idLoad` does on an id at or above the size of
`m_loadedRaw`, if it returns, and what it does on an id below that size. -/
theorem idLoad_first_sight (fuel : Nat) (S : Schema) (T : Cls) (r : ReadSide) (id : Int)
    (h0 : 0 ≤ id) (h1 : id < 2 ^ 31) (rest : List Nat)
    (hs : r.pool.m_stream = encodeInt 4 id ++ rest) :
    ((r.pool.m_loadedRaw.length : Int) ≤ id →
      ∀ p r1, idLoad (fuel + 1) S T r = some (p, r1) →
        p = some r.heap.length ∧
        r1.pool.m_loadedRaw[id.toNat]? = some (some r.heap.length) ∧
        r.heap <+: r1.heap ∧ r.heap.length < r1.heap.length ∧
        (∃ fs r2, loadFields (loadField (idLoad fuel S) (idLoadS fuel S)) (S T)
            (allocatedRaw S T r id) = some (fs, r2) ∧ r2.pool = r1.pool ∧
          r1.heap[r.heap.length]? = some { cls := T, fields := fs }) ∧
        ∀ r2, Relation.ReflTransGen ReadStep r1 r2 →
          ∀ (fuel2 : Nat) (S2 : Schema) (T2 : Cls) (rest2 : List Nat),
            r2.pool.m_stream = encodeInt 4 id ++ rest2 →
            idLoad (fuel2 + 1) S2 T2 r2 =
              some (some r.heap.length, { r2 with pool := { r2.pool with m_stream := rest2 } })) ∧
    (id < (r.pool.m_loadedRaw.length : Int) →
      idLoad (fuel + 1) S T r =
        some (r.pool.m_loadedRaw.getD id.toNat none,
          { r with pool := { r.pool with m_stream := rest } })) := by
  have hread := readInt_encodeInt 4 id (inRange_id h0 h1) r.pool rest hs
  refine ⟨?_, idLoad_seen fuel S T r id h0 h1 rest hs⟩
  intro hge p r1 h
  have hRS := idLoad_idLoadS_ext fuel S
  have hld : ∀ r ty f r1,
      loadField (idLoad fuel S) (idLoadS fuel S) r ty = some (f, r1) → LoadExt r r1 :=
    fun r ty f r1 h => loadField_ext hRS.1 hRS.2 r ty f r1 h
  have hnlt : ¬ id < (r.pool.m_loadedRaw.length : Int) := by omega
  have hle : r.pool.m_loadedRaw.length ≤ id.toNat := by omega
  rw [idLoad_unfold, hread] at h
  simp only [] at h
  rw [if_neg (by omega), if_neg hnlt] at h
  cases hobj : loadObject (loadField (idLoad fuel S) (idLoadS fuel S)) S T r.heap.length
      (allocatedRaw S T r id) with
  | none => simp [hobj] at h
  | some r3 =>
    simp only [hobj, Option.some.injEq, Prod.mk.injEq] at h
    obtain ⟨hp, hr⟩ := h
    subst hr
    obtain ⟨fs, r2, hf, hr3⟩ := loadObject_some hobj
    have e2 := loadFields_ext hld _ _ _ _ hf
    have hent0 : (allocatedRaw S T r id).pool.m_loadedRaw[id.toNat]? =
        some (some r.heap.length) := by
      simp only [allocatedRaw, hread]
      exact resize_set_get _ _ _ hle
    have hent2 := prefix_getElem? e2.raw hent0
    have hheap2 : r.heap ++ [Obj.create S T] <+: r2.heap := e2.heap
    have hlen2 : r.heap.length < r2.heap.length := by
      have := hheap2.length_le
      simp at this
      omega
    have hent3 : r3.pool.m_loadedRaw[id.toNat]? = some (some r.heap.length) := by
      rw [hr3]
      exact hent2
    refine ⟨hp.symm, hent3, ?_, ?_, ⟨fs, r2, hf, by rw [hr3], ?_⟩, ?_⟩
    · rw [hr3]
      exact (List.prefix_append _ _).trans
        (set_extends_of_append r.heap r2.heap (Obj.create S T) _ hheap2)
    · rw [hr3]
      simpa using hlen2
    · rw [hr3]
      simp [List.getElem?_set_self, hlen2]
    · intro r4 hsteps fuel2 S2 T2 rest2 hs4
      have e4 := ReadSteps.ext_steps hsteps
      have hent4 := prefix_getElem? e4.raw hent3
      have hlt4 : id.toNat < r4.pool.m_loadedRaw.length := by
        by_contra hc
        rw [List.getElem?_eq_none (by omega)] at hent4
        cases hent4
      rw [idLoad_seen fuel2 S2 T2 r4 id h0 h1 rest2 hs4 (by omega)]
      simp only [List.getD_eq_getElem?_getD, hent4, Option.getD_some]

/-- **C9** (as amended) Owning-handle decoding.  `idLoad` decides by the size
of the table, not by whether the id was decoded before.  The id read is below
`INT_MAX`, so that `id + 1` is a value of `int`.  On an id at or above the
size of `m_loadedRaw`, the call returns (given a nesting bound of at
least `loadDepth`), having allocated a fresh instance (the next address of the
memory), recorded it in the table at index `id` and loaded its body into it;
and in every later state of the load session, an `idLoad` that reads the same
id returns that same instance, consuming the four bytes of the id and nothing
else: no allocation, no body read.  On an id below the size of the table,
`idLoad` returns the entry at that index as it is, the instance recorded there
or the null left by a resize, again without allocating or reading a body. -/
theorem owning_handle_decoding (fuel : Nat) (S : Schema) (T : Cls) (r : ReadSide) (id : Int)
    (h0 : 0 ≤ id) (h1 : id < 2 ^ 31 - 1) (rest : List Nat)
    (hs : r.pool.m_stream = encodeInt 4 id ++ rest) :
    ((r.pool.m_loadedRaw.length : Int) ≤ id → loadDepth r ≤ fuel →
      ∃ r1, idLoad (fuel + 1) S T r = some (some r.heap.length, r1) ∧
        r1.pool.m_loadedRaw[id.toNat]? = some (some r.heap.length) ∧
        r.heap <+: r1.heap ∧ r.heap.length < r1.heap.length ∧
        (∃ fs r2, loadFields (loadField (idLoad fuel S) (idLoadS fuel S)) (S T)
            (allocatedRaw S T r id) = some (fs, r2) ∧ r2.pool = r1.pool ∧
          r1.heap[r.heap.length]? = some { cls := T, fields := fs }) ∧
        ∀ r2, Relation.ReflTransGen ReadStep r1 r2 →
          ∀ (fuel2 : Nat) (S2 : Schema) (T2 : Cls) (rest2 : List Nat),
            r2.pool.m_stream = encodeInt 4 id ++ rest2 →
            idLoad (fuel2 + 1) S2 T2 r2 =
              some (some r.heap.length, { r2 with pool := { r2.pool with m_stream := rest2 } })) ∧
    (id < (r.pool.m_loadedRaw.length : Int) →
      idLoad (fuel + 1) S T r =
        some (r.pool.m_loadedRaw.getD id.toNat none,
          { r with pool := { r.pool with m_stream := rest } })) := by
  obtain ⟨hfirst, hseen⟩ := idLoad_first_sight fuel S T r id h0 (by omega) rest hs
  refine ⟨?_, hseen⟩
  intro hge hfuel
  obtain ⟨p, r1, hload⟩ := (idLoad_idLoadS_total S (fuel + 1)).1 T r (by omega)
  obtain ⟨hp, h2, h3, h4, h5, h6⟩ := hfirst hge p r1 hload
  subst hp
  exact ⟨r1, hload, h2, h3, h4, h5, h6⟩

/-- The instance of `owning_handle_decoding` for a state in the middle of a
session, on a class with a number and a pointer, reading the id `1`. -/
theorem owning_handle_decoding_witness :
    ((0 : Int) ≤ 1 ∧ (1 : Int) < 2 ^ 31 - 1 ∧
      decodingState.pool.m_stream = encodeInt 4 1 ++ [0, 0, 0, 7, 255, 255, 255, 255] ∧
      (decodingState.pool.m_loadedRaw.length : Int) ≤ 1 ∧ loadDepth decodingState ≤ 4) ∧
    (((decodingState.pool.m_loadedRaw.length : Int) ≤ 1 → loadDepth decodingState ≤ 4 →
      ∃ r1, idLoad (4 + 1) cycleSchema 0 decodingState =
          some (some decodingState.heap.length, r1) ∧
        r1.pool.m_loadedRaw[(1 : Int).toNat]? = some (some decodingState.heap.length) ∧
        decodingState.heap <+: r1.heap ∧ decodingState.heap.length < r1.heap.length ∧
        (∃ fs r2, loadFields (loadField (idLoad 4 cycleSchema) (idLoadS 4 cycleSchema))
            (cycleSchema 0) (allocatedRaw cycleSchema 0 decodingState 1) = some (fs, r2) ∧
          r2.pool = r1.pool ∧
          r1.heap[decodingState.heap.length]? = some { cls := 0, fields := fs }) ∧
        ∀ r2, Relation.ReflTransGen ReadStep r1 r2 →
          ∀ (fuel2 : Nat) (S2 : Schema) (T2 : Cls) (rest2 : List Nat),
            r2.pool.m_stream = encodeInt 4 1 ++ rest2 →
            idLoad (fuel2 + 1) S2 T2 r2 =
              some (some decodingState.heap.length,
                { r2 with pool := { r2.pool with m_stream := rest2 } })) ∧
    ((1 : Int) < (decodingState.pool.m_loadedRaw.length : Int) →
      idLoad (4 + 1) cycleSchema 0 decodingState =
        some (decodingState.pool.m_loadedRaw.getD (1 : Int).toNat none,
          { decodingState with
            pool := { decodingState.pool with
              m_stream := [0, 0, 0, 7, 255, 255, 255, 255] } }))) :=
  ⟨⟨by decide, by decide, by decide, by decide, by decide⟩,
    owning_handle_decoding 4 cycleSchema 0 decodingState 1 (by decide) (by decide)
      [0, 0, 0, 7, 255, 255, 255, 255] (by decide)⟩

/-- The load of the witness evaluated: the new instance is at address 1, is
recorded at id 1, and holds the number `7` and a null pointer. -/
theorem owning_handle_decoding_example :
    (idLoad 5 cycleSchema 0 decodingState).map
        (fun res => (res.1, res.2.heap, res.2.pool.m_loadedRaw, res.2.pool.m_stream)) =
      some (some 1,
        [{ cls := 0, fields := [.int 3, .handle .shared none] },
          { cls := 0, fields := [.int 7, .handle .shared none] }],
        [some 0, some 1], []) := by
  decide

/-- **C9** (counterexample) The claim as stated fails.  A fresh pool reads the
id `1` first: `idLoad` resizes the table to two slots, leaving slot `0` null,
and records the new instance in slot `1`.  The id `0` has not been decoded in
the session, yet `idLoad` on it returns null and allocates nothing. -/
theorem owning_handle_decoding_counterexample :
    idLoad 1 emptySchema 0 ⟨{ emptyPool with m_stream := [0, 0, 0, 1, 0, 0, 0, 0] }, []⟩ =
      some (some 0,
        ⟨{ emptyPool with m_stream := [0, 0, 0, 0], m_loadedRaw := [none, some 0] },
          [{ cls := 0, fields := [] }]⟩) ∧
    idLoad 1 emptySchema 0
        ⟨{ emptyPool with m_stream := [0, 0, 0, 0], m_loadedRaw := [none, some 0] },
          [{ cls := 0, fields := [] }]⟩ =
      some (none,
        ⟨{ emptyPool with m_stream := [], m_loadedRaw := [none, some 0] },
          [{ cls := 0, fields := [] }]⟩) := by
  constructor <;> decide

/-- **C10** Decode overwrites the destination: what the code does.  The
sequence helper and the two mapping helpers clear the destination first, so
their result is the same for every destination.  `Helper<QProcessEnvironment>::load`
has no such call: it inserts into the environment it is given.  Loading the
four bytes `00 00 00 00`, which is what `store` writes for the empty
environment, into an environment that holds `A=1` leaves `A=1` in it, while
the same bytes loaded into an empty environment give the empty environment;
this holds whatever the string helper is. -/
theorem environment_load_keeps_entries {α κ ν : Type} [DecidableEq κ]
    (storeString : QString → PersistentPool → Option PersistentPool)
    (loadString : ReadSide → Option (QString × ReadSide))
    (loadElem : ReadSide → Option (α × ReadSide)) (loadKey : ReadSide → Option (κ × ReadSide))
    (loadValue : ReadSide → Option (ν × ReadSide))
    (loadPair : ReadSide → Option ((κ × ν) × ReadSide))
    (seq : List α) (map : List (κ × ν)) (r : ReadSide) :
    HelperSimpleContainer.load loadElem seq r = HelperSimpleContainer.load loadElem [] r ∧
    HelperKeyValueContainer.load loadKey loadValue map r =
      HelperKeyValueContainer.load loadKey loadValue [] r ∧
    HelperUnorderedMap.load loadPair map r = HelperUnorderedMap.load loadPair [] r ∧
    HelperQProcessEnvironment.store storeString [] emptyPool =
      some { emptyPool with m_stream := [0, 0, 0, 0] } ∧
    HelperQProcessEnvironment.load loadString [([65], [49])]
        ⟨{ emptyPool with m_stream := [0, 0, 0, 0] }, []⟩ =
      some ([([65], [49])], ⟨emptyPool, []⟩) ∧
    HelperQProcessEnvironment.load loadString []
        ⟨{ emptyPool with m_stream := [0, 0, 0, 0] }, []⟩ =
      some ([], ⟨emptyPool, []⟩) := by
  refine ⟨rfl, rfl, rfl, ?_, ?_, ?_⟩
  · rfl
  · have hread : readInt 4 { emptyPool with m_stream := [0, 0, 0, 0] } = (0, emptyPool) := by
      decide
    simp only [HelperQProcessEnvironment.load, HelperIntegral.load, hread]
    rfl
  · have hread : readInt 4 { emptyPool with m_stream := [0, 0, 0, 0] } = (0, emptyPool) := by
      decide
    simp only [HelperQProcessEnvironment.load, HelperIntegral.load, hread]
    rfl

/-- **C11** (duplicate keys on load).  The stream holds a count-prefixed list
of pairs of 32-bit integers in which the key `k` stands at two positions,
its first with the value `v1` and its last with `v2`.  The `QMap`/`QHash`
helper, which calls `container.insert(key, value)`, loads a mapping that gives
`k` the later value `v2`.  The `std::unordered_map` helper, which calls
`map.insert(pair)`, loads a mapping that gives `k` the earlier value `v1`:
it is not last-write-wins. -/
theorem duplicate_keys_on_load (front mid back : List (Int × Int)) (k v1 v2 : Int)
    (container tmpMap : List (Int × Int)) (tmp : Int × Int) (r : ReadSide) (rest : List Nat)
    (hfront : k ∉ front.map Prod.fst) (hback : k ∉ back.map Prod.fst)
    (hrange : ∀ e ∈ front ++ (k, v1) :: (mid ++ (k, v2) :: back), InRange 4 e.1 ∧ InRange 4 e.2)
    (hlen : (front ++ (k, v1) :: (mid ++ (k, v2) :: back)).length < 2 ^ 31)
    (hs : r.pool.m_stream =
      encodeInt 4 ((front ++ (k, v1) :: (mid ++ (k, v2) :: back)).length : Int) ++
        (encodePairs (front ++ (k, v1) :: (mid ++ (k, v2) :: back)) ++ rest)) :
    (∃ m r1, HelperKeyValueContainer.load loadInt32 loadInt32 container r = some (m, r1) ∧
      r1.pool.m_stream = rest ∧ m.lookup k = some v2) ∧
    (∃ m r1, HelperUnorderedMap.load
        (HelperPair.load (fun _ => loadInt32) (fun _ => loadInt32) tmp) tmpMap r = some (m, r1) ∧
      r1.pool.m_stream = rest ∧ m.lookup k = some v1) := by
  constructor
  · refine ⟨(front ++ (k, v1) :: (mid ++ (k, v2) :: back)).foldl
        (fun c e => QHash.insert c e.1 e.2) [],
      { r with pool := { r.pool with m_stream := rest } }, ?_, rfl, ?_⟩
    · unfold HelperKeyValueContainer.load
      simp only [HelperIntegral.load,
        readInt_encodeInt 4 _ (inRange_length hlen) r.pool _ hs, Int.toNat_ofNat, Container.clear]
      exact insertLoop_pairs _ [] _ rest hrange rfl
    · rw [lookup_foldl_insert]
      have hsplit : front ++ (k, v1) :: (mid ++ (k, v2) :: back) =
          (front ++ (k, v1) :: mid) ++ (k, v2) :: back := by simp
      rw [hsplit, lookup_reverse_split _ _ _ _ hback]
      rfl
  · refine ⟨(front ++ (k, v1) :: (mid ++ (k, v2) :: back)).foldl UnorderedMap.insert [],
      { r with pool := { r.pool with m_stream := rest } }, ?_, rfl, ?_⟩
    · unfold HelperUnorderedMap.load
      simp only [readUInt_encodeInt _ (by omega) r.pool _ hs, Container.clear]
      exact insertPairLoop_pairs tmp _ [] _ rest hrange rfl
    · rw [lookup_foldl_uinsert, lookup_split _ _ _ _ hfront]
      rfl

theorem duplicate_keys_on_load_witness :
    (∃ m r1, HelperKeyValueContainer.load loadInt32 loadInt32 []
        ⟨{ emptyPool with
            m_stream := [0, 0, 0, 2, 0, 0, 0, 1, 0, 0, 0, 10, 0, 0, 0, 1, 0, 0, 0, 20] }, []⟩ =
          some (m, r1) ∧
      r1.pool.m_stream = [] ∧ m.lookup 1 = some 20) ∧
    (∃ m r1, HelperUnorderedMap.load
        (HelperPair.load (fun _ => loadInt32) (fun _ => loadInt32) (0, 0)) []
        ⟨{ emptyPool with
            m_stream := [0, 0, 0, 2, 0, 0, 0, 1, 0, 0, 0, 10, 0, 0, 0, 1, 0, 0, 0, 20] }, []⟩ =
          some (m, r1) ∧
      r1.pool.m_stream = [] ∧ m.lookup 1 = some 10) :=
  duplicate_keys_on_load [] [] [] 1 10 20 [] [] (0, 0) _ []
    (by decide) (by decide) (by decide) (by decide) (by decide)

/-- The two loads of C11 evaluated on the stream `2, (1, 10), (1, 20)`: the
`QHash` holds `1 -> 20`, the `std::unordered_map` holds `1 -> 10`. -/
theorem duplicate_keys_example :
    (HelperKeyValueContainer.load loadInt32 loadInt32 []
        ⟨{ emptyPool with
            m_stream := [0, 0, 0, 2, 0, 0, 0, 1, 0, 0, 0, 10, 0, 0, 0, 1, 0, 0, 0, 20] },
          []⟩).map Prod.fst = some [(1, 20)] ∧
    (HelperUnorderedMap.load (HelperPair.load (fun _ => loadInt32) (fun _ => loadInt32) (0, 0)) []
        ⟨{ emptyPool with
            m_stream := [0, 0, 0, 2, 0, 0, 0, 1, 0, 0, 0, 10, 0, 0, 0, 1, 0, 0, 0, 20] },
          []⟩).map Prod.fst = some [(1, 10)] := by
  constructor <;> decide

/-- **C12** (variadic store and load).  `store(a1, ..., an)` is the calls
`store(a1)`, ..., `store(an)` run in that order, each being the helper of its
argument's type; `load(a1, ..., an)` is the calls `load(a1)`, ..., `load(an)`
run in that order on the stream, each filling its own argument; `store()` and
`load()` leave the pool as it is. -/
theorem variadic_store_load :
    (∀ (args : List StoreArg) (pool : PersistentPool),
      PersistentPool.store args pool =
        args.foldlM (fun p a => PersistentPool.store [a] p) pool) ∧
    (∀ (a : StoreArg) (pool : PersistentPool),
      PersistentPool.store [a] pool = a.helper a.value pool) ∧
    (∀ (args : List LoadArg) (r : ReadSide),
      PersistentPool.load args r = args.foldlM loadNext ([], r)) ∧
    (∀ (a : LoadArg) (r : ReadSide),
      PersistentPool.load [a] r =
        (a.helper a.value r).map (fun x => ([{ a with value := x.1 }], x.2))) ∧
    (∀ pool : PersistentPool, PersistentPool.store [] pool = some pool) ∧
    (∀ r : ReadSide, PersistentPool.load [] r = some ([], r)) := by
  refine ⟨PersistentPool.store_seq, PersistentPool.store_single, ?_,
    PersistentPool.load_single, fun _ => rfl, fun _ => rfl⟩
  intro args r
  rw [PersistentPool.load_seq_from]
  cases PersistentPool.load args r with
  | none => rfl
  | some x => simp

/-- The call `store(5, [1, 2])` of C12 writes the integer and then the
sequence; `load(n, xs)` on those bytes fills `n` with 5 and `xs` with
`[1, 2]`. -/
theorem variadic_example :
    (PersistentPool.store
        [⟨Int, storeInt32, 5⟩, ⟨List Int, HelperSimpleContainer.store storeInt32, [1, 2]⟩]
        emptyPool).map (fun p => p.m_stream) =
      some [0, 0, 0, 5, 0, 0, 0, 2, 0, 0, 0, 1, 0, 0, 0, 2] ∧
    ∃ r1, PersistentPool.load
        [⟨Int, fun _ => loadInt32, 0⟩, ⟨List Int, HelperSimpleContainer.load loadInt32, []⟩]
        ⟨{ emptyPool with m_stream := [0, 0, 0, 5, 0, 0, 0, 2, 0, 0, 0, 1, 0, 0, 0, 2] }, []⟩ =
      some ([⟨Int, fun _ => loadInt32, 5⟩,
          ⟨List Int, HelperSimpleContainer.load loadInt32, [1, 2]⟩], r1) ∧
      r1.pool.m_stream = [] := by
  constructor
  · decide
  · exact ⟨⟨emptyPool, []⟩, rfl, rfl⟩

/-- **C13** (native `long`).  For a `long` of `w` bytes, 4 or 8, and a value
`v` of that type, `Helper<long>::store` appends the eight bytes of `v` as a
64-bit integer (for `w = 4`: four bytes of sign, then the four bytes of `v`),
and `Helper<long>::load` on those bytes returns `v` and consumes exactly them.
A 64-bit value `u` decoded into a `long` of 4 bytes comes out as the value in
the 32-bit range that differs from `u` by a multiple of `2^32`. -/
theorem long_round_trip (w : Nat) (hw : w = 4 ∨ w = 8) (v : Int) (hv : InRange w v)
    (pool : PersistentPool) (r : ReadSide) (rest : List Nat)
    (hs : r.pool.m_stream = encodeInt 8 v ++ rest) :
    HelperLong.store v pool = { pool with m_stream := pool.m_stream ++ encodeInt 8 v } ∧
    (encodeInt 8 v).length = 8 ∧
    (w = 4 → encodeInt 8 v = List.replicate 4 (if v < 0 then 255 else 0) ++ encodeInt 4 v) ∧
    HelperLong.load w r = (v, { r with pool := { r.pool with m_stream := rest } }) ∧
    (∀ (u : Int) (r0 : ReadSide) (rest0 : List Nat), InRange 8 u →
      r0.pool.m_stream = encodeInt 8 u ++ rest0 →
      HelperLong.load 4 r0 =
        (longCast 4 u, { r0 with pool := { r0.pool with m_stream := rest0 } }) ∧
      InRange 4 (longCast 4 u) ∧ (longCast 4 u - u) % 4294967296 = 0) := by
  have h8 : InRange 8 v := by
    rcases hw with hw | hw
    · subst hw; exact inRange_four_eight hv
    · subst hw; exact hv
  refine ⟨rfl, encodeInt_length 8 v, ?_, ?_, ?_⟩
  · intro h4
    subst h4
    exact encodeInt_sign_extend v hv
  · rw [HelperLong.load_encodeInt w v h8 r rest hs, longCast_inRange w v hv]
  · intro u r0 rest0 hu hs0
    exact ⟨HelperLong.load_encodeInt 4 u hu r0 rest0 hs0, longCast_four u⟩

theorem long_round_trip_witness :
    HelperLong.store (-2) emptyPool =
      { emptyPool with m_stream := emptyPool.m_stream ++ encodeInt 8 (-2) } ∧
    (encodeInt 8 (-2)).length = 8 ∧
    (4 = 4 → encodeInt 8 (-2) =
      List.replicate 4 (if (-2 : Int) < 0 then 255 else 0) ++ encodeInt 4 (-2)) ∧
    HelperLong.load 4
        ⟨{ emptyPool with m_stream := [255, 255, 255, 255, 255, 255, 255, 254, 9] }, []⟩ =
      (-2, ⟨{ emptyPool with m_stream := [9] }, []⟩) ∧
    (∀ (u : Int) (r0 : ReadSide) (rest0 : List Nat), InRange 8 u →
      r0.pool.m_stream = encodeInt 8 u ++ rest0 →
      HelperLong.load 4 r0 =
        (longCast 4 u, { r0 with pool := { r0.pool with m_stream := rest0 } }) ∧
      InRange 4 (longCast 4 u) ∧ (longCast 4 u - u) % 4294967296 = 0) :=
  long_round_trip 4 (Or.inl rfl) (-2) (by decide) emptyPool
    ⟨{ emptyPool with m_stream := [255, 255, 255, 255, 255, 255, 255, 254, 9] }, []⟩ [9]
    (by decide)

/-- The conversion of C13 on `2^32 + 5` and on `2^31`, written as `qint64` and
loaded into a `long` of 4 bytes: the results are `5` and `-2^31`. -/
theorem long_narrowing_example :
    (HelperLong.load 4 ⟨HelperLong.store 4294967301 emptyPool, []⟩).1 = 5 ∧
    (HelperLong.load 4 ⟨HelperLong.store 2147483648 emptyPool, []⟩).1 = -2147483648 ∧
    (HelperLong.load 8 ⟨HelperLong.store 4294967301 emptyPool, []⟩).1 = 4294967301 := by
  decide

/-- **C14** (one wire encoding for the three handle kinds).  For every
write-side pool and every address or null, `Helper<std::shared_ptr<T>>::store`,
`Helper<std::unique_ptr<T>>::store` and `Helper<T *>::store` are each the call
`storeSharedObject` on that address: the resulting pool, with its stream, its
identity map and its next-id counter, is the same for the three.  On a
well-typed heap, with a nesting bound above the number of objects not yet
recorded, the three calls return. -/
theorem pointer_store_same_encoding (fuel : Nat) (heap : Heap) (value : Option Addr)
    (pool : PersistentPool) :
    HelperSharedPtr.store fuel heap value pool = storeSharedObject fuel heap pool value ∧
    HelperUniquePtr.store fuel heap value pool = storeSharedObject fuel heap pool value ∧
    HelperRawPtr.store fuel heap value pool = storeSharedObject fuel heap pool value ∧
    (∀ k, HelperPointer.store fuel heap k value pool = storeSharedObject fuel heap pool value) ∧
    (∀ S, heap.wellTyped S = true → IdentityInv pool →
      (∀ a ∈ pool.storedAddrs, a < heap.length) →
      heap.length < pool.storedAddrs.length + fuel → (∀ a, value = some a → a < heap.length) →
      ∃ pool1, HelperSharedPtr.store fuel heap value pool = some pool1 ∧
        HelperUniquePtr.store fuel heap value pool = some pool1 ∧
        HelperRawPtr.store fuel heap value pool = some pool1) := by
  have hs : HelperSharedPtr.store fuel heap value pool = storeSharedObject fuel heap pool value :=
    PersistentPool.store_single _ pool
  have hu : HelperUniquePtr.store fuel heap value pool = storeSharedObject fuel heap pool value :=
    PersistentPool.store_single _ pool
  refine ⟨hs, hu, rfl, ?_, ?_⟩
  · intro k
    cases k <;> rfl
  · intro S hwt inv hv hf hp
    obtain ⟨w1, h⟩ := storeSharedObject_total heap S hwt fuel pool value inv hv hf hp
    exact ⟨w1, hs.trans h, hu.trans h, h⟩

theorem pointer_store_same_encoding_witness :
    HelperSharedPtr.store 3 cycleHeap (some 0) emptyPool.clear = some cycleStored ∧
    HelperUniquePtr.store 3 cycleHeap (some 0) emptyPool.clear = some cycleStored ∧
    HelperRawPtr.store 3 cycleHeap (some 0) emptyPool.clear = some cycleStored ∧
    cycleStored.m_stream = [0, 0, 0, 0, 0, 0, 0, 7, 0, 0, 0, 1, 255, 255, 255, 253, 0, 0, 0, 0] ∧
    cycleStored.m_storageIndices = [(0, 0), (1, 1)] ∧
    cycleStored.m_lastStoredObjectId = 2 := by
  obtain ⟨h1, h2, h3, _⟩ := pointer_store_same_encoding 3 cycleHeap (some 0) emptyPool.clear
  rw [h1, h2, h3]
  decide

/-- **C15** (string interning).  A write session that starts from a cleared
pool stores the strings `xs` in order, by `Helper<QString>::store`; the string
`s` stands at `N >= 1` positions of `xs`, with any other strings in between.
The stores return.  At every position of `s` the store appends the same id,
the one `s` has in the string table at the end of the session, and at the
first position only it appends the characters of `s` after the id: the
characters are written once, the id `N` times.  Loading as many strings as
were stored, by `Helper<QString>::load` with a fresh pool, consumes exactly the
bytes written and returns `xs`, so each of the `N` positions loads a string
equal to `s`. -/
theorem string_interning (s : QString) (xs : List QString) (N : Nat) (hN : 1 ≤ N)
    (hcount : xs.count s = N) (hvalid : ∀ x ∈ xs, ValidString x) (hlen : xs.length < 2 ^ 31)
    (pool0 rpool : PersistentPool) (mem : Heap) (rest : List Nat) :
    ∃ w1 out, xs.foldlM (fun p x => HelperQString.store x p) pool0.clear = some w1 ∧
      w1.m_stream = pool0.m_stream ++ out ∧
      0 ≤ QHash.value w1.m_inverseStringStorage s (-1) ∧
      (∀ front back, xs = front ++ s :: back →
        ∃ wpre, front.foldlM (fun p x => HelperQString.store x p) pool0.clear = some wpre ∧
          (storeString s wpre).m_stream = wpre.m_stream ++
            (encodeInt 4 (QHash.value w1.m_inverseStringStorage s (-1)) ++
              if s ∈ front then [] else encodeBE 4 (2 * s.length) ++ encodeChars s)) ∧
      (∃ front back, xs = front ++ s :: back ∧ s ∉ front) ∧
      ∃ r1, pushBackLoop HelperQString.load xs.length []
          ⟨{ rpool.clear with m_stream := out ++ rest }, mem⟩ = some (xs, r1) ∧
        r1.pool.m_stream = rest := by
  have hmem : s ∈ xs := List.count_pos_iff.1 (by omega)
  obtain ⟨w1, keys1, out, hf, ht1, -, -, -, hmem1, -, hs1, hload⟩ :=
    string_session xs [] pool0.clear rfl rfl hvalid (by simp only [List.length_nil]; omega)
  obtain ⟨i, hi, -⟩ := value_indexed keys1 s (-1) (hmem1 s hmem)
  obtain ⟨r1, hr1, hrest1, -⟩ := hload []
    ⟨{ rpool.clear with m_stream := out ++ rest }, mem⟩ rest rfl rfl
  refine ⟨w1, out, hf, hs1, by rw [ht1, hi]; exact Int.ofNat_nonneg i, ?_,
    exists_first_occurrence s xs hmem, r1, by simpa using hr1, hrest1⟩
  intro front back hxs
  subst hxs
  exact string_position s front back pool0 w1 hvalid hlen hf

theorem string_interning_witness :
    ∃ w1 out, [[97], [98], [97]].foldlM (fun p x => HelperQString.store x p) emptyPool.clear =
        some w1 ∧
      w1.m_stream = emptyPool.m_stream ++ out ∧
      0 ≤ QHash.value w1.m_inverseStringStorage [97] (-1) ∧
      (∀ front back, [[97], [98], [97]] = front ++ [97] :: back →
        ∃ wpre, front.foldlM (fun p x => HelperQString.store x p) emptyPool.clear =
            some wpre ∧
          (storeString [97] wpre).m_stream = wpre.m_stream ++
            (encodeInt 4 (QHash.value w1.m_inverseStringStorage [97] (-1)) ++
              if [97] ∈ front then [] else encodeBE 4 (2 * [97].length) ++ encodeChars [97])) ∧
      (∃ front back, [[97], [98], [97]] = front ++ [97] :: back ∧ [97] ∉ front) ∧
      ∃ r1, pushBackLoop HelperQString.load [[97], [98], [97]].length []
          ⟨{ emptyPool.clear with m_stream := out ++ [7] }, []⟩ =
          some ([[97], [98], [97]], r1) ∧
        r1.pool.m_stream = [7] :=
  string_interning [97] [[97], [98], [97]] 2 (by decide) (by decide) (by decide) (by decide)
    emptyPool emptyPool [] [7]

/-- The session `"a"`, `"b"`, `"a"` of C15 evaluated: the id `0` with the
characters of `"a"`, the id `1` with the characters of `"b"`, and the id `0`
alone; three loads return the three strings. -/
theorem string_interleaved_example :
    ([[97], [98], [97]].foldlM (fun p x => HelperQString.store x p) emptyPool.clear).map
        (fun p => (p.m_stream, p.m_inverseStringStorage, p.m_lastStoredStringId)) =
      some ([0, 0, 0, 0, 0, 0, 0, 2, 0, 97, 0, 0, 0, 1, 0, 0, 0, 2, 0, 98, 0, 0, 0, 0],
        [([97], 0), ([98], 1)], 2) ∧
    (pushBackLoop HelperQString.load 3 []
        ⟨{ emptyPool with
          m_stream := [0, 0, 0, 0, 0, 0, 0, 2, 0, 97, 0, 0, 0, 1, 0, 0, 0, 2, 0, 98,
            0, 0, 0, 0] }, []⟩).map (fun res => (res.1, res.2.pool.m_stringStorage)) =
      some ([[97], [98], [97]], [[97], [98]]) := by
  constructor <;> decide

/-- The scenario of C15 evaluated: `"hello"` stored three times from a cleared
pool gives 26 bytes, one id with the characters and two ids; three loads
return `"hello"` three times. -/
theorem string_interning_example :
    ((List.replicate 3 [104, 101, 108, 108, 111]).foldlM
        (fun p x => HelperQString.store x p) emptyPool.clear).map (fun p => p.m_stream) =
      some [0, 0, 0, 0, 0, 0, 0, 10, 0, 104, 0, 101, 0, 108, 0, 108, 0, 111,
        0, 0, 0, 0, 0, 0, 0, 0] ∧
    (pushBackLoop HelperQString.load 3 []
        ⟨{ emptyPool with
          m_stream := [0, 0, 0, 0, 0, 0, 0, 10, 0, 104, 0, 101, 0, 108, 0, 108, 0, 111,
            0, 0, 0, 0, 0, 0, 0, 0] }, []⟩).map Prod.fst =
      some [[104, 101, 108, 108, 111], [104, 101, 108, 108, 111], [104, 101, 108, 108, 111]] := by
  constructor <;> decide

/-- **C16** (no placeholder for a stored object).  The heap is well typed and
every instance is held through one kind of handle only (`sharedObj` tells
which).  At corresponding points of a write and a read session, a non-null
handle is stored by `storeSharedObject` and loaded by the helper of its kind.
The id read is not negative, and it is either at or above the size of the
table of that kind, in which case the instance just allocated is returned, or
it indexes an entry of that table that holds an instance, which is returned.
In both cases the result is not null, the table holds the instance at the id
afterwards, the objects recorded by the call have their loaded copies, with
each handle redirected to the loaded instance, and the two sessions
correspond again. -/
theorem no_placeholder_returned (heap : Heap) (S : Schema) (sharedObj : Addr → Bool)
    (base : Nat) (hwt : heap.wellTyped S = true) (hka : heap.kindsAgree sharedObj = true)
    (fuel : Nat) (w w1 : PersistentPool) (a : Addr) (k : HandleKind) (c : Cls)
    (hstore : storeSharedObject fuel heap w (some a) = some w1) (inv : IdentityInv w)
    (hb : w1.m_lastStoredObjectId ≤ 2 ^ 31) (hok : HandleOK heap sharedObj k c (some a))
    (r : ReadSide) (out rest : List Nat) (cr : Corr sharedObj base w r)
    (hw : w1.m_stream = w.m_stream ++ out) (hr : r.pool.m_stream = out ++ rest) :
    ∃ id y r1, (readInt 4 r.pool).1 = id ∧ 0 ≤ id ∧
      HelperPointer.load fuel S k c r = some (some y, r1) ∧
      ((((if k.isShared then r.pool.m_loaded else r.pool.m_loadedRaw).length : Int) ≤ id ∧
          y = r.heap.length) ∨
        (if k.isShared then r.pool.m_loaded else r.pool.m_loadedRaw)[id.toNat]? =
          some (some y)) ∧
      (if k.isShared then r1.pool.m_loaded else r1.pool.m_loadedRaw)[id.toNat]? =
        some (some y) ∧
      r1.pool.m_stream = rest ∧ Loaded heap base w w1 r1 ∧ Corr sharedObj base w1 r1 := by
  obtain ⟨id, tl, h0, -, -, hread, hmem1, hval1, hcase⟩ :=
    stored_handle_id fuel hstore inv hb hw hr
  obtain ⟨r1, hl, hs1, -, c1, l1⟩ :=
    sim_main heap S sharedObj base hwt hka fuel w (some a) w1 hstore inv hb k c hok r out rest
      cr hw hr
  have hk : k.isShared = sharedObj a := (hok a rfl).2
  have hy : loadedAddr base w1.m_storageIndices a = base + id.toNat := by
    simp only [loadedAddr, hval1]
  refine ⟨id, base + id.toNat, r1, by rw [hread], h0, ?_, ?_, ?_, hs1, l1, c1⟩
  · rw [HelperPointer.load_eq, hl, Option.map_some', hy]
  · rcases hcase with ⟨-, hnew⟩ | ⟨hold, -⟩
    · left
      subst hnew
      have hlen := cr.heap_len
      constructor
      · cases hsh : k.isShared
        · simpa using cr.len_raw
        · simpa using cr.len_shared
      · have : (base + w.m_lastStoredObjectId.toNat : Nat) = r.heap.length := by omega
        exact this
    · right
      rw [hk]
      exact cr.entry a id hold
  · rw [hk]
    exact c1.entry a id hmem1

theorem no_placeholder_returned_witness :
    ∃ id y r1,
      (readInt 4 (⟨{ emptyPool.clear with m_stream := cycleStored.m_stream }, []⟩ :
        ReadSide).pool).1 = id ∧ 0 ≤ id ∧
      HelperPointer.load 3 cycleSchema .shared 0
          ⟨{ emptyPool.clear with m_stream := cycleStored.m_stream }, []⟩ = some (some y, r1) ∧
      ((((if HandleKind.shared.isShared then
              (⟨{ emptyPool.clear with m_stream := cycleStored.m_stream }, []⟩ :
                ReadSide).pool.m_loaded
            else
              (⟨{ emptyPool.clear with m_stream := cycleStored.m_stream }, []⟩ :
                ReadSide).pool.m_loadedRaw).length : Int) ≤ id ∧
          y = (⟨{ emptyPool.clear with m_stream := cycleStored.m_stream }, []⟩ :
            ReadSide).heap.length) ∨
        (if HandleKind.shared.isShared then
            (⟨{ emptyPool.clear with m_stream := cycleStored.m_stream }, []⟩ :
              ReadSide).pool.m_loaded
          else
            (⟨{ emptyPool.clear with m_stream := cycleStored.m_stream }, []⟩ :
              ReadSide).pool.m_loadedRaw)[id.toNat]? = some (some y)) ∧
      (if HandleKind.shared.isShared then r1.pool.m_loaded else r1.pool.m_loadedRaw)[id.toNat]? =
        some (some y) ∧
      r1.pool.m_stream = [] ∧ Loaded cycleHeap 0 emptyPool.clear cycleStored r1 ∧
      Corr (fun _ => true) 0 cycleStored r1 :=
  no_placeholder_returned cycleHeap cycleSchema (fun _ => true) 0 (by decide) (by decide) 3
    emptyPool.clear cycleStored 0 .shared 0 (by decide) (clear_inv emptyPool) (by decide)
    (by
      intro a ha
      cases ha
      exact ⟨⟨_, rfl, rfl⟩, rfl⟩)
    ⟨{ emptyPool.clear with m_stream := cycleStored.m_stream }, []⟩ cycleStored.m_stream []
    ⟨by decide, by decide, by decide, fun _ _ h => by cases h⟩ (by decide) (by decide)

/-- The load of C16 evaluated on a graph with handles of both kinds, a root
holding a raw pointer to `x` and a shared pointer to `y`: `x` gets id 1 and
`y` id 2, each table has null slots at the ids of the other kind, and both
members of the loaded root hold an instance. -/
theorem no_placeholder_example :
    (storeSharedObject 4
        [{ cls := 0, fields := [.handle .raw (some 1), .handle .shared (some 2)] },
          { cls := 1, fields := [] }, { cls := 1, fields := [] }]
        emptyPool.clear (some 0)).map (fun p => p.m_stream) =
      some [0, 0, 0, 0, 0, 0, 0, 1, 0, 0, 0, 2] ∧
    (idLoad 4 (fun c => if c = 0 then [.handle .raw 1, .handle .shared 1] else []) 0
        ⟨{ emptyPool with m_stream := [0, 0, 0, 0, 0, 0, 0, 1, 0, 0, 0, 2] }, []⟩).map
        (fun x => (x.1, x.2.heap, x.2.pool.m_loadedRaw, x.2.pool.m_loaded)) =
      some (some 0,
        [{ cls := 0, fields := [.handle .raw (some 1), .handle .shared (some 2)] },
          { cls := 1, fields := [] }, { cls := 1, fields := [] }],
        [some 0, some 1], [none, none, some 2]) := by
  constructor <;> decide

/-- **C17** (no sharing across handle kinds).  In the read state `r` the id
`id` has its instance `x` in the shared table `m_loaded` and no instance in
the owning table `m_loadedRaw`; the stream starts with `id`.  Then `idLoadS`
returns `x`, while `idLoad` returns, and never with `x`: when `m_loadedRaw`
has size at most `id`, it returns the new instance at the end of the memory,
whose body it has decoded from the bytes that follow the id; when
`m_loadedRaw` is larger, it returns the null slot at index `id` and takes the
id alone off the stream. -/
theorem sharing_not_across_kinds (fuel : Nat) (S : Schema) (T : Cls) (r : ReadSide) (id : Int)
    (h0 : 0 ≤ id) (h1 : id < 2 ^ 31) (rest : List Nat)
    (hs : r.pool.m_stream = encodeInt 4 id ++ rest) (x : Addr)
    (hx : r.pool.m_loaded[id.toNat]? = some (some x)) (hheap : x < r.heap.length)
    (hraw : ∀ y, r.pool.m_loadedRaw[id.toNat]? ≠ some (some y))
    (hfuel : loadDepth r ≤ fuel) :
    idLoadS (fuel + 1) S T r =
      some (some x, { r with pool := { r.pool with m_stream := rest } }) ∧
    ∃ p r1, idLoad (fuel + 1) S T r = some (p, r1) ∧ p ≠ some x ∧
      ((r.pool.m_loadedRaw.length : Int) ≤ id →
        p = some r.heap.length ∧ (allocatedRaw S T r id).pool.m_stream = rest ∧
        ∃ fs r2, loadFields (loadField (idLoad fuel S) (idLoadS fuel S)) (S T)
            (allocatedRaw S T r id) = some (fs, r2) ∧ r2.pool = r1.pool ∧
          r1.heap[r.heap.length]? = some { cls := T, fields := fs }) ∧
      (id < (r.pool.m_loadedRaw.length : Int) →
        p = none ∧ r1 = { r with pool := { r.pool with m_stream := rest } }) := by
  have hread := readInt_encodeInt 4 id (inRange_id h0 h1) r.pool rest hs
  have hltS : id < (r.pool.m_loaded.length : Int) := by
    rcases Nat.lt_or_ge id.toNat r.pool.m_loaded.length with h | h
    · omega
    · rw [List.getElem?_eq_none h] at hx
      cases hx
  constructor
  · rw [idLoadS_seen fuel S T r id h0 h1 rest hs hltS, List.getD_eq_getElem?_getD, hx]
    rfl
  · obtain ⟨p, r1, hl⟩ := (idLoad_idLoadS_total S (fuel + 1)).1 T r (by omega)
    obtain ⟨hfirst, hseen⟩ := idLoad_first_sight fuel S T r id h0 h1 rest hs
    by_cases hlt : id < (r.pool.m_loadedRaw.length : Int)
    · have hres := hseen hlt
      rw [hl] at hres
      simp only [Option.some.injEq, Prod.mk.injEq] at hres
      obtain ⟨hp, hr1⟩ := hres
      have hnone : r.pool.m_loadedRaw.getD id.toNat none = none := by
        rw [List.getD_eq_getElem?_getD]
        cases he : r.pool.m_loadedRaw[id.toNat]? with
        | none => rfl
        | some e =>
          cases e with
          | none => rfl
          | some y => exact absurd he (hraw y)
      rw [hnone] at hp
      refine ⟨p, r1, hl, ?_, fun hge => by exfalso; omega, fun _ => ⟨hp, hr1⟩⟩
      rw [hp]
      simp
    · have hge : (r.pool.m_loadedRaw.length : Int) ≤ id := by omega
      obtain ⟨hp, -, -, -, hbody, -⟩ := hfirst hge p r1 hl
      refine ⟨p, r1, hl, ?_, fun _ => ⟨hp, ?_, hbody⟩, fun h => absurd h hlt⟩
      · rw [hp]
        intro he
        have hxe : r.heap.length = x := Option.some.inj he
        rw [hxe] at hheap
        exact Nat.lt_irrefl _ hheap
      · simp only [allocatedRaw, hread]

theorem sharing_not_across_kinds_witness :
    idLoadS (2 + 1) emptySchema 0
        ⟨{ emptyPool with m_stream := [0, 0, 0, 0, 9], m_loaded := [some 0] },
          [{ cls := 0, fields := [] }]⟩ =
      some (some 0,
        { (⟨{ emptyPool with m_stream := [0, 0, 0, 0, 9], m_loaded := [some 0] },
            [{ cls := 0, fields := [] }]⟩ : ReadSide) with
          pool := { emptyPool with m_stream := [9], m_loaded := [some 0] } }) ∧
    ∃ p r1, idLoad (2 + 1) emptySchema 0
        ⟨{ emptyPool with m_stream := [0, 0, 0, 0, 9], m_loaded := [some 0] },
          [{ cls := 0, fields := [] }]⟩ = some (p, r1) ∧ p ≠ some 0 :=
  have h := sharing_not_across_kinds 2 emptySchema 0
    ⟨{ emptyPool with m_stream := [0, 0, 0, 0, 9], m_loaded := [some 0] },
      [{ cls := 0, fields := [] }]⟩ 0 (by decide) (by decide) [9] (by decide) 0 (by decide)
    (by decide) (by intro y h; simp [emptyPool] at h) (by decide)
  ⟨h.1, h.2.imp fun _ hp => hp.imp fun _ hr => ⟨hr.1, hr.2.1⟩⟩

/-- The two cases of C17 evaluated.  With an empty `m_loadedRaw`, `idLoad` on
id 0 allocates a second instance, at address 1, although `m_loaded` holds the
instance 0 at id 0; with `m_loadedRaw = [none]` it returns null. -/
theorem sharing_not_across_kinds_example :
    (idLoad 2 emptySchema 0
        ⟨{ emptyPool with m_stream := [0, 0, 0, 0], m_loaded := [some 0] },
          [{ cls := 0, fields := [] }]⟩).map (fun x => (x.1, x.2.heap.length)) =
      some (some 1, 2) ∧
    (idLoad 2 emptySchema 0
        ⟨{ emptyPool with m_stream := [0, 0, 0, 0], m_loaded := [some 0], m_loadedRaw := [none] },
          [{ cls := 0, fields := [] }]⟩).map (fun x => (x.1, x.2.heap.length)) =
      some (none, 1) := by
  constructor <;> decide

/-- **C18** (counterexample) The claim as stated fails for a `.js` target, and
for a target named `wine` that is not an executable file.  On the example
host, which is not Windows, the target `app.js` of a product for Windows is
started with the Node.js binary found in `PATH`, not with `wine`, and the
target stands twice in the arguments; and for the target `wine` of a product
for Windows no process is started at all. -/
theorem windows_target_counterexample :
    [QLatin1String "windows"].contains (QLatin1String "windows") = true ∧
    exampleHost.isWindowsHost = false ∧
    runTarget exampleHost [QLatin1String "windows"] (QLatin1String "app.js")
        [QLatin1String "x"] =
      RunResult.started (QLatin1String "/b/nodejs")
        [QLatin1String "app.js", QLatin1String "app.js", QLatin1String "x"] ∧
    QLatin1String "/b/nodejs" ≠ QLatin1String "wine" ∧
    exampleHost.isExecutable (QLatin1String "wine") = false ∧
    runTarget exampleHost [QLatin1String "windows"] (QLatin1String "wine")
        [QLatin1String "x"] = RunResult.exitFailure := by
  decide

/-- **C18** (as amended) Windows targets run through Wine on other hosts.  The
property `qbs.targetOS` contains `windows`, the host is not Windows, the
complete suffix of the target is not `js`, and the target, if it is itself
named `wine`, is an executable file.  Then `runTarget` starts `wine`; the arguments are `msiexec`,
`/package`, the native path of the target and the arguments given, for an
`.msi` target, and the target and the arguments given otherwise: that is, the
program a Windows host would start, followed by its arguments. -/
theorem windows_target_through_wine (host : Host) (targetOS : List QString)
    (targetBin : QString) (arguments : List QString)
    (hos : targetOS.contains (QLatin1String "windows") = true)
    (hhost : host.isWindowsHost = false)
    (hjs : host.completeSuffix targetBin ≠ QLatin1String "js")
    (hbin : targetBin = QLatin1String "wine" → host.isExecutable targetBin = true) :
    runTarget host targetOS targetBin arguments =
      RunResult.started (QLatin1String "wine")
        (if host.completeSuffix targetBin = QLatin1String "msi" then
          QLatin1String "msiexec" :: QLatin1String "/package" ::
            host.toNativeSeparators targetBin :: arguments
        else targetBin :: arguments) ∧
    runTarget host targetOS targetBin arguments =
      RunResult.started (QLatin1String "wine")
        ((targetCommand { host with isWindowsHost := true } targetOS targetBin arguments).1 ::
          (targetCommand { host with isWindowsHost := true } targetOS targetBin arguments).2) := by
  have hcmd := targetCommand_wine host targetOS targetBin arguments hos hhost hjs
  have hrun := runTarget_started host targetOS targetBin arguments (by
    intro h
    rw [hcmd] at h
    exact hbin h.symm)
  rw [hcmd] at hrun
  refine ⟨hrun, ?_⟩
  rw [hrun, targetCommand_windows { host with isWindowsHost := true } targetOS targetBin
    arguments hos rfl hjs]
  by_cases hmsi : host.completeSuffix targetBin = QLatin1String "msi"
  · simp [hmsi]
  · simp [hmsi]

theorem windows_target_through_wine_witness :
    runTarget exampleHost [QLatin1String "windows"] (QLatin1String "setup.msi")
        [QLatin1String "/q"] =
      RunResult.started (QLatin1String "wine")
        (if exampleHost.completeSuffix (QLatin1String "setup.msi") = QLatin1String "msi" then
          QLatin1String "msiexec" :: QLatin1String "/package" ::
            exampleHost.toNativeSeparators (QLatin1String "setup.msi") :: [QLatin1String "/q"]
        else QLatin1String "setup.msi" :: [QLatin1String "/q"]) ∧
    runTarget exampleHost [QLatin1String "windows"] (QLatin1String "setup.msi")
        [QLatin1String "/q"] =
      RunResult.started (QLatin1String "wine")
        ((targetCommand { exampleHost with isWindowsHost := true } [QLatin1String "windows"]
              (QLatin1String "setup.msi") [QLatin1String "/q"]).1 ::
          (targetCommand { exampleHost with isWindowsHost := true } [QLatin1String "windows"]
              (QLatin1String "setup.msi") [QLatin1String "/q"]).2) :=
  windows_target_through_wine exampleHost [QLatin1String "windows"] (QLatin1String "setup.msi")
    [QLatin1String "/q"] (by decide) (by decide) (by decide) (by decide)

/-- The starts of C18 evaluated on the example host: an `.msi` target and an
`.exe` target of a product for Windows. -/
theorem windows_target_example :
    runTarget exampleHost [QLatin1String "windows"] (QLatin1String "setup.msi")
        [QLatin1String "/q"] =
      RunResult.started (QLatin1String "wine")
        [QLatin1String "msiexec", QLatin1String "/package", QLatin1String "setup.msi",
          QLatin1String "/q"] ∧
    runTarget exampleHost [QLatin1String "windows"] (QLatin1String "app.exe")
        [QLatin1String "x"] =
      RunResult.started (QLatin1String "wine") [QLatin1String "app.exe", QLatin1String "x"] := by
  decide

/-- **C19** (the check of the executable).  `runTarget` ends with
`EXIT_FAILURE` and no process exactly when the executable it has chosen equals
the target binary and that file is not executable; in every other case it
starts the chosen executable with the arguments computed, in particular
whenever the chosen executable differs from the target binary.  The check is
not skipped for every target run through another application: on the example
host the target named `wine` of a product for Windows is run through `wine`,
with the arguments `[wine]`, and the call ends with `EXIT_FAILURE`, because
the name of the application equals the target binary. -/
theorem executable_check :
    (∀ (host : Host) (targetOS : List QString) (targetBin : QString) (arguments : List QString),
      runTarget host targetOS targetBin arguments = RunResult.exitFailure ↔
        (targetCommand host targetOS targetBin arguments).1 = targetBin ∧
          host.isExecutable targetBin = false) ∧
    (∀ (host : Host) (targetOS : List QString) (targetBin : QString) (arguments : List QString),
      runTarget host targetOS targetBin arguments ≠ RunResult.exitFailure →
        runTarget host targetOS targetBin arguments =
          RunResult.started (targetCommand host targetOS targetBin arguments).1
            (targetCommand host targetOS targetBin arguments).2) ∧
    (∀ (host : Host) (targetOS : List QString) (targetBin : QString) (arguments : List QString),
      (targetCommand host targetOS targetBin arguments).1 ≠ targetBin →
        runTarget host targetOS targetBin arguments =
          RunResult.started (targetCommand host targetOS targetBin arguments).1
            (targetCommand host targetOS targetBin arguments).2) ∧
    (exampleHost.isWindowsHost = false ∧
      targetCommand exampleHost [QLatin1String "windows"] (QLatin1String "wine") [] =
        (QLatin1String "wine", [QLatin1String "wine"]) ∧
      runTarget exampleHost [QLatin1String "windows"] (QLatin1String "wine") [] =
        RunResult.exitFailure) := by
  refine ⟨runTarget_exitFailure_iff, ?_, ?_, by decide⟩
  · intro host targetOS targetBin arguments hne
    apply runTarget_started
    intro h1
    cases he : host.isExecutable targetBin
    · exact absurd
        ((runTarget_exitFailure_iff host targetOS targetBin arguments).2 ⟨h1, he⟩) hne
    · rfl
  · intro host targetOS targetBin arguments hne
    exact runTarget_started host targetOS targetBin arguments (fun h => absurd h hne)

/-- **C20** (search order of `findExecutable`).  `PATH` is the parts `parts`
joined by the path list separator, as every string is; the directories
searched are the parts that are not empty, in order.  If `name` is the first
of the file names that exists in some directory, and `dir` is the first
directory in which `name` exists, the result is the cleaned path of
`dir/name`, wherever later names exist; such a first name and directory are
there as soon as some name exists in some directory; if no name exists in any
directory the result is the empty string; and when `QDir::cleanPath` gives no
empty path for a path that is not empty, the result is the empty string only
then. -/
theorem findExecutable_search_order (host : Host) (fileNames parts : List QString)
    (hPATH : host.PATH = joinWith host.pathListSeparator parts)
    (hparts : ∀ p ∈ parts, host.pathListSeparator ∉ p) :
    (∀ (front : List QString) (name : QString) (back dfront : List QString) (dir : QString)
        (dback : List QString),
      fileNames = front ++ name :: back →
      parts.filter (fun p => p ≠ []) = dfront ++ dir :: dback →
      (∀ n ∈ front, ∀ d ∈ parts.filter (fun p => p ≠ []),
        host.fileExists (fullPath d n) = false) →
      (∀ d ∈ dfront, host.fileExists (fullPath d name) = false) →
      host.fileExists (fullPath dir name) = true →
      findExecutable host fileNames = host.cleanPath (fullPath dir name)) ∧
    ((∃ n ∈ fileNames, ∃ d ∈ parts.filter (fun p => p ≠ []),
        host.fileExists (fullPath d n) = true) →
      ∃ front name back dfront dir dback,
        fileNames = front ++ name :: back ∧
        parts.filter (fun p => p ≠ []) = dfront ++ dir :: dback ∧
        (∀ n ∈ front, ∀ d ∈ parts.filter (fun p => p ≠ []),
          host.fileExists (fullPath d n) = false) ∧
        (∀ d ∈ dfront, host.fileExists (fullPath d name) = false) ∧
        host.fileExists (fullPath dir name) = true) ∧
    ((∀ n ∈ fileNames, ∀ d ∈ parts.filter (fun p => p ≠ []),
        host.fileExists (fullPath d n) = false) →
      findExecutable host fileNames = []) ∧
    ((∀ p, p ≠ [] → host.cleanPath p ≠ []) →
      (findExecutable host fileNames = [] ↔
        ∀ n ∈ fileNames, ∀ d ∈ parts.filter (fun p => p ≠ []),
          host.fileExists (fullPath d n) = false)) ∧
    (∀ (sep : Nat) (path : QString),
      ∃ ps, path = joinWith sep ps ∧ ∀ p ∈ ps, sep ∉ p) := by
  have hpath : host.path = parts.filter (fun p => p ≠ []) := by
    unfold Host.path
    rw [hPATH]
    exact split_joinWith host.pathListSeparator parts hparts
  obtain ⟨h1, h2, h3, h4⟩ := findExecutable_on_path host fileNames
  rw [hpath] at h1 h2 h3 h4
  refine ⟨h1, h2, h3, h4, ?_⟩
  intro sep path
  obtain ⟨p, ps, hs, hfree⟩ := exists_joinWith sep path
  exact ⟨p :: ps, hs, hfree⟩

/-- The instance of `findExecutable_search_order` for the example host with
the `PATH` `/a::/b`, which has an empty part: `node` is in the first directory
and `nodejs` in the second, and `nodejs` is found. -/
theorem findExecutable_search_order_witness :
    (({ exampleHost with PATH := QLatin1String "/a::/b" } : Host).PATH =
        joinWith exampleHost.pathListSeparator
          [QLatin1String "/a", [], QLatin1String "/b"] ∧
      [QLatin1String "nodejs", QLatin1String "node"] =
        [] ++ QLatin1String "nodejs" :: [QLatin1String "node"] ∧
      [QLatin1String "/a", [], QLatin1String "/b"].filter (fun p => p ≠ []) =
        [QLatin1String "/a"] ++ QLatin1String "/b" :: [] ∧
      exampleHost.fileExists (fullPath (QLatin1String "/a") (QLatin1String "node")) = true) ∧
    findExecutable { exampleHost with PATH := QLatin1String "/a::/b" }
        [QLatin1String "nodejs", QLatin1String "node"] =
      exampleHost.cleanPath (fullPath (QLatin1String "/b") (QLatin1String "nodejs")) :=
  ⟨⟨by decide, rfl, by decide, by decide⟩,
    (findExecutable_search_order { exampleHost with PATH := QLatin1String "/a::/b" }
      [QLatin1String "nodejs", QLatin1String "node"]
      [QLatin1String "/a", [], QLatin1String "/b"] (by decide) (by decide)).1
      [] (QLatin1String "nodejs") [QLatin1String "node"] [QLatin1String "/a"]
      (QLatin1String "/b") [] rfl (by decide) (by decide) (by decide) (by decide)⟩

/-- The search of C20 on the example host, where `node` is in the first
directory of `PATH` and `nodejs` in the second: `nodejs` is found, `node` is
found when asked for alone, and a name that is nowhere gives the empty
string. -/
theorem findExecutable_example :
    exampleHost.path = [QLatin1String "/a", QLatin1String "/b"] ∧
    findExecutable exampleHost [QLatin1String "nodejs", QLatin1String "node"] =
      QLatin1String "/b/nodejs" ∧
    findExecutable exampleHost [QLatin1String "node"] = QLatin1String "/a/node" ∧
    findExecutable exampleHost [QLatin1String "deno"] = [] := by
  decide

end Internal
end qbs
